import Mathlib

/-!
# The LLVM code generator of taco (`src/codegen/codegen_llvm.cpp`)

A shallow embedding of `CodeGen_LLVM`: the IR it consumes, the builder state it
mutates (symbol table, `value`, basic blocks, insertion point), one definition
per `visit` overload, and a small-step reading of the emitted control-flow
graph.  Recursion is driven by fuel: `visit(const Neg*)` calls `codegen` on the
node it is visiting, so the source recursion is not structural.

C++ leaves the order in which the arguments of one call are evaluated
unspecified.  Every definition that embeds a call with two `codegen` arguments
takes a flag `rtl` (right-to-left when true) and the theorems quantify over it.
-/

namespace taco
namespace ir

/-! ## IR data model -/

/-- Numeric kinds of the IR: unsigned integer, signed integer, float, complex. -/
inductive Kind
  | uint | sint | float | complex
  deriving DecidableEq, Repr

/-- Modelled from the spec: `Datatype` (declared in taco/type.h, which is not under
src): a numeric kind with a bit width, "signed-int-N, unsigned-int-N, float-N". -/
structure Datatype where
  kind : Kind
  bits : Nat
  deriving DecidableEq, Repr

def Datatype.isFloat (t : Datatype) : Bool := decide (t.kind = Kind.float)
def Datatype.isUInt (t : Datatype) : Bool := decide (t.kind = Kind.uint)
def Datatype.isInt (t : Datatype) : Bool := decide (t.kind = Kind.sint)
def Datatype.isComplex (t : Datatype) : Bool := decide (t.kind = Kind.complex)
def Datatype.getNumBits (t : Datatype) : Nat := t.bits
def Datatype.getNumBytes (t : Datatype) : Nat := (t.bits + 7) / 8

def Datatype.UInt (bits : Nat) : Datatype := ⟨Kind.uint, bits⟩
def Datatype.Int (bits : Nat) : Datatype := ⟨Kind.sint, bits⟩
def Datatype.Float (bits : Nat) : Datatype := ⟨Kind.float, bits⟩
def Int32 : Datatype := Datatype.Int 32
def Int64 : Datatype := Datatype.Int 64

/-- The eight keys of `indexForProp` (codegen_llvm.cpp:610-620). -/
inductive TensorProperty
  | Order | Dimension | ComponentSize | ModeOrdering | ModeTypes | Indices
  | Values | ValuesSize
  deriving DecidableEq, Repr

/-- Loop kinds; the generator accepts `Serial` only. -/
inductive LoopKind
  | Serial | Parallel | Vectorized
  deriving DecidableEq, Repr

/-- IR expressions, one constructor per `visit(const X*)` overload on expressions.
A literal carries its value as a mathematical integer (for a float type the
integer is an uninterpreted payload). -/
inductive Expr
  | Literal (type : Datatype) (val : Int)
  | Var (type : Datatype) (name : String)
  | Neg (type : Datatype) (a : Expr)
  | Sqrt (type : Datatype) (a : Expr)
  | Add (type : Datatype) (a b : Expr)
  | Sub (type : Datatype) (a b : Expr)
  | Mul (type : Datatype) (a b : Expr)
  | Div (type : Datatype) (a b : Expr)
  | Rem (type : Datatype) (a b : Expr)
  | Min (type : Datatype) (operands : List Expr)
  | Max (type : Datatype) (a b : Expr)
  | BitAnd (type : Datatype) (a b : Expr)
  | BitOr (type : Datatype) (a b : Expr)
  | Eq (type : Datatype) (a b : Expr)
  | Neq (type : Datatype) (a b : Expr)
  | Gt (type : Datatype) (a b : Expr)
  | Lt (type : Datatype) (a b : Expr)
  | Gte (type : Datatype) (a b : Expr)
  | Lte (type : Datatype) (a b : Expr)
  | And (type : Datatype) (a b : Expr)
  | Or (type : Datatype) (a b : Expr)
  | Cast (type : Datatype) (a : Expr)
  | Load (type : Datatype) (arr loc : Expr)
  | GetProperty (type : Datatype) (tensor : Expr) (property : TensorProperty) (mode : Int)

/-- The declared type of an expression (`Expr::type()`). -/
def Expr.type : Expr → Datatype
  | .Literal t _ | .Var t _ | .Neg t _ | .Sqrt t _ | .Add t _ _ | .Sub t _ _
  | .Mul t _ _ | .Div t _ _ | .Rem t _ _ | .Min t _ | .Max t _ _ | .BitAnd t _ _
  | .BitOr t _ _ | .Eq t _ _ | .Neq t _ _ | .Gt t _ _ | .Lt t _ _ | .Gte t _ _
  | .Lte t _ _ | .And t _ _ | .Or t _ _ | .Cast t _ | .Load t _ _
  | .GetProperty t _ _ _ => t

/-- IR statements, one constructor per `visit(const X*)` overload on statements. -/
inductive Stmt
  | IfThenElse (cond : Expr) (then_ : Stmt) (otherwise : Stmt)
  | Comment (text : String)
  | BlankLine
  | Scope (scopedStmt : Stmt)
  | Case (clauses : List (Expr × Stmt)) (alwaysMatch : Bool)
  | Switch (cases : List (Expr × Stmt)) (controlExpr : Expr)
  | Function (name : String) (body : Stmt) (inputs outputs : List Expr)
  | Allocate (var : Expr) (num_elements : Expr)
  | Block (contents : List Stmt)
  | While (cond : Expr) (contents : Stmt) (kind : LoopKind)
  | For (var start end_ increment : Expr) (kind : LoopKind) (contents : Stmt)
  | VarAssign (lhs rhs : Expr) (is_decl : Bool)
  | Store (arr loc data : Expr)
  | Print

/-- Modelled from the spec: `Literal::make(int)` (ir.h is not under src): an
integer literal of the 32-bit signed type. -/
def Literal.make (v : Int) : Expr := Expr.Literal Int32 v

/-- Modelled from the spec: `Cast::make(a, type)` (ir.h is not under src). -/
def Cast.make (a : Expr) (t : Datatype) : Expr := Expr.Cast t a

/-- Modelled from the spec: `Mul::make(a, b)` (ir.h is not under src); the node
has the type of its first operand. -/
def Mul.make (a b : Expr) : Expr := Expr.Mul a.type a b

/-! ## Native (LLVM) side: types, values, instructions -/

mutual
/-- Native types. A struct lists its element types and whether it is packed. -/
inductive LType
  | void
  | int (bits : Nat)
  | float
  | double
  | ptr (t : LType)
  | struct (elems : LTypes) (isPacked : Bool)
  deriving DecidableEq
/-- Element lists of struct types. -/
inductive LTypes
  | nil
  | cons (t : LType) (ts : LTypes)
  deriving DecidableEq
end

def LType.getPointerTo (t : LType) : LType := LType.ptr t

def LTypes.ofList : List LType → LTypes
  | [] => LTypes.nil
  | t :: ts => LTypes.cons t (LTypes.ofList ts)

def LTypes.toList : LTypes → List LType
  | LTypes.nil => []
  | LTypes.cons t ts => t :: LTypes.toList ts

/-- Number of pointer levels of a type (`i32**` has depth 2). -/
def LType.ptrDepth : LType → Nat
  | LType.ptr t => t.ptrDepth + 1
  | _ => 0

/-- SSA value handles (`llvm::Value*`). `null` is the null pointer; constants are
identified by type and bit pattern; an instruction handle carries the unique id
of the instruction and its result type. -/
inductive Value
  | null
  | constInt (bits : Nat) (val : Nat)
  | constFP (ty : LType) (payload : Int)
  | arg (i : Nat) (ty : LType)
  | inst (id : Nat) (ty : LType)
  deriving DecidableEq

def Value.getType : Value → LType
  | .null => LType.void
  | .constInt bits _ => LType.int bits
  | .constFP ty _ => ty
  | .arg _ ty => ty
  | .inst _ ty => ty

inductive BinKind
  | FAdd | FSub | FMul | FDiv | Add | Sub | Mul | NSWAdd | ExactUDiv | ExactSDiv
  | And | Or | MinNum | MaxNum
  deriving DecidableEq, Repr

inductive IPred
  | EQ | NE | UGT | ULT | UGE | ULE | SGT | SLT | SGE | SLE
  deriving DecidableEq, Repr

inductive FPred
  | OEQ | ONE | OGT | OLT | OGE | OLE
  deriving DecidableEq, Repr

/-- The instructions the generator creates. Block operands are block indices. -/
inductive Op
  | bin (k : BinKind) (a b : Value)
  | icmp (p : IPred) (a b : Value)
  | fcmp (p : FPred) (a b : Value)
  | fpcast (v : Value) (ty : LType)
  | intcast (v : Value) (ty : LType) (isSigned : Bool)
  | phi (incoming : List (Value × Nat))
  | gep (base : Value) (idx : List Value)
  | load (p : Value)
  | store (v p : Value)
  | alloca (ty : LType)
  | call (callee : String) (args : List Value)
  | br (dest : Nat)
  | condbr (c : Value) (t f : Nat)
  | switch (c : Value) (dflt : Nat) (cases : List (Value × Nat))
  | ret (v : Value)
  deriving DecidableEq

structure Instr where
  id : Nat
  ty : LType
  op : Op
  deriving DecidableEq

structure BasicBlock where
  name : String
  instrs : List Instr
  deriving DecidableEq

inductive Attribute
  | NoAlias
  deriving DecidableEq, Repr

/-- The declaration `llvm::Function::Create` makes: name, return type, parameter
types and the attributes of each parameter. -/
structure LFunction where
  name : String
  retTy : LType
  params : List LType
  paramAttrs : List (List Attribute)
  deriving DecidableEq

/-! ## Generator state -/

/-- Ways in which the generator does not return to its caller. -/
inductive Abort
  | ierror
  | tassert
  | undefined
  | outOfFuel
  | exit (code : Nat)
  deriving DecidableEq, Repr

/-- Modelled from the spec: `util::ScopedMap` (taco/util/scopedmap.h is not under
src): "ordered stack of scopes; each scope is a mapping from variable name to SSA
value". The head of the list is the innermost scope, and within a scope the most
recent binding of a name comes first. -/
abbrev ScopedMap := List (List (String × Value))

/-- Modelled from the spec: `ScopedMap::scope`, "pushScope()". -/
def ScopedMap.scope (m : ScopedMap) : ScopedMap := [] :: m

/-- Modelled from the spec: `ScopedMap::unscope`, "popScope() (must be paired;
unpaired pop is an internal-error condition)". -/
def ScopedMap.unscope : ScopedMap → Except Abort ScopedMap
  | [] => .error Abort.ierror
  | _ :: rest => .ok rest

/-- Modelled from the spec: `ScopedMap::insert`, "bind(name, value) (inserts into
the current innermost scope; rebinding the same name in the same scope
overwrites)". -/
def ScopedMap.insert (m : ScopedMap) (name : String) (v : Value) : Except Abort ScopedMap :=
  match m with
  | [] => .error Abort.ierror
  | s :: rest => .ok (((name, v) :: s) :: rest)

/-- Innermost-to-outermost search. -/
def ScopedMap.find? : ScopedMap → String → Option Value
  | [], _ => none
  | s :: rest, name =>
    match s.lookup name with
    | some v => some v
    | none => ScopedMap.find? rest name

/-- Modelled from the spec: `ScopedMap::get`, "lookup(name) (fails with an
internal error if absent)". -/
def ScopedMap.get (m : ScopedMap) (name : String) : Except Abort Value :=
  match m.find? name with
  | some v => .ok v
  | none => .error Abort.ierror

/-- Modelled from the spec: `ScopedMap::contains`, "non-failing existence check". -/
def ScopedMap.contains (m : ScopedMap) (name : String) : Bool := (m.find? name).isSome

/-- The mutable members of `CodeGen_LLVM` together with the module under
construction: `blocks` are the basic blocks created so far (a block handle is its
index), `insertBlock` is the builder's insertion block (instructions are appended
at its end), `nextId` numbers the instructions. -/
structure CG where
  symbolTable : ScopedMap
  value : Value
  blocks : List BasicBlock
  insertBlock : Option Nat
  nextId : Nat
  function : Option LFunction
  currentFunctionArgs : List Expr

def pushScope (st : CG) : CG := { st with symbolTable := st.symbolTable.scope }

def popScope (st : CG) : Except Abort CG := do
  let m ← st.symbolTable.unscope
  pure { st with symbolTable := m }

def getSymbol (name : String) (st : CG) : Except Abort Value := st.symbolTable.get name

def pushSymbol (name : String) (v : Value) (st : CG) : Except Abort CG := do
  let m ← st.symbolTable.insert name v
  pure { st with symbolTable := m }

def containsSymbol (name : String) (st : CG) : Bool := st.symbolTable.contains name

/-! ## Builder primitives

The `IRBuilder` calls are modelled as inserting the named instruction at the end
of the insertion block and returning its handle (no constant folding). A call
that receives a null operand dereferences it. -/

def updateBlock : List BasicBlock → Nat → (BasicBlock → BasicBlock) → List BasicBlock
  | [], _, _ => []
  | x :: xs, 0, f => f x :: xs
  | x :: xs, n + 1, f => x :: updateBlock xs n f

def appendInstr (blocks : List BasicBlock) (b : Nat) (i : Instr) : List BasicBlock :=
  updateBlock blocks b (fun bb => { bb with instrs := bb.instrs ++ [i] })

/-- Creates an instruction with a fresh id and inserts it at the insertion
point; without an insertion block the instruction stays detached. -/
def emit (ty : LType) (op : Op) (st : CG) : Value × CG :=
  (Value.inst st.nextId ty,
   { st with
     nextId := st.nextId + 1
     blocks := match st.insertBlock with
       | none => st.blocks
       | some b => appendInstr st.blocks b ⟨st.nextId, ty, op⟩ })

/-- `BasicBlock::Create(*context, name, function)`. -/
def createBlock (name : String) (st : CG) : Nat × CG :=
  (st.blocks.length, { st with blocks := st.blocks ++ [⟨name, []⟩] })

/-- `builder->SetInsertPoint(bb)`. -/
def SetInsertPoint (bb : Nat) (st : CG) : CG := { st with insertBlock := some bb }

def CreateBinOp (k : BinKind) (a b : Value) (st : CG) : Except Abort (Value × CG) :=
  if a = Value.null ∨ b = Value.null then .error Abort.undefined
  else .ok (emit a.getType (Op.bin k a b) st)

def CreateICmp (p : IPred) (a b : Value) (st : CG) : Except Abort (Value × CG) :=
  if a = Value.null ∨ b = Value.null then .error Abort.undefined
  else .ok (emit (LType.int 1) (Op.icmp p a b) st)

def CreateFCmp (p : FPred) (a b : Value) (st : CG) : Except Abort (Value × CG) :=
  if a = Value.null ∨ b = Value.null then .error Abort.undefined
  else .ok (emit (LType.int 1) (Op.fcmp p a b) st)

def CreateFPCast (v : Value) (ty : LType) (st : CG) : Except Abort (Value × CG) :=
  if v = Value.null then .error Abort.undefined
  else .ok (emit ty (Op.fpcast v ty) st)

def CreateIntCast (v : Value) (ty : LType) (isSigned : Bool) (st : CG) : Except Abort (Value × CG) :=
  if v = Value.null then .error Abort.undefined
  else .ok (emit ty (Op.intcast v ty isSigned) st)

/-- Type reached from `t` by the remaining indices of a GEP (struct fields are
selected by integer constants). -/
def indexedType : LType → List Value → Option LType
  | t, [] => some t
  | LType.struct elems _, Value.constInt _ k :: rest =>
    match elems.toList.get? k with
    | some ft => indexedType ft rest
    | none => none
  | _, _ :: _ => none

/-- `builder->CreateGEP(base, idx)`: the first index steps over the pointer, the
others select fields. -/
def CreateGEP (base : Value) (idx : List Value) (st : CG) : Except Abort (Value × CG) :=
  if base = Value.null ∨ Value.null ∈ idx then .error Abort.undefined
  else
    match base.getType, idx with
    | LType.ptr t, _ :: rest =>
      match indexedType t rest with
      | some rt => .ok (emit (LType.ptr rt) (Op.gep base idx) st)
      | none => .error Abort.undefined
    | _, _ => .error Abort.undefined

def CreateLoad (p : Value) (st : CG) : Except Abort (Value × CG) :=
  match p.getType with
  | LType.ptr t => .ok (emit t (Op.load p) st)
  | _ => .error Abort.undefined

def CreateStore (v p : Value) (st : CG) : Except Abort (Value × CG) :=
  if v = Value.null ∨ p = Value.null then .error Abort.undefined
  else .ok (emit LType.void (Op.store v p) st)

def CreateAlloca (ty : LType) (st : CG) : Except Abort (Value × CG) :=
  .ok (emit (LType.ptr ty) (Op.alloca ty) st)

def CreateCall (callee : String) (retTy : LType) (args : List Value) (st : CG) : Except Abort (Value × CG) :=
  if Value.null ∈ args then .error Abort.undefined
  else .ok (emit retTy (Op.call callee args) st)

def CreateBr (dest : Nat) (st : CG) : Value × CG := emit LType.void (Op.br dest) st

def CreateCondBr (c : Value) (t f : Nat) (st : CG) : Except Abort (Value × CG) :=
  if c = Value.null then .error Abort.undefined
  else .ok (emit LType.void (Op.condbr c t f) st)


def CreateRet (v : Value) (st : CG) : Value × CG := emit LType.void (Op.ret v) st

/-- Handle of an instruction that is later mutated (`PHINode*`, `SwitchInst*`):
the block it was inserted in, if any, and its id. -/
structure InstrRef where
  parent : Option Nat
  id : Nat
  deriving DecidableEq

/-- Applies `f` to the operation of the instruction `r` refers to. -/
def updateInstr (r : InstrRef) (f : Op → Op) (st : CG) : CG :=
  match r.parent with
  | none => st
  | some b =>
    { st with blocks := updateBlock st.blocks b (fun bb =>
        { bb with instrs := bb.instrs.map (fun i => if i.id = r.id then { i with op := f i.op } else i) }) }

/-- `builder->CreateSwitch(c, dflt, n)`: a switch without cases yet. -/
def CreateSwitch (c : Value) (dflt : Nat) (st : CG) : Except Abort (InstrRef × CG) :=
  if c = Value.null then .error Abort.undefined
  else .ok (⟨st.insertBlock, st.nextId⟩, (emit LType.void (Op.switch c dflt []) st).2)

/-- `builder->CreatePHI(ty, 2)`: a phi without incoming values yet. -/
def CreatePHI (ty : LType) (st : CG) : (Value × InstrRef) × CG :=
  let r := emit ty (Op.phi []) st
  ((r.1, ⟨st.insertBlock, st.nextId⟩), r.2)

/-- `phi->addIncoming(v, bb)`. -/
def addIncoming (phi : InstrRef) (v : Value) (bb : Nat) (st : CG) : CG :=
  updateInstr phi (fun op => match op with
    | Op.phi inc => Op.phi (inc ++ [(v, bb)])
    | other => other) st

/-- `theSwitch->addCase(c, bb)`. -/
def addCase (sw : InstrRef) (c : Value) (bb : Nat) (st : CG) : CG :=
  updateInstr sw (fun op => match op with
    | Op.switch x d cases => Op.switch x d (cases ++ [(c, bb)])
    | other => other) st

/-! ## Type mapper and literals -/

/-- `llvmTypeOf` (codegen_llvm.cpp:66-82). -/
def llvmTypeOf (t : Datatype) : Except Abort LType :=
  if t.isComplex then .error Abort.tassert
  else if t.isFloat then
    if t.getNumBits = 32 then .ok LType.float
    else if t.getNumBits = 64 then .ok LType.double
    else .error Abort.ierror
  else .ok (LType.int t.getNumBits)

/-- Host integer types named in `getValue<T>` calls. -/
inductive HostTy
  | uint8_t | uint16_t | uint32_t | uint64_t | unsigned_long_long
  | int8_t | int16_t | int32_t | int64_t | long_long
  deriving DecidableEq, Repr

def HostTy.bits : HostTy → Nat
  | .uint8_t | .int8_t => 8
  | .uint16_t | .int16_t => 16
  | .uint32_t | .int32_t => 32
  | .uint64_t | .int64_t | .unsigned_long_long | .long_long => 64

def HostTy.isSigned : HostTy → Bool
  | .int8_t | .int16_t | .int32_t | .int64_t | .long_long => true
  | _ => false

/-- The value of `v` in a two's complement integer of `bits` bits. -/
def wrapSigned (bits : Nat) (v : Int) : Int :=
  let m := v % ((2 ^ bits : Nat) : Int)
  if 2 * m < ((2 ^ bits : Nat) : Int) then m else m - ((2 ^ bits : Nat) : Int)

/-- Modelled from the spec: `Literal::getValue<T>()` (ir.h is not under src): the
literal's value read as the host type `T`. The result is a value of `T`, so a
value outside the range of `T` is reduced modulo `2 ^ bits` of `T`. -/
def getValue (T : HostTy) (val : Int) : Int :=
  if T.isSigned then wrapSigned T.bits val else val % ((2 ^ T.bits : Nat) : Int)

/-- `ConstantInt::get(ty, V)` with `V` converted to the parameter type `uint64_t`:
the low `bits` bits of `V`, zero-extended above bit 64. -/
def ConstantInt.get (ty : LType) (V : Int) : Except Abort Value :=
  match ty with
  | LType.int bits =>
    .ok (Value.constInt bits (((V % ((2 ^ 64 : Nat) : Int)) % ((2 ^ bits : Nat) : Int)).toNat))
  | _ => .error Abort.undefined

/-- `ConstantInt::getSigned(ty, V)` with `V` converted to the parameter type
`int64_t`: the two's complement pattern of `V` in `bits` bits (sign-extended above
bit 64). -/
def ConstantInt.getSigned (ty : LType) (V : Int) : Except Abort Value :=
  match ty with
  | LType.int bits =>
    .ok (Value.constInt bits ((wrapSigned 64 V % ((2 ^ bits : Nat) : Int)).toNat))
  | _ => .error Abort.undefined

/-- The value a constant denotes when read as unsigned. -/
def Value.decodeUnsigned : Value → Option Int
  | .constInt _ val => some (val : Int)
  | _ => none

/-- The value a constant denotes when read as signed (two's complement). -/
def Value.decodeSigned : Value → Option Int
  | .constInt bits val => some (wrapSigned bits val)
  | _ => none

/-! ## Expression lowering -/

/-- The recursive call `codegen(Expr)` as seen from inside a `visit`. -/
abbrev CodegenE := Expr → CG → Except Abort (Value × CG)

/-- `visit(const Literal*)` (codegen_llvm.cpp:87-137). A `taco_ierror` or a
fall-through without assignment leaves the generator aborted. -/
def visit_Literal (type : Datatype) (val : Int) (st : CG) : Except Abort CG :=
  if type.isFloat then
    if type.getNumBits = 32 then do
      let ty ← llvmTypeOf type
      pure { st with value := Value.constFP ty val }
    else do
      let ty ← llvmTypeOf type
      pure { st with value := Value.constFP ty val }
  else if type.isUInt then
    let T : Option HostTy :=
      if type.getNumBits = 8 then some HostTy.uint8_t
      else if type.getNumBits = 16 then some HostTy.uint16_t
      else if type.getNumBits = 32 then some HostTy.uint32_t
      else if type.getNumBits = 64 then some HostTy.uint64_t
      else if type.getNumBits = 128 then some HostTy.unsigned_long_long
      else none
    match T with
    | some T => do
      let ty ← llvmTypeOf type
      let c ← ConstantInt.get ty (getValue T val)
      pure { st with value := c }
    | none => .error Abort.ierror
  else if type.isInt then
    let T : Option HostTy :=
      if type.getNumBits = 8 then some HostTy.int8_t
      else if type.getNumBits = 16 then some HostTy.int16_t
      else if type.getNumBits = 32 then some HostTy.int32_t
      else if type.getNumBits = 64 then some HostTy.int64_t
      else if type.getNumBits = 128 then some HostTy.long_long
      else none
    match T with
    | some T => do
      let ty ← llvmTypeOf type
      let c ← ConstantInt.getSigned ty (getValue T val)
      pure { st with value := c }
    | none => .error Abort.ierror
  else .error Abort.ierror

/-- `visit(const Var*)`. -/
def visit_Var (name : String) (st : CG) : Except Abort CG := do
  let v ← getSymbol name st
  pure { st with value := v }

/-- Evaluates the two `codegen` arguments of one call, in the order `rtl` selects,
and returns both values. -/
def codegen2 (rtl : Bool) (cg : CodegenE) (a b : Expr) (st : CG) : Except Abort ((Value × Value) × CG) :=
  if rtl then do
    let (vb, st) ← cg b st
    let (va, st) ← cg a st
    pure ((va, vb), st)
  else do
    let (va, st) ← cg a st
    let (vb, st) ← cg b st
    pure ((va, vb), st)

/-- `visit(const Neg*)`: the operand of the subtraction is `codegen(e)`, with `e`
the Neg node itself, and the left operand is the literal `0`, a null pointer. -/
def visit_Neg (cg : CodegenE) (e : Expr) (st : CG) : Except Abort CG := do
  let (v, st) ← cg e st
  let (r, st) ←
    if e.type.isFloat then CreateBinOp BinKind.FSub Value.null v st
    else CreateBinOp BinKind.Sub Value.null v st
  pure { st with value := r }

/-- Shape shared by the visits that assign `value = builder->CreateX(codegen(a),
codegen(b))`. -/
def visitBinary (rtl : Bool) (cg : CodegenE) (k : BinKind) (a b : Expr) (st : CG) :
    Except Abort CG := do
  let ((va, vb), st) ← codegen2 rtl cg a b st
  let (r, st) ← CreateBinOp k va vb st
  pure { st with value := r }

def visit_Add (rtl : Bool) (cg : CodegenE) (type : Datatype) (a b : Expr) (st : CG) :
    Except Abort CG :=
  if type.isFloat then visitBinary rtl cg BinKind.FAdd a b st
  else visitBinary rtl cg BinKind.Add a b st

def visit_Sub (rtl : Bool) (cg : CodegenE) (type : Datatype) (a b : Expr) (st : CG) :
    Except Abort CG :=
  if type.isFloat then visitBinary rtl cg BinKind.FSub a b st
  else visitBinary rtl cg BinKind.Sub a b st

def visit_Mul (rtl : Bool) (cg : CodegenE) (type : Datatype) (a b : Expr) (st : CG) :
    Except Abort CG :=
  if type.isFloat then visitBinary rtl cg BinKind.FMul a b st
  else visitBinary rtl cg BinKind.Mul a b st

def visit_Div (rtl : Bool) (cg : CodegenE) (type : Datatype) (a b : Expr) (st : CG) :
    Except Abort CG :=
  if type.isFloat then visitBinary rtl cg BinKind.FDiv a b st
  else if type.isUInt then visitBinary rtl cg BinKind.ExactUDiv a b st
  else visitBinary rtl cg BinKind.ExactSDiv a b st

/-- The loop `for (size_t i=2; i<e->operands.size(); i++) value =
builder->CreateMinNum(value, codegen(e->operands[i]))`, with `n` iterations left.
The first argument reads the member `value`, which the second argument's
`codegen` call overwrites. -/
def visit_Min.loop (rtl : Bool) (cg : CodegenE) (operands : List Expr) :
    Nat → Nat → CG → Except Abort CG
  | 0, _, st => .ok st
  | n + 1, i, st =>
    match operands.get? i with
    | none => .error Abort.undefined
    | some o =>
      if rtl then do
        let (v, st) ← cg o st
        let (r, st) ← CreateBinOp BinKind.MinNum st.value v st
        visit_Min.loop rtl cg operands n (i + 1) { st with value := r }
      else do
        let lhs := st.value
        let (v, st) ← cg o st
        let (r, st) ← CreateBinOp BinKind.MinNum lhs v st
        visit_Min.loop rtl cg operands n (i + 1) { st with value := r }

/-- `visit(const Min*)` (codegen_llvm.cpp:187-194). -/
def visit_Min (rtl : Bool) (cg : CodegenE) (operands : List Expr) (st : CG) :
    Except Abort CG :=
  match operands.get? 0, operands.get? 1 with
  | some o0, some o1 => do
    let ((v0, v1), st) ← codegen2 rtl cg o0 o1 st
    let (r, st) ← CreateBinOp BinKind.MinNum v0 v1 st
    visit_Min.loop rtl cg operands (operands.length - 2) 2 { st with value := r }
  | _, _ => .error Abort.undefined

/-- Shape shared by the comparison visits: the compare instruction is created
and its result is dropped (no assignment to `value`). -/
def visitCompare (rtl : Bool) (cg : CodegenE) (type : Datatype) (f : FPred) (u s : IPred)
    (a b : Expr) (st : CG) : Except Abort CG := do
  let ((va, vb), st) ← codegen2 rtl cg a b st
  let (_, st) ←
    if type.isFloat then CreateFCmp f va vb st
    else if type.isUInt then CreateICmp u va vb st
    else CreateICmp s va vb st
  pure st

def visit_Eq (rtl : Bool) (cg : CodegenE) (type : Datatype) (a b : Expr) (st : CG) :
    Except Abort CG := do
  let ((va, vb), st) ← codegen2 rtl cg a b st
  let (_, st) ←
    if type.isFloat then CreateFCmp FPred.OEQ va vb st
    else CreateICmp IPred.EQ va vb st
  pure st

def visit_Neq (rtl : Bool) (cg : CodegenE) (type : Datatype) (a b : Expr) (st : CG) :
    Except Abort CG := do
  let ((va, vb), st) ← codegen2 rtl cg a b st
  let (_, st) ←
    if type.isFloat then CreateFCmp FPred.ONE va vb st
    else CreateICmp IPred.NE va vb st
  pure st

def visit_Gt (rtl : Bool) (cg : CodegenE) (type : Datatype) (a b : Expr) (st : CG) :
    Except Abort CG :=
  visitCompare rtl cg type FPred.OGT IPred.UGT IPred.SGT a b st

def visit_Lt (rtl : Bool) (cg : CodegenE) (type : Datatype) (a b : Expr) (st : CG) :
    Except Abort CG :=
  visitCompare rtl cg type FPred.OLT IPred.ULT IPred.SLT a b st

def visit_Gte (rtl : Bool) (cg : CodegenE) (type : Datatype) (a b : Expr) (st : CG) :
    Except Abort CG :=
  visitCompare rtl cg type FPred.OGE IPred.UGE IPred.SGE a b st

def visit_Lte (rtl : Bool) (cg : CodegenE) (type : Datatype) (a b : Expr) (st : CG) :
    Except Abort CG :=
  visitCompare rtl cg type FPred.OLE IPred.ULE IPred.SLE a b st

/-- `visit(const Cast*)`. -/
def visit_Cast (rtl : Bool) (cg : CodegenE) (type : Datatype) (a : Expr) (st : CG) :
    Except Abort CG := do
  let (v, ty, st) ←
    (if rtl then do
      let ty ← llvmTypeOf type
      let (v, st) ← cg a st
      pure (v, ty, st)
    else do
      let (v, st) ← cg a st
      let ty ← llvmTypeOf type
      pure (v, ty, st) : Except Abort (Value × LType × CG))
  let (r, st) ←
    if type.isFloat then CreateFPCast v ty st
    else CreateIntCast v ty (!type.isUInt) st
  pure { st with value := r }

/-- `visit(const Sqrt*)`: the call is created and its result is dropped. -/
def visit_Sqrt (cg : CodegenE) (a : Expr) (st : CG) : Except Abort CG := do
  let argTy ← llvmTypeOf a.type
  let (v, st) ← cg a st
  let (_, st) ← CreateCall "llvm.sqrt" argTy [v] st
  pure st

/-- `visit(const Load*)`: the index list of the GEP is `{0, loc}`, whose first
element is a null pointer. -/
def visit_Load (cg : CodegenE) (arr loc : Expr) (st : CG) : Except Abort CG := do
  let (l, st) ← cg loc st
  let (array, st) ← cg arr st
  let (g, st) ← CreateGEP array [Value.null, l] st
  let (r, st) ← CreateLoad g st
  pure { st with value := r }

/-- The table `indexForProp` (codegen_llvm.cpp:610-620). -/
def indexForProp : TensorProperty → Nat
  | .Order => 0
  | .Dimension => 1
  | .ComponentSize => 2
  | .ModeOrdering => 3
  | .ModeTypes => 4
  | .Indices => 5
  | .Values => 6
  | .ValuesSize => 7

def TensorProperty.text : TensorProperty → String
  | .Order => "order"
  | .Dimension => "dimension"
  | .ComponentSize => "csize"
  | .ModeOrdering => "mode_ordering"
  | .ModeTypes => "mode_types"
  | .Indices => "indices"
  | .Values => "vals"
  | .ValuesSize => "vals_size"

/-- The properties that are per-mode arrays (codegen_llvm.cpp:641-644). -/
def TensorProperty.perMode : TensorProperty → Bool
  | .Dimension | .ModeOrdering | .ModeTypes | .Indices => true
  | _ => false

/-- Modelled from the spec: `util::toString` on an expression (taco/util/strings.h
and the IR printer are not under src). A variable prints as its name; a property
access prints as its "canonical key (tensor identity, property kind, mode index
where applicable)". -/
def util.toString : Expr → String
  | .Var _ name => name
  | .GetProperty _ tensor property mode =>
    let t := match tensor with
      | .Var _ name => name
      | _ => "?"
    if property.perMode then t ++ "." ++ property.text ++ "." ++ ToString.toString mode
    else t ++ "." ++ property.text
  | .Literal _ val => ToString.toString val
  | _ => "?"

/-- `visit(const GetProperty*)` (codegen_llvm.cpp:623-650). In the second GEP,
`builder->CreateGEP(value, codegen(Literal::make(e->mode)))`, the first argument
reads the member `value`, which the `codegen` call of the second argument
overwrites: evaluated right to left, the base is what that call left in `value`. -/
def visit_GetProperty (rtl : Bool) (cg : CodegenE) (e : Expr) (tensor : Expr)
    (property : TensorProperty) (mode : Int) (st : CG) : Except Abort CG :=
  let canonicalName := util.toString e
  if containsSymbol canonicalName st then do
    let v ← getSymbol canonicalName st
    pure { st with value := v }
  else do
    let (t, i0, i1, st) ←
      (if rtl then do
        let (i0, st) ← cg (Literal.make 0) st
        let (i1, st) ← cg (Literal.make (indexForProp property)) st
        let (t, st) ← cg tensor st
        pure (t, i0, i1, st)
      else do
        let (t, st) ← cg tensor st
        let (i0, st) ← cg (Literal.make 0) st
        let (i1, st) ← cg (Literal.make (indexForProp property)) st
        pure (t, i0, i1, st) : Except Abort (Value × Value × Value × CG))
    let (ptr, st) ← CreateGEP t [i0, i1] st
    let (v, st) ← CreateLoad ptr st
    let st := { st with value := v }
    let (v, st) ←
      (if property = TensorProperty.Dimension ∨ property = TensorProperty.ModeOrdering ∨
          property = TensorProperty.ModeTypes ∨ property = TensorProperty.Indices then do
        let (m, st) ← cg (Literal.make mode) st
        let (g, st) ← CreateGEP (if rtl then st.value else v) [m] st
        CreateLoad g st
      else pure (v, st) : Except Abort (Value × CG))
    let st := { st with value := v }
    pushSymbol canonicalName v st

/-- Dispatch `expr.accept(this)` to the visit of the node kind. -/
def visitExpr (rtl : Bool) (cg : CodegenE) (e : Expr) (st : CG) : Except Abort CG :=
  match e with
  | .Literal type val => visit_Literal type val st
  | .Var _ name => visit_Var name st
  | .Neg _ _ => visit_Neg cg e st
  | .Sqrt _ a => visit_Sqrt cg a st
  | .Add type a b => visit_Add rtl cg type a b st
  | .Sub type a b => visit_Sub rtl cg type a b st
  | .Mul type a b => visit_Mul rtl cg type a b st
  | .Div type a b => visit_Div rtl cg type a b st
  | .Rem _ _ _ => .ok st
  | .Min _ operands => visit_Min rtl cg operands st
  | .Max _ a b => visitBinary rtl cg BinKind.MaxNum a b st
  | .BitAnd _ a b => visitBinary rtl cg BinKind.And a b st
  | .BitOr _ a b => visitBinary rtl cg BinKind.Or a b st
  | .Eq type a b => visit_Eq rtl cg type a b st
  | .Neq type a b => visit_Neq rtl cg type a b st
  | .Gt type a b => visit_Gt rtl cg type a b st
  | .Lt type a b => visit_Lt rtl cg type a b st
  | .Gte type a b => visit_Gte rtl cg type a b st
  | .Lte type a b => visit_Lte rtl cg type a b st
  | .And _ a b => visitBinary rtl cg BinKind.And a b st
  | .Or _ a b => visitBinary rtl cg BinKind.Or a b st
  | .Cast type a => visit_Cast rtl cg type a st
  | .Load _ arr loc => visit_Load cg arr loc st
  | .GetProperty _ tensor property mode => visit_GetProperty rtl cg e tensor property mode st

/-- `CodeGen_LLVM::codegen(Expr)` (codegen_llvm.cpp:36-42): reset `value`, visit,
insist that a value was produced, return it. The first argument is the fuel. -/
def codegen (rtl : Bool) : Nat → Expr → CG → Except Abort (Value × CG)
  | 0, _, _ => .error Abort.outOfFuel
  | fuel + 1, expr, st => do
    let st ← visitExpr rtl (codegen rtl fuel) expr { st with value := Value.null }
    if st.value = Value.null then .error Abort.ierror
    else pure (st.value, st)

/-! ## Statement lowering -/

/-- The recursive call `codegen(Stmt)` as seen from inside a `visit`. -/
abbrev CodegenS := Stmt → CG → Except Abort CG

/-- `caseToIfThenElse` (codegen_llvm.cpp:339-351). On an empty clause list the
source forms `clauses.begin()+1` and reads `clauses[0]`, both out of bounds. -/
def caseToIfThenElse : List (Expr × Stmt) → Bool → Except Abort Stmt
  | [], _ => .error Abort.undefined
  | c :: rest, alwaysMatch =>
    if rest.length = 0 then
      .ok (if !alwaysMatch then c.2 else Stmt.IfThenElse c.1 c.2 (Stmt.Comment ""))
    else do
      let r ← caseToIfThenElse rest alwaysMatch
      pure (Stmt.IfThenElse c.1 c.2 r)

/-- `visit(const IfThenElse*)` (codegen_llvm.cpp:295-315). -/
def visit_IfThenElse (cgE : CodegenE) (cgS : CodegenS) (cond : Expr) (then_ otherwise : Stmt)
    (st : CG) : Except Abort CG := do
  let (true_bb, st) := createBlock "true_bb" st
  let (false_bb, st) := createBlock "false_bb" st
  let (after_bb, st) := createBlock "after_bb" st
  let (c, st) ← cgE cond st
  let (_, st) ← CreateCondBr c true_bb false_bb st
  let st := SetInsertPoint true_bb st
  let st ← cgS then_ st
  let (_, st) := CreateBr after_bb st
  let st := SetInsertPoint false_bb st
  let st ← cgS otherwise st
  let (_, st) := CreateBr after_bb st
  pure (SetInsertPoint after_bb st)

/-- `visit(const Scope*)`. -/
def visit_Scope (cgS : CodegenS) (scopedStmt : Stmt) (st : CG) : Except Abort CG := do
  let st := pushScope st
  let st ← cgS scopedStmt st
  popScope st

/-- `visit(const Case*)`. -/
def visit_Case (cgS : CodegenS) (clauses : List (Expr × Stmt)) (alwaysMatch : Bool) (st : CG) :
    Except Abort CG := do
  let s ← caseToIfThenElse clauses alwaysMatch
  cgS s st

/-- The loop over the cases of `visit(const Switch*)`, with `n` iterations left. -/
def visit_Switch.loop (cgS : CodegenS) (cases : List (Expr × Stmt)) (after_bb : Nat)
    (theSwitch : InstrRef) : Nat → Nat → CG → Except Abort CG
  | 0, _, st => .ok st
  | n + 1, i, st =>
    match cases.get? i with
    | none => .error Abort.undefined
    | some (label, body) => do
      let (bb, st) := createBlock "case_bb" st
      let st := SetInsertPoint bb st
      let st ← cgS body st
      let (_, st) := CreateBr after_bb st
      match label with
      | Expr.Literal type val =>
        if type.isUInt then do
          let ty ← llvmTypeOf type
          let c ← ConstantInt.get ty (getValue HostTy.int32_t val)
          visit_Switch.loop cgS cases after_bb theSwitch n (i + 1) (addCase theSwitch c bb st)
        else .error Abort.ierror
      | _ => .error Abort.ierror

/-- `visit(const Switch*)` (codegen_llvm.cpp:359-384). -/
def visit_Switch (cgE : CodegenE) (cgS : CodegenS) (cases : List (Expr × Stmt))
    (controlExpr : Expr) (st : CG) : Except Abort CG := do
  let (after_bb, st) := createBlock "after_bb" st
  let (cond, st) ← cgE controlExpr st
  let (theSwitch, st) ← CreateSwitch cond after_bb st
  let st ← visit_Switch.loop cgS cases after_bb theSwitch cases.length 0 st
  pure (SetInsertPoint after_bb st)

/-- Field types set up by `init_context` (codegen_llvm.cpp:654-690). -/
structure ContextTypes where
  orderType : LType
  dimensionsType : LType
  csizeType : LType
  mode_orderingType : LType
  mode_typesType : LType
  indicesType : LType
  valsType : LType
  vals_sizeType : LType
  tacoTensorType : LType

/-- `init_context`: the member types and the tensor descriptor struct. The third
argument of `StructType::get` is the `isPacked` flag; the source passes a string
literal there, which converts to `true`. -/
def init_context : ContextTypes :=
  let int32Type := LType.int 32
  let uint8Type := LType.int 8
  let orderType := int32Type
  let dimensionsType := int32Type.getPointerTo
  let csizeType := int32Type
  let mode_orderingType := int32Type.getPointerTo
  let mode_typesType := int32Type.getPointerTo
  let indicesType := uint8Type.getPointerTo.getPointerTo.getPointerTo
  let valsType := uint8Type.getPointerTo
  let vals_sizeType := int32Type
  { orderType := orderType
    dimensionsType := dimensionsType
    csizeType := csizeType
    mode_orderingType := mode_orderingType
    mode_typesType := mode_typesType
    indicesType := indicesType
    valsType := valsType
    vals_sizeType := vals_sizeType
    tacoTensorType := LType.struct (LTypes.ofList
      [orderType, dimensionsType, csizeType, mode_orderingType, mode_typesType,
       indicesType, valsType, vals_sizeType]) true }

/-- The member `tacoTensorType` after the constructor has run `init_context`. -/
def tacoTensorType : LType := init_context.tacoTensorType

def modifyAt {α : Type} (f : α → α) : List α → Nat → List α
  | [], _ => []
  | x :: xs, 0 => f x :: xs
  | x :: xs, n + 1 => x :: modifyAt f xs n

/-- `function->addParamAttr(i, attr)`. -/
def LFunction.addParamAttr (f : LFunction) (i : Nat) (a : Attribute) : LFunction :=
  { f with paramAttrs := modifyAt (fun l => l ++ [a]) f.paramAttrs i }

/-- The loop `for (i=0; i<currentFunctionArgs.size(); i++) function->addParamAttr(i,
Attribute::NoAlias)`, with `n` iterations left. -/
def beginFunc.noAlias : Nat → Nat → LFunction → LFunction
  | 0, _, f => f
  | n + 1, i, f => beginFunc.noAlias n (i + 1) (f.addParamAttr i Attribute.NoAlias)

/-- The loop over `function->args()` that binds each parameter name; `as<Var>()`
yields a null pointer on anything that is not a `Var`. -/
def beginFunc.bindArgs (args : List Expr) : List LType → Nat → CG → Except Abort CG
  | [], _, st => .ok st
  | ty :: tys, argIndex, st =>
    match args.get? argIndex with
    | some (Expr.Var _ name) => do
      let st ← pushSymbol name (Value.arg argIndex ty) st
      beginFunc.bindArgs args tys (argIndex + 1) st
    | _ => .error Abort.undefined

/-- `beginFunc` (codegen_llvm.cpp:387-421). -/
def beginFunc (name : String) (inputs outputs : List Expr) (st : CG) : Except Abort CG :=
  let st := { st with currentFunctionArgs := st.currentFunctionArgs ++ inputs ++ outputs }
  let argTypes := st.currentFunctionArgs.map (fun _ => tacoTensorType.getPointerTo)
  let function : LFunction :=
    { name := name, retTy := LType.int 32, params := argTypes,
      paramAttrs := argTypes.map (fun _ => []) }
  let function := beginFunc.noAlias st.currentFunctionArgs.length 0 function
  let st := { st with function := some function }
  let (entry, st) := createBlock "entry" st
  let st := SetInsertPoint entry st
  let st := pushScope st
  beginFunc.bindArgs st.currentFunctionArgs function.params 0 st

/-- `endFunc` (codegen_llvm.cpp:423-432). -/
def endFunc (st : CG) : Except Abort CG := do
  let zero ← ConstantInt.get (LType.int 32) 0
  let (_, st) := CreateRet zero st
  let st ← popScope st
  pure { st with currentFunctionArgs := [] }

/-- `visit(const Function*)`: after `endFunc` the results of `verifyFunction` and
`verifyModule` are dropped and the process exits with status 0. -/
def visit_Function (accept : CodegenS) (name : String) (body : Stmt)
    (inputs outputs : List Expr) (st : CG) : Except Abort CG := do
  let st ← beginFunc name inputs outputs st
  let st ← accept body st
  let _ ← endFunc st
  .error (Abort.exit 0)

/-- `visit(const Allocate*)` (codegen_llvm.cpp:457-472). -/
def visit_Allocate (cgE : CodegenE) (var num_elements : Expr) (st : CG) : Except Abort CG := do
  let (size, st) ← cgE (Mul.make (Cast.make num_elements Int64)
    (Literal.make var.type.getNumBytes)) st
  let (call, st) ← CreateCall "malloc" (LType.int 8).getPointerTo [size] st
  let (v, st) ← cgE var st
  let (_, st) ← CreateStore v call st
  pure st

/-- `visit(const Block*)`. -/
def visit_Block (cgS : CodegenS) : List Stmt → CG → Except Abort CG
  | [], st => .ok st
  | s :: rest, st => do
    let st ← cgS s st
    visit_Block cgS rest st

/-- `visit(const While*)` (codegen_llvm.cpp:482-514). -/
def visit_While (cgE : CodegenE) (cgS : CodegenS) (cond : Expr) (contents : Stmt)
    (kind : LoopKind) (st : CG) : Except Abort CG :=
  if kind ≠ LoopKind.Serial then .error Abort.tassert
  else do
    let preheader_bb := st.insertBlock
    let (loop_bb, st) := createBlock "while" st
    let (after_bb, st) := createBlock "end_while" st
    let (checkValue, st) ← cgE cond st
    let (_, st) ← CreateCondBr checkValue loop_bb after_bb st
    let st := SetInsertPoint loop_bb st
    let ((_, phi), st) := CreatePHI checkValue.getType st
    match preheader_bb with
    | none => .error Abort.undefined
    | some preheader_bb =>
      let st := addIncoming phi checkValue preheader_bb st
      match cgS contents st with
      | .error e => .error e
      | .ok st =>
        let (branchToCheck, st) := CreateBr preheader_bb st
        match st.insertBlock with
        | none => .error Abort.undefined
        | some cur =>
          let st := addIncoming phi branchToCheck cur st
          .ok (SetInsertPoint after_bb st)

/-- `visit(const For*)` (codegen_llvm.cpp:516-570). -/
def visit_For (cgE : CodegenE) (cgS : CodegenS) (var start end_ increment : Expr)
    (kind : LoopKind) (contents : Stmt) (st : CG) : Except Abort CG :=
  if kind ≠ LoopKind.Serial then .error Abort.tassert
  else do
    let (startValue, st) ← cgE start st
    let (endValue, st) ← cgE end_ st
    let preheader_bb := st.insertBlock
    let (loop_bb, st) := createBlock "for" st
    let (after_bb, st) := createBlock "end_for" st
    if startValue.getType ≠ endValue.getType then .error Abort.ierror
    else do
      let (entryCondition, st) ← CreateICmp IPred.SLT startValue endValue st
      let (_, st) ← CreateCondBr entryCondition loop_bb after_bb st
      let st := SetInsertPoint loop_bb st
      let ((phiV, phi), st) := CreatePHI startValue.getType st
      match preheader_bb with
      | none => .error Abort.undefined
      | some preheader_bb =>
        let st := addIncoming phi startValue preheader_bb st
        match var with
        | Expr.Var _ loopVarName => do
          let st := pushScope st
          let st ← pushSymbol loopVarName phiV st
          let st ← cgS contents st
          let (inc, st) ← cgE increment st
          let (nextValue, st) ← CreateBinOp BinKind.NSWAdd phiV inc st
          match st.insertBlock with
          | none => .error Abort.undefined
          | some cur =>
            let st := addIncoming phi nextValue cur st
            let (endCondition, st) ← CreateICmp IPred.SLT nextValue endValue st
            let (_, st) ← CreateCondBr endCondition loop_bb after_bb st
            let st ← popScope st
            pure (SetInsertPoint after_bb st)
        | _ => .error Abort.ierror

/-- `visit(const VarAssign*)` (codegen_llvm.cpp:572-582). -/
def visit_VarAssign (cgE : CodegenE) (lhs rhs : Expr) (is_decl : Bool) (st : CG) :
    Except Abort CG := do
  let st ←
    (if is_decl then do
      let ty ← llvmTypeOf lhs.type
      let (val, st) ← CreateAlloca ty st
      pushSymbol (util.toString lhs) val st
    else
      match lhs with
      | Expr.GetProperty _ _ _ _ => do
        let (_, st) ← cgE lhs st
        pure st
      | _ => pure st : Except Abort CG)
  let val ← getSymbol (util.toString lhs) st
  let (r, st) ← cgE rhs st
  let (s, st) ← CreateStore r val st
  pure { st with value := s }

/-- `visit(const Store*)`: as in `visit(const Load*)` the first GEP index is a
null pointer. -/
def visit_Store (cgE : CodegenE) (arr loc data : Expr) (st : CG) : Except Abort CG := do
  let (l, st) ← cgE loc st
  let (array, st) ← cgE arr st
  let (g, st) ← CreateGEP array [Value.null, l] st
  let (d, st) ← cgE data st
  let (s, st) ← CreateStore d g st
  pure { st with value := s }

/-- Dispatch `stmt.accept(this)` to the visit of the node kind. `cgS` is
`codegen(Stmt)`, `accept` is a direct `accept` call (no reset of `value`). -/
def visitStmt (cgE : CodegenE) (cgS accept : CodegenS) (s : Stmt) (st : CG) :
    Except Abort CG :=
  match s with
  | .IfThenElse cond then_ otherwise => visit_IfThenElse cgE cgS cond then_ otherwise st
  | .Comment _ => .ok st
  | .BlankLine => .ok st
  | .Scope scopedStmt => visit_Scope cgS scopedStmt st
  | .Case clauses alwaysMatch => visit_Case cgS clauses alwaysMatch st
  | .Switch cases controlExpr => visit_Switch cgE cgS cases controlExpr st
  | .Function name body inputs outputs => visit_Function accept name body inputs outputs st
  | .Allocate var num_elements => visit_Allocate cgE var num_elements st
  | .Block contents => visit_Block cgS contents st
  | .While cond contents kind => visit_While cgE cgS cond contents kind st
  | .For var start end_ increment kind contents =>
    visit_For cgE cgS var start end_ increment kind contents st
  | .VarAssign lhs rhs is_decl => visit_VarAssign cgE lhs rhs is_decl st
  | .Store arr loc data => visit_Store cgE arr loc data st
  | .Print => .ok st

/-- `stmt.accept(this)` with fuel. -/
def acceptStmt (rtl : Bool) : Nat → Stmt → CG → Except Abort CG
  | 0, _, _ => .error Abort.outOfFuel
  | fuel + 1, s, st =>
    visitStmt (codegen rtl fuel)
      (fun s st => acceptStmt rtl fuel s { st with value := Value.null })
      (acceptStmt rtl fuel) s st

/-- `CodeGen_LLVM::codegen(Stmt)` (codegen_llvm.cpp:31-34): reset `value`, visit. -/
def codegenStmt (rtl : Bool) (fuel : Nat) (s : Stmt) (st : CG) : Except Abort CG :=
  acceptStmt rtl fuel s { st with value := Value.null }

/-- A generator right after construction: one empty scope, nothing emitted. -/
def CG.init : CG :=
  { symbolTable := [[]], value := Value.null, blocks := [], insertBlock := none,
    nextId := 0, function := none, currentFunctionArgs := [] }

/-! ## Running the emitted control-flow graph

A small-step reading of the instructions the generator emits. Integer values are
bit patterns (`Nat` below `2 ^ width`). Memory and calls are not interpreted: a
load, store, call or alloca is recorded in the trace with the values of its
operands, and instructions without an integer reading leave their result
unknown. -/

/-- What an execution lets an observer see. -/
inductive Event
  | enter (block : Nat)
  | phi (id : Nat) (val : Nat)
  | effect (id : Nat) (operands : List (Option Nat))
  deriving DecidableEq, Repr

/-- Why an execution stops. `endOfCode`: control stands at a position where no
instruction has been emitted (the insertion point). -/
inductive Stop
  | endOfCode | returned | trapped | outOfFuel
  deriving DecidableEq, Repr

/-- An execution state: the position (`block`, `pc`), the block control came
from, the values computed so far, and the trace. -/
structure Machine where
  block : Nat
  pc : Nat
  prev : Nat
  env : Nat → Option Nat
  trace : List Event

def getInstr (blocks : List BasicBlock) (b pc : Nat) : Option Instr :=
  match blocks.get? b with
  | some bb => bb.instrs.get? pc
  | none => none

/-- Runtime value of an operand: a constant is its bit pattern, an argument is
looked up in `argv`, an instruction result in `env`. -/
def evalValue (argv env : Nat → Option Nat) : Value → Option Nat
  | .constInt _ val => some val
  | .arg i _ => argv i
  | .inst id _ => env id
  | _ => none

/-- Signed reading of a bit pattern of the given width. -/
def toSigned (bits : Nat) (x : Nat) : Int := wrapSigned bits x

def evalICmp (bits : Nat) (p : IPred) (x y : Nat) : Bool :=
  match p with
  | .EQ => decide (x = y)
  | .NE => decide (x ≠ y)
  | .UGT => decide (y < x)
  | .ULT => decide (x < y)
  | .UGE => decide (y ≤ x)
  | .ULE => decide (x ≤ y)
  | .SGT => decide (toSigned bits y < toSigned bits x)
  | .SLT => decide (toSigned bits x < toSigned bits y)
  | .SGE => decide (toSigned bits y ≤ toSigned bits x)
  | .SLE => decide (toSigned bits x ≤ toSigned bits y)

def Machine.next (m : Machine) : Machine := { m with pc := m.pc + 1 }

def Machine.bind (m : Machine) (id : Nat) (v : Option Nat) : Machine :=
  { m with env := fun j => if j = id then v else m.env j }

def Machine.log (m : Machine) (e : Event) : Machine := { m with trace := m.trace ++ [e] }

def Machine.branchTo (m : Machine) (dest : Nat) : Machine :=
  { m with prev := m.block, block := dest, pc := 0, trace := m.trace ++ [Event.enter dest] }

def bitsOf : LType → Nat
  | LType.int bits => bits
  | _ => 0

/-- Executes one instruction. An `add nsw` whose signed sum does not fit traps;
a branch on an unknown value traps. -/
def execInstr (argv : Nat → Option Nat) (i : Instr) (m : Machine) : Except Stop Machine :=
  let ev := evalValue argv m.env
  match i.op with
  | .phi incoming =>
    match incoming.find? (fun p => p.2 = m.prev) with
    | some (v, _) =>
      match ev v with
      | some x => .ok (((m.bind i.id (some x)).log (Event.phi i.id x)).next)
      | none => .error Stop.trapped
    | none => .error Stop.trapped
  | .bin k a b =>
    match ev a, ev b with
    | some x, some y =>
      let w := bitsOf i.ty
      match k with
      | .NSWAdd =>
        let r := toSigned w x + toSigned w y
        if - ((2 ^ (w - 1) : Nat) : Int) ≤ r ∧ r < ((2 ^ (w - 1) : Nat) : Int) then
          .ok ((m.bind i.id (some ((x + y) % 2 ^ w))).next)
        else .error Stop.trapped
      | .Add => .ok ((m.bind i.id (some ((x + y) % 2 ^ w))).next)
      | .Mul => .ok ((m.bind i.id (some ((x * y) % 2 ^ w))).next)
      | .Sub => .ok ((m.bind i.id (some ((x + (2 ^ w - y % 2 ^ w)) % 2 ^ w))).next)
      | _ => .ok ((m.bind i.id none).next)
    | _, _ => .ok ((m.bind i.id none).next)
  | .icmp p a b =>
    match ev a, ev b with
    | some x, some y =>
      .ok ((m.bind i.id (some (if evalICmp (bitsOf a.getType) p x y then 1 else 0))).next)
    | _, _ => .ok ((m.bind i.id none).next)
  | .br dest => .ok (m.branchTo dest)
  | .condbr c t f =>
    match ev c with
    | some x => .ok (m.branchTo (if x = 0 then f else t))
    | none => .error Stop.trapped
  | .switch c dflt cases =>
    match ev c with
    | some x =>
      match cases.find? (fun p => ev p.1 = some x) with
      | some (_, dest) => .ok (m.branchTo dest)
      | none => .ok (m.branchTo dflt)
    | none => .error Stop.trapped
  | .ret _ => .error Stop.returned
  | .load p => .ok (((m.bind i.id none).log (Event.effect i.id [ev p])).next)
  | .store v p => .ok ((m.log (Event.effect i.id [ev v, ev p])).next)
  | .call _ args => .ok (((m.bind i.id none).log (Event.effect i.id (args.map ev))).next)
  | .alloca _ => .ok (((m.bind i.id none).log (Event.effect i.id [])).next)
  | _ => .ok ((m.bind i.id none).next)

/-- One step: execute the instruction at the current position, if there is one. -/
def step (blocks : List BasicBlock) (argv : Nat → Option Nat) (m : Machine) :
    Except Stop Machine :=
  match getInstr blocks m.block m.pc with
  | some i => execInstr argv i m
  | none => .error Stop.endOfCode

/-- Runs until the execution stops or the fuel is used up; returns why it stopped
and the state it stopped in. -/
def run (blocks : List BasicBlock) (argv : Nat → Option Nat) : Nat → Machine → Stop × Machine
  | 0, m => (Stop.outOfFuel, m)
  | fuel + 1, m =>
    match step blocks argv m with
    | .ok m1 => run blocks argv fuel m1
    | .error s => (s, m)

/-- The machine that starts at position (`block`, `pc`) with nothing computed. -/
def Machine.start (block pc : Nat) : Machine :=
  { block := block, pc := pc, prev := block, env := fun _ => none, trace := [] }

/-! ## Definitions used to state the theorems -/

/-- The element types of a struct type, in order. -/
def LType.elements : LType → List LType
  | LType.struct elems _ => elems.toList
  | _ => []

/-- The initializer list of `tacoTensorType` in `init_context`, each element
tagged with the property whose member variable it is (`orderType`,
`dimensionsType`, `csizeType`, `mode_orderingType`, `mode_typesType`,
`indicesType`, `valsType`, `vals_sizeType`). -/
def descriptorFields : List (TensorProperty × LType) :=
  [(TensorProperty.Order, init_context.orderType),
   (TensorProperty.Dimension, init_context.dimensionsType),
   (TensorProperty.ComponentSize, init_context.csizeType),
   (TensorProperty.ModeOrdering, init_context.mode_orderingType),
   (TensorProperty.ModeTypes, init_context.mode_typesType),
   (TensorProperty.Indices, init_context.indicesType),
   (TensorProperty.Values, init_context.valsType),
   (TensorProperty.ValuesSize, init_context.vals_sizeType)]

/-- The six comparison node kinds. -/
def comparisons : List (Datatype → Expr → Expr → Expr) :=
  [Expr.Eq, Expr.Neq, Expr.Gt, Expr.Lt, Expr.Gte, Expr.Lte]

/-- A generator inside a function body: an entry block is open and the names
`a`, `b`, `c` and `x` are bound to native values. -/
def demoState : CG :=
  { CG.init with
    symbolTable := [[("a", Value.arg 0 (LType.int 32)), ("b", Value.arg 1 (LType.int 32)),
      ("c", Value.arg 2 (LType.int 32)), ("x", Value.arg 3 LType.double)]]
    blocks := [⟨"entry", []⟩]
    insertBlock := some 0 }

/-- The value a lowering returned, if it returned. -/
def resultValue (r : Except Abort (Value × CG)) : Option Value := r.toOption.map Prod.fst

/-- The handles of the instructions in each block after a lowering that returned. -/
def resultHandles (r : Except Abort (Value × CG)) : Option (List (List Value)) :=
  r.toOption.map (fun p => p.2.blocks.map (fun b => b.instrs.map (fun i => Value.inst i.id i.ty)))

/-- A generator inside a function body for the control-flow examples: the entry
block is open; `c1`, `c2` are one-bit values, `v` is a 64-bit value, `x` is a
pointer and `a`, `b`, `c` are 32-bit values, all native arguments. -/
def flowState : CG :=
  { CG.init with
    symbolTable := [[("c1", Value.arg 0 (LType.int 1)), ("c2", Value.arg 1 (LType.int 1)),
      ("v", Value.arg 2 (LType.int 64)), ("x", Value.arg 3 (LType.ptr (LType.int 32))),
      ("a", Value.arg 4 (LType.int 32)), ("b", Value.arg 5 (LType.int 32)),
      ("c", Value.arg 6 (LType.int 32))]]
    blocks := [⟨"entry", []⟩]
    insertBlock := some 0 }

/-- Runtime values of the arguments of `flowState`: `c1`, `c2` and `v` as given,
`x = 1000`, `a = 10`, `b = 20`, `c = 30`. -/
def flowArgs (c1 c2 v : Nat) : Nat → Option Nat
  | 0 => some c1
  | 1 => some c2
  | 2 => some v
  | 3 => some 1000
  | 4 => some 10
  | 5 => some 20
  | 6 => some 30
  | _ => none

/-- The statement `x = src`, which lowers to one store of `src` to `x`. -/
def storeTo (src : String) : Stmt :=
  Stmt.VarAssign (Expr.Var Int32 "x") (Expr.Var Int32 src) false

/-- Lowers nothing itself: runs the blocks of a lowering that returned, from the
start of block 0, and reports why the run stopped and what it did. -/
def traceOf (r : Except Abort CG) (argv : Nat → Option Nat) (fuel : Nat) :
    Option (Stop × List Event) :=
  r.toOption.map (fun st =>
    ((run st.blocks argv fuel (Machine.start 0 0)).1,
     (run st.blocks argv fuel (Machine.start 0 0)).2.trace))

/-- The operations in each block after a lowering that returned. -/
def resultOps (r : Except Abort CG) : Option (List (List Op)) :=
  r.toOption.map (fun st => st.blocks.map (fun b => b.instrs.map (fun i => i.op)))

/-- A generator inside a function body whose first argument `A` is a tensor
descriptor pointer and whose second argument `x` is a pointer to a value buffer
pointer. -/
def propState : CG :=
  { CG.init with
    symbolTable := [[("A", Value.arg 0 tacoTensorType.getPointerTo),
      ("x", Value.arg 1 (LType.ptr (LType.int 8)).getPointerTo)]]
    blocks := [⟨"entry", []⟩]
    insertBlock := some 0 }

/-- The access `A.vals`. -/
def valsOf : Expr :=
  Expr.GetProperty (Datatype.UInt 8) (Expr.Var Int32 "A") TensorProperty.Values 0

/-- The statement `x = A.vals`: one access to the property, then a store. -/
def readVals : Stmt := Stmt.VarAssign (Expr.Var Int32 "x") valsOf false

/-- The instructions of a block in which `x = A.vals` was lowered twice without
reuse: GEP, load, store, and again GEP, load, store of the second load. -/
def reloadedOps : List Op :=
  [Op.gep (Value.arg 0 tacoTensorType.getPointerTo) [Value.constInt 32 0, Value.constInt 32 6],
   Op.load (Value.inst 0 (LType.ptr (LType.ptr (LType.int 8)))),
   Op.store (Value.inst 1 (LType.ptr (LType.int 8)))
     (Value.arg 1 (LType.ptr (LType.int 8)).getPointerTo),
   Op.gep (Value.arg 0 tacoTensorType.getPointerTo) [Value.constInt 32 0, Value.constInt 32 6],
   Op.load (Value.inst 3 (LType.ptr (LType.ptr (LType.int 8)))),
   Op.store (Value.inst 4 (LType.ptr (LType.int 8)))
     (Value.arg 1 (LType.ptr (LType.int 8)).getPointerTo)]

/-- A parameter of a function definition: a variable with a type and a name. -/
def mkVar (p : Datatype × String) : Expr := Expr.Var p.1 p.2

/-- The bindings `beginFunc` makes for the parameters `ps`, first parameter first:
the name of the parameter at position `i` with the native argument `k + i`. -/
def paramList (ty : LType) : List (Datatype × String) → Nat → List (String × Value)
  | [], _ => []
  | p :: ps, k => (p.2, Value.arg k ty) :: paramList ty ps (k + 1)

/-- The generator state the contract of `beginFunc` describes: a declaration with
one tensor-descriptor pointer per input and output, each marked NoAlias, an open
entry block, and a new innermost scope holding the parameter bindings. -/
def afterBeginFunc (name : String) (I O : List (Datatype × String)) (st : CG) : CG :=
  { symbolTable := (paramList tacoTensorType.getPointerTo (I ++ O) 0).reverse :: st.symbolTable
    value := st.value
    blocks := st.blocks ++ [⟨"entry", []⟩]
    insertBlock := some st.blocks.length
    nextId := st.nextId
    function := some
      { name := name
        retTy := LType.int 32
        params := List.replicate (I.length + O.length) tacoTensorType.getPointerTo
        paramAttrs := List.replicate (I.length + O.length) [Attribute.NoAlias] }
    currentFunctionArgs := I.map mkVar ++ O.map mkVar }

/-- The reduction the specification describes for n-ary Min, "reduce left-to-right
via repeated pairwise minimum": starting from the accumulator, lower the next
operand once and emit one pairwise minimum of the accumulator and that operand. -/
def leftFoldMin (cg : CodegenE) : Value → List Expr → CG → Except Abort (Value × CG)
  | acc, [], st => .ok (acc, st)
  | acc, o :: os, st => do
    let (v, st) ← cg o st
    let (r, st) ← CreateBinOp BinKind.MinNum acc v st
    leftFoldMin cg r os st

/-- The operations emitted for `Min([a, b, c])` over three bound variables. -/
def minOps (rtl : Bool) : Option (List (List Op)) :=
  (codegen rtl 3 (Expr.Min Int32 [Expr.Var Int32 "a", Expr.Var Int32 "b", Expr.Var Int32 "c"])
    demoState).toOption.map (fun p => p.2.blocks.map (fun b => b.instrs.map (fun i => i.op)))

/-- Generator state with `n : i32` (argument 0) and `x : i32*` (argument 1) bound. -/
def loopState : CG :=
  { CG.init with
    symbolTable := [[("n", Value.arg 0 (LType.int 32)), ("x", Value.arg 1 (LType.ptr (LType.int 32)))]]
    blocks := [⟨"entry", []⟩]
    insertBlock := some 0 }

/-- Run-time arguments: `n` and the address held by `x`. -/
def loopArgs (n : Nat) : Nat → Option Nat
  | 0 => some n
  | 1 => some 1000
  | _ => none

/-- The loop `for (i = 0; i < n; i += 1) x = i`. -/
def countLoop : Stmt :=
  Stmt.For (Expr.Var Int32 "i") (Expr.Literal (Datatype.Int 32) 0) (Expr.Var Int32 "n")
    (Expr.Literal (Datatype.Int 32) 1) LoopKind.Serial
    (Stmt.VarAssign (Expr.Var Int32 "x") (Expr.Var Int32 "i") false)

/-- State produced by a lowering that succeeded. -/
def lowered (r : Except Abort CG) : CG :=
  match r with
  | .ok s => s
  | .error _ => CG.init

/-- The code emitted for `countLoop`. -/
def countLoopLowered : CG := lowered (codegenStmt false 3 countLoop loopState)

/-- Statements executed by a nest of `IfThenElse` under the truth assignment `holds`:
the branch taken is followed down to a statement that is not an `IfThenElse`; the empty
`Comment` that stands for a missing else branch executes nothing. -/
def Stmt.leaves (holds : Expr → Bool) : Stmt → List Stmt
  | .IfThenElse c t e => if holds c then Stmt.leaves holds t else Stmt.leaves holds e
  | .Comment _ => []
  | s => [s]

/-- Constant that `Literal::make(v)` lowers to: the pattern of `v` in 32 bits. -/
def int32Const (v : Int) : Value :=
  Value.constInt 32 ((wrapSigned 64 (getValue HostTy.int32_t v) % ((2 ^ 32 : Nat) : Int)).toNat)

/-- The access `A.<property>[mode]`. -/
def propOf (property : TensorProperty) (mode : Int) : Expr :=
  Expr.GetProperty Int32 (Expr.Var Int32 "A") property mode

/-- The instructions of an uncached access to `A.dimension[2]`: GEP to field 1 of the
descriptor, load of the field, GEP at offset 2 from the loaded pointer, load. -/
def perModeOps : List Op :=
  [Op.gep (Value.arg 0 tacoTensorType.getPointerTo) [Value.constInt 32 0, Value.constInt 32 1],
   Op.load (Value.inst 0 (LType.ptr (LType.ptr (LType.int 32)))),
   Op.gep (Value.inst 1 (LType.ptr (LType.int 32))) [Value.constInt 32 2],
   Op.load (Value.inst 2 (LType.ptr (LType.int 32)))]

/-- Generator state with `c : i1` (argument 0), `x : i32*` (argument 1) and `v : i32`
(argument 2) bound, the entry block open. -/
def whileState : CG :=
  { CG.init with
    symbolTable := [[("c", Value.arg 0 (LType.int 1)), ("x", Value.arg 1 (LType.ptr (LType.int 32))),
      ("v", Value.arg 2 (LType.int 32))]]
    blocks := [⟨"entry", []⟩]
    insertBlock := some 0 }

/-- The loop `while (c) x = v`. -/
def whileLoop : Stmt :=
  Stmt.While (Expr.Var (Datatype.UInt 1) "c")
    (Stmt.VarAssign (Expr.Var Int32 "x") (Expr.Var Int32 "v") false) LoopKind.Serial

/-- The instructions, block by block, that `whileLoop` lowers to. -/
def whileOps : List (List Op) :=
  [[Op.condbr (Value.arg 0 (LType.int 1)) 1 2],
   [Op.phi [(Value.arg 0 (LType.int 1), 0), (Value.inst 3 LType.void, 1)],
    Op.store (Value.arg 2 (LType.int 32)) (Value.arg 1 (LType.ptr (LType.int 32))),
    Op.br 0],
   []]

/-- The statement `x = malloc(n * sizeof(int32))`. -/
def allocX : Stmt := Stmt.Allocate (Expr.Var Int32 "x") (Expr.Var Int32 "n")

/-- The instructions `allocX` lowers to in `loopState`: the element count widened to 64
bits, the multiplication by 4, the call, and the store. -/
def allocOps : List Op :=
  [Op.intcast (Value.arg 0 (LType.int 32)) (LType.int 64) true,
   Op.bin BinKind.Mul (Value.inst 0 (LType.int 64)) (Value.constInt 32 4),
   Op.call "malloc" [Value.inst 1 (LType.int 64)],
   Op.store (Value.arg 1 (LType.ptr (LType.int 32))) (Value.inst 2 (LType.ptr (LType.int 8)))]

/-- The nest `if c1 then s1 else (if c2 then s2 else (... else last))` over `clauses`. -/
def nestIf (clauses : List (Expr × Stmt)) (last : Stmt) : Stmt :=
  clauses.foldr (fun p acc => Stmt.IfThenElse p.1 p.2 acc) last

/-- The six relations of the comparison nodes. -/
inductive Rel
  | eq | ne | gt | lt | ge | le
  deriving DecidableEq, Repr

/-- The comparison node of a relation. -/
def Rel.node : Rel → Datatype → Expr → Expr → Expr
  | .eq => Expr.Eq
  | .ne => Expr.Neq
  | .gt => Expr.Gt
  | .lt => Expr.Lt
  | .ge => Expr.Gte
  | .le => Expr.Lte

/-- The ordered floating-point predicate of a relation. -/
def Rel.ordered : Rel → FPred
  | .eq => FPred.OEQ
  | .ne => FPred.ONE
  | .gt => FPred.OGT
  | .lt => FPred.OLT
  | .ge => FPred.OGE
  | .le => FPred.OLE

/-- The integer predicate of a relation for unsigned operands; equality and inequality
have one predicate for both signs. -/
def Rel.unsigned : Rel → IPred
  | .eq => IPred.EQ
  | .ne => IPred.NE
  | .gt => IPred.UGT
  | .lt => IPred.ULT
  | .ge => IPred.UGE
  | .le => IPred.ULE

/-- The integer predicate of a relation for signed operands. -/
def Rel.signed : Rel → IPred
  | .eq => IPred.EQ
  | .ne => IPred.NE
  | .gt => IPred.SGT
  | .lt => IPred.SLT
  | .ge => IPred.SGE
  | .le => IPred.SLE

/-- The four arithmetic operators with a float and an integer instruction. -/
inductive Arith
  | add | sub | mul | div
  deriving DecidableEq, Repr

/-- The node of an arithmetic operator. -/
def Arith.node : Arith → Datatype → Expr → Expr → Expr
  | .add => Expr.Add
  | .sub => Expr.Sub
  | .mul => Expr.Mul
  | .div => Expr.Div

/-- The floating-point instruction of an operator. -/
def Arith.floatOp : Arith → BinKind
  | .add => BinKind.FAdd
  | .sub => BinKind.FSub
  | .mul => BinKind.FMul
  | .div => BinKind.FDiv

/-- The integer instruction of an operator; only division depends on the sign. -/
def Arith.intOp : Arith → Bool → BinKind
  | .add, _ => BinKind.Add
  | .sub, _ => BinKind.Sub
  | .mul, _ => BinKind.Mul
  | .div, true => BinKind.ExactUDiv
  | .div, false => BinKind.ExactSDiv

/-- The literal types the lowering supports: integers of 8, 16, 32, 64 or 128 bits, signed
or unsigned, and floats of 32 or 64 bits; no complex type. -/
def literalSupported (t : Datatype) : Bool :=
  match t.kind with
  | Kind.uint | Kind.sint => decide (t.bits ∈ [8, 16, 32, 64, 128])
  | Kind.float => decide (t.bits ∈ [32, 64])
  | Kind.complex => false

/-- The one-case switch over `v` with the case `label -> x = a`. -/
def switchOn (label : Expr) : Stmt :=
  Stmt.Switch [(label, storeTo "a")] (Expr.Var (Datatype.UInt 64) "v")

/-- The instructions that end a block. -/
def Op.isTerminator : Op → Bool
  | .br _ | .condbr _ _ _ | .switch _ _ _ | .ret _ => true
  | _ => false

/-- The blocks a terminator can pass control to. -/
def Op.successors : Op → List Nat
  | .br dest => [dest]
  | .condbr _ t f => [t, f]
  | .switch _ dflt cases => dflt :: cases.map Prod.snd
  | _ => []

/-- The block ends in exactly one terminator: its last instruction is one and no other is. -/
def BasicBlock.terminated (b : BasicBlock) : Bool :=
  match b.instrs.reverse with
  | [] => false
  | last :: front => last.op.isTerminator && front.all (fun i => !i.op.isTerminator)

/-- The block holds no terminator. -/
def BasicBlock.unterminated (b : BasicBlock) : Bool :=
  b.instrs.all (fun i => !i.op.isTerminator)

/-- The control-flow predecessors of block `b`: the blocks with an instruction that can pass
control to `b`. -/
def predecessors (blocks : List BasicBlock) (b : Nat) : List Nat :=
  (List.range blocks.length).filter (fun p =>
    match blocks.get? p with
    | some bb => bb.instrs.any (fun i => i.op.successors.contains b)
    | none => false)

/-- Every phi of every block has exactly one incoming entry for each predecessor of its
block and no entry for any other block. -/
def phisMatchPredecessors (blocks : List BasicBlock) : Bool :=
  (List.range blocks.length).all (fun b =>
    match blocks.get? b with
    | some bb => bb.instrs.all (fun i =>
        match i.op with
        | .phi incoming =>
          (predecessors blocks b).all (fun p => (incoming.filter (fun e => e.2 = p)).length = 1) &&
          incoming.all (fun e => (predecessors blocks b).contains e.2)
        | _ => true)
    | none => true)

/-- Every block other than the insertion block ends in exactly one terminator and the
insertion block holds none. -/
def terminatorsInPlace (st : CG) : Bool :=
  match st.insertBlock with
  | none => false
  | some ib =>
    (List.range st.blocks.length).all (fun b =>
      match st.blocks.get? b with
      | some bb => if b = ib then bb.unterminated else bb.terminated
      | none => true)

/-- The invariant of statement lowering in the specification's words: terminators in place
and phis matching the predecessors. -/
def wellFormedFlow (st : CG) : Bool :=
  terminatorsInPlace st && phisMatchPredecessors st.blocks

/-- Modelled from the spec: `llvm::verifyFunction` (LLVM is not under src), "a structural
well-formedness check over the produced function"; as in LLVM the result is `true` when the
function is broken. Checked here: every block ends in exactly one terminator, the entry block
has no predecessor, and every phi matches the predecessors of its block. -/
def verifyFunction (blocks : List BasicBlock) : Bool :=
  !(blocks.all BasicBlock.terminated && (predecessors blocks 0).isEmpty &&
    phisMatchPredecessors blocks)

/-- The function `visit(const Function*)` has produced when it reaches the verifier calls:
`beginFunc`, the body, `endFunc`. -/
def producedFunction (rtl : Bool) (fuel : Nat) (name : String) (body : Stmt)
    (inputs outputs : List Expr) (st : CG) : Except Abort CG := do
  let st ← beginFunc name inputs outputs st
  let st ← acceptStmt rtl fuel body st
  endFunc st

/-- The statement `if (c1) x = a else x = b`. -/
def ifStore : Stmt :=
  Stmt.IfThenElse (Expr.Var (Datatype.UInt 1) "c1") (storeTo "a") (storeTo "b")

/-- The scope stack `m1` is the stack `m` with bindings possibly added to its innermost
scope: the same number of scopes, and the enclosing scopes unchanged. -/
def ScopedMap.ExtendedBy : ScopedMap → ScopedMap → Prop
  | [], [] => True
  | h :: t, h1 :: t1 => t1 = t ∧ ∃ added, h1 = added ++ h
  | _, _ => False

/-- The recursive call on expressions keeps the scope stack, up to bindings added to the
innermost scope. -/
def KeepsScopesE (cg : CodegenE) : Prop :=
  ∀ e st v st1, cg e st = .ok (v, st1) →
    ScopedMap.ExtendedBy st.symbolTable st1.symbolTable

/-- The recursive call on statements keeps the scope stack, up to bindings added to the
innermost scope. -/
def KeepsScopesS (cg : CodegenS) : Prop :=
  ∀ s st st1, cg s st = .ok st1 → ScopedMap.ExtendedBy st.symbolTable st1.symbolTable

/-- The condition (or control expression) and the arms of the constructs that branch:
the two branches of an IfThenElse, the body of a While, the case statements of a Switch. -/
def Stmt.arms : Stmt → Option (Expr × List Stmt)
  | .IfThenElse cond then_ otherwise => some (cond, [then_, otherwise])
  | .While cond contents _ => some (cond, [contents])
  | .Switch cases controlExpr => some (controlExpr, cases.map Prod.snd)
  | _ => none

/-- The arms are lowered one after the other on one scope stack: each arm starts on the
symbol table the previous one left (the first on `m`, the last leaves `m1`), and an arm
changes the table only by adding bindings to the innermost scope. -/
inductive ArmsShareScope (cgS : CodegenS) : List Stmt → ScopedMap → ScopedMap → Prop
  | nil (m : ScopedMap) : ArmsShareScope cgS [] m m
  | cons (s : Stmt) (rest : List Stmt) (sa sb : CG) (m1 : ScopedMap)
      (harm : cgS s sa = .ok sb)
      (hext : ScopedMap.ExtendedBy sa.symbolTable sb.symbolTable)
      (hrest : ArmsShareScope cgS rest sb.symbolTable m1) :
      ArmsShareScope cgS (s :: rest) sa.symbolTable m1

/-- The bindings put in front of the innermost scope of `m` to get `m1`, latest first. -/
def ScopedMap.added (m m1 : ScopedMap) : List (String × Value) :=
  match m, m1 with
  | h :: _, h1 :: _ => h1.take (h1.length - h.length)
  | _, _ => []

/-- What is bound in `m` is still found in `m1`: `m1` is `m` with bindings added to the
innermost scope, and a name bound in `m` has in `m1` the value of the latest binding added
for it, or the value it had in `m` when none was added. -/
def ScopedMap.StillFinds (m m1 : ScopedMap) : Prop :=
  ScopedMap.ExtendedBy m m1 ∧
  ∀ name v, m.find? name = some v →
    m1.find? name = some (((ScopedMap.added m m1).lookup name).getD v)

/-- The arms are lowered in turn: each arm starts on the symbol table the previous one left
(the first on `m`); `tables` are the symbol tables the arms leave, in order. -/
inductive ArmsInTurn (cgS : CodegenS) : List Stmt → ScopedMap → List ScopedMap → Prop
  | nil (m : ScopedMap) : ArmsInTurn cgS [] m []
  | cons (s : Stmt) (rest : List Stmt) (sa sb : CG) (tables : List ScopedMap)
      (harm : cgS s sa = .ok sb)
      (hrest : ArmsInTurn cgS rest sb.symbolTable tables) :
      ArmsInTurn cgS (s :: rest) sa.symbolTable (sb.symbolTable :: tables)

/-- The declaration `int32 y = src`. -/
def declY (src : String) : Stmt :=
  Stmt.VarAssign (Expr.Var Int32 "y") (Expr.Var Int32 src) true

/-- The assignment `y = src` to a variable declared before. -/
def assignY (src : String) : Stmt :=
  Stmt.VarAssign (Expr.Var Int32 "y") (Expr.Var Int32 src) false

/-- The statement `if (c1) int32 y = a else y = b`: the else branch refers to the variable
the then branch declares. -/
def ifDecl : Stmt := Stmt.IfThenElse (Expr.Var (Datatype.UInt 1) "c1") (declY "a") (assignY "b")

/-- The code emitted for `ifDecl`. -/
def ifDeclLowered : CG := lowered (codegenStmt false 3 ifDecl flowState)

/-- The statement `if (c1) int32 y = a else int32 y = b`: both branches declare `y`. -/
def ifRedecl : Stmt := Stmt.IfThenElse (Expr.Var (Datatype.UInt 1) "c1") (declY "a") (declY "b")

/-- The code emitted for `ifRedecl`. -/
def ifRedeclLowered : CG := lowered (codegenStmt false 3 ifRedecl flowState)

/-- The statement `{ int32 y = a }`: a declaration inside a Scope. -/
def scopedDecl : Stmt := Stmt.Scope (declY "a")

/-- The loop `for (i = 0; i < n; i += 1) int32 y = i`. -/
def loopDecl : Stmt :=
  Stmt.For (Expr.Var Int32 "i") (Expr.Literal (Datatype.Int 32) 0) (Expr.Var Int32 "n")
    (Expr.Literal (Datatype.Int 32) 1) LoopKind.Serial (declY "i")

/-- The code emitted for `loopDecl`. -/
def loopDeclLowered : CG := lowered (codegenStmt false 3 loopDecl loopState)

/-! ## Rutherford-Boeing files (src/io/rb_file_format.cpp) -/

/-- Ways a call of the Rutherford-Boeing reader or writer stops without a result:
undefined behaviour (signed overflow, division by zero, a read outside an array) and the
two exceptions of `std::stoi`. -/
inductive rb.Failure
  | undefined | invalid_argument | out_of_range
  deriving DecidableEq, Repr

/-- The largest `int`. -/
def rb.INT_MAX : Int := ((2 ^ 31 : Nat) : Int) - 1

/-- The smallest `int`. -/
def rb.INT_MIN : Int := -((2 ^ 31 : Nat) : Int)

/-- The character of a decimal digit. -/
def rb.digitChar : Nat → Char
  | 0 => '0'
  | 1 => '1'
  | 2 => '2'
  | 3 => '3'
  | 4 => '4'
  | 5 => '5'
  | 6 => '6'
  | 7 => '7'
  | 8 => '8'
  | _ => '9'

/-- Decimal digits of `n` in front of `acc`, least significant digit produced first; the
first argument bounds the number of digits. -/
def rb.decimal.go : Nat → Nat → List Char → List Char
  | 0, _, acc => acc
  | fuel + 1, n, acc =>
    if n / 10 = 0 then rb.digitChar (n % 10) :: acc
    else rb.decimal.go fuel (n / 10) (rb.digitChar (n % 10) :: acc)

/-- The decimal numeral of a natural number, without leading zeros. -/
def rb.decimal (n : Nat) : List Char := rb.decimal.go (n + 1) n []

/-- The text `hbfile << x` writes for an `int`. -/
def rb.printInt (x : Int) : List Char :=
  if x < 0 then '-' :: rb.decimal x.natAbs else rb.decimal x.natAbs

/-- Whitespace as `operator>>` and `std::stoi` skip it (`std::isspace` in the C locale):
space, tab, line feed, vertical tab, form feed, carriage return. -/
def rb.isspace (c : Char) : Bool :=
  c.toNat = 32 || (9 ≤ c.toNat && c.toNat ≤ 13)

/-- The loop `while (iss >> ptr)` over a line: the maximal runs of non-whitespace characters,
in order. The second argument is the run being read, reversed. -/
def rb.words.go : List Char → List Char → List (List Char)
  | [], cur => if cur.isEmpty then [] else [cur.reverse]
  | c :: cs, cur =>
    if rb.isspace c then
      if cur.isEmpty then rb.words.go cs [] else cur.reverse :: rb.words.go cs []
    else rb.words.go cs (c :: cur)

/-- The words `iss >> ptr` extracts from a line. -/
def rb.words (line : List Char) : List (List Char) := rb.words.go line []

/-- `std::getline(hbfile, line)`: the characters up to the next line feed, which is consumed
and not stored, and the rest of the stream. -/
def rb.getline (s : List Char) : List Char × List Char :=
  (s.takeWhile (fun c => c != '\n'), (s.dropWhile (fun c => c != '\n')).drop 1)

/-- The optional sign in front of the digits `std::stoi` converts: whether it is a minus,
and the characters after it. -/
def rb.stoi.sign (s : List Char) : Bool × List Char :=
  match s with
  | '-' :: r => (true, r)
  | '+' :: r => (false, r)
  | _ => (false, s)

/-- `std::stoi(ptr)`: leading whitespace, an optional sign, then the longest run of decimal
digits; `invalid_argument` without a digit, `out_of_range` outside `int`. -/
def rb.stoi (ptr : List Char) : Except rb.Failure Int :=
  let s := ptr.dropWhile rb.isspace
  let signed := rb.stoi.sign s
  let ds := signed.2.takeWhile Char.isDigit
  if ds.isEmpty then .error rb.Failure.invalid_argument
  else
    let v : Int := ((ds.foldl (fun a c => 10 * a + (c.toNat - 48)) 0 : Nat) : Int)
    let x := if signed.1 then -v else v
    if x < rb.INT_MIN ∨ rb.INT_MAX < x then .error rb.Failure.out_of_range else .ok x

/-- The inner loop of `readIndices` over the words of one line: `indices[ptr_ind] =
std::stoi(ptr) - 1; ptr_ind++`; returns the values stored, in order. -/
def rb.readIndices.line : List (List Char) → Except rb.Failure (List Int)
  | [] => .ok []
  | ptr :: rest => do
    let v ← rb.stoi ptr
    if v = rb.INT_MIN then .error rb.Failure.undefined
    else do
      let vs ← rb.readIndices.line rest
      pure ((v - 1) :: vs)

/-- The outer loop of `readIndices` with `n` lines left to read. -/
def rb.readIndices.loop : Nat → List Char → Except rb.Failure (List Int × List Char)
  | 0, s => .ok ([], s)
  | n + 1, s => do
    let xs ← rb.readIndices.line (rb.words (rb.getline s).1)
    let r ← rb.readIndices.loop n (rb.getline s).2
    pure (xs ++ r.1, r.2)

/-- `readIndices` (rb_file_format.cpp:212-224): reads `linesize` lines and returns the
values stored into `indices[0]`, `indices[1]`, ... together with the rest of the stream. The
counter `i` runs below `linesize` and cannot overflow; the array is taken to be large
enough. -/
def rb.readIndices (hbfile : List Char) (linesize : Int) :
    Except rb.Failure (List Int × List Char) :=
  rb.readIndices.loop linesize.toNat hbfile

/-- The loop of `writeIndices` with `r` iterations left and counter `i`; returns the text
written. `indices[i-1] + 1` and `i++` are `int` operations, `i % indperline` needs a
non-zero divisor. -/
def rb.writeIndices.loop (indperline : Int) (indices : List Int) :
    Nat → Int → Except rb.Failure (List Char)
  | 0, _ => .ok []
  | r + 1, i =>
    match indices.get? (i - 1).toNat with
    | none => .error rb.Failure.undefined
    | some x =>
      if x = rb.INT_MAX then .error rb.Failure.undefined
      else if indperline = 0 then .error rb.Failure.undefined
      else if i = rb.INT_MAX then .error rb.Failure.undefined
      else do
        let rest ← rb.writeIndices.loop indperline indices r (i + 1)
        pure (rb.printInt (x + 1) ++ ' ' ::
          (if Int.tmod i indperline = 0 then '\n' :: rest else rest))

/-- `writeIndices` (rb_file_format.cpp:226-235): the text written to `hbfile`. -/
def rb.writeIndices (indsize indperline : Int) (indices : List Int) :
    Except rb.Failure (List Char) := do
  let out ← rb.writeIndices.loop indperline indices indsize.toNat 1
  if indperline = 0 then .error rb.Failure.undefined
  else if Int.tmod indsize indperline ≠ 0 then pure (out ++ ['\n'])
  else pure out

/-- A `double` as far as the writer looks at it: the text `hbfile << v` writes for it and
whether `std::floor(v) == v`. -/
structure rb.Double where
  text : List Char
  whole : Bool

/-- The loop of `writeValues` with `r` iterations left and counter `i`; returns the text
written. -/
def rb.writeValues.loop (valperline : Int) (values : List rb.Double) :
    Nat → Int → Except rb.Failure (List Char)
  | 0, _ => .ok []
  | r + 1, i =>
    match values.get? (i - 1).toNat with
    | none => .error rb.Failure.undefined
    | some v =>
      if valperline = 0 then .error rb.Failure.undefined
      else if i = rb.INT_MAX then .error rb.Failure.undefined
      else do
        let rest ← rb.writeValues.loop valperline values r (i + 1)
        pure ((if v.whole then v.text ++ ['.', '0', ' '] else v.text ++ [' ']) ++
          (if Int.tmod i valperline = 0 then '\n' :: rest else rest))

/-- `writeValues` (rb_file_format.cpp:251-263): the text written to `hbfile`. -/
def rb.writeValues (valuesize valperline : Int) (values : List rb.Double) :
    Except rb.Failure (List Char) := do
  let out ← rb.writeValues.loop valperline values valuesize.toNat 1
  if valperline = 0 then .error rb.Failure.undefined
  else if Int.tmod valuesize valperline ≠ 0 then pure (out ++ ['\n'])
  else pure out

/-- The five line counts of the second header line. -/
structure rb.Cards where
  totcrd : Int
  ptrcrd : Int
  indcrd : Int
  valcrd : Int
  rhscrd : Int
  deriving DecidableEq, Repr

/-- The line counts as `writeFile` computes them (rb_file_format.cpp:87-91), in `int`
arithmetic: `/` and `%` truncate, a comparison is 0 or 1, `+` wraps at 32 bits. -/
def rb.writeFile.cards (ptrsize indsize valsize : Int) : rb.Cards :=
  let valcrd := wrapSigned 32 (Int.tdiv valsize 10 + (if Int.tmod valsize 10 ≠ 0 then 1 else 0))
  let ptrcrd := wrapSigned 32 (Int.tdiv ptrsize 16 + (if Int.tmod ptrsize 16 ≠ 0 then 1 else 0))
  let indcrd := wrapSigned 32 (Int.tdiv indsize 16 + (if Int.tmod indsize 16 ≠ 0 then 1 else 0))
  let rhscrd := 0
  let totcrd := wrapSigned 32 (wrapSigned 32 (wrapSigned 32 (ptrcrd + indcrd) + valcrd) + rhscrd)
  { totcrd := totcrd, ptrcrd := ptrcrd, indcrd := indcrd, valcrd := valcrd, rhscrd := rhscrd }

/-- `writeHeader` (rb_file_format.cpp:196-210): the four header lines. -/
def rb.writeHeader (title key : List Char) (c : rb.Cards) (mxtype : List Char)
    (nrow ncol nnzero neltvl : Int) (ptrfmt indfmt valfmt rhsfmt : List Char) : List Char :=
  title ++ ' ' :: key ++ ['\n'] ++
  rb.printInt c.totcrd ++ ' ' :: rb.printInt c.ptrcrd ++ ' ' :: rb.printInt c.indcrd ++
    ' ' :: rb.printInt c.valcrd ++ ' ' :: rb.printInt c.rhscrd ++ ['\n'] ++
  mxtype ++ ' ' :: rb.printInt nrow ++ ' ' :: rb.printInt ncol ++
    ' ' :: rb.printInt nnzero ++ ' ' :: rb.printInt neltvl ++ ['\n'] ++
  ptrfmt ++ ' ' :: indfmt ++ ' ' :: valfmt ++ ' ' :: rhsfmt ++ ['\n']

/-- `writeFile` (rb_file_format.cpp:58-105): the header, the two index arrays with 16
entries per line, the values with 10 per line. -/
def rb.writeFile (key : List Char) (nrow ncol nnzero ptrsize indsize valsize : Int)
    (colptr rowind : List Int) (values : List rb.Double) : Except rb.Failure (List Char) := do
  let c := rb.writeFile.cards ptrsize indsize valsize
  let header := rb.writeHeader "CSC Matrix written by taco".toList key c "RUA".toList
    nrow ncol nnzero 0 "(16I5)".toList "(16I5)".toList "(10F7.1)".toList []
  let ptrs ← rb.writeIndices ptrsize 16 colptr
  let inds ← rb.writeIndices indsize 16 rowind
  let vals ← rb.writeValues valsize 10 values
  pure (header ++ ptrs ++ inds ++ vals)

/-- The text the write loop produces for the entries `xs` when the counter starts at `i`
(16 entries per line): each entry plus one as a numeral followed by a space, and a line feed
after every entry whose counter is a multiple of 16. -/
def rb.indexText : Int → List Int → List Char
  | _, [] => []
  | i, x :: xs =>
    rb.printInt (x + 1) ++ ' ' ::
      (if i % 16 = 0 then '\n' :: rb.indexText (i + 1) xs else rb.indexText (i + 1) xs)

/-- The seventeen indices 0, 1, ..., 16: one full line and one more entry. -/
def rb.seventeen : List Int := [0, 1, 2, 3, 4, 5, 6, 7, 8, 9, 10, 11, 12, 13, 14, 15, 16]

/-- The text the value loop produces for the values `vs` when the counter starts at `i`
(10 values per line): each value's text, `.0` after an integral one, a space, and a line feed
after every value whose counter is a multiple of 10. -/
def rb.valueText : Int → List rb.Double → List Char
  | _, [] => []
  | i, v :: vs =>
    (if v.whole then v.text ++ ['.', '0', ' '] else v.text ++ [' ']) ++
      (if i % 10 = 0 then '\n' :: rb.valueText (i + 1) vs else rb.valueText (i + 1) vs)

/-- Eleven values: the integral ones print as `1`, the other as `2.5`. -/
def rb.elevenValues : List rb.Double :=
  ⟨['2', '.', '5'], false⟩ :: List.replicate 10 ⟨['1'], true⟩

theorem bind_eq_ok {α β : Type} {x : Except Abort α} {f : α → Except Abort β} {b : β}
    (h : (x >>= f) = .ok b) : ∃ a, x = .ok a ∧ f a = .ok b := by
  cases x with
  | error e => simp [bind, Except.bind] at h
  | ok a => exact ⟨a, rfl, h⟩

/-- A value returned by `codegen` is not null and is the member `value`. -/
theorem codegen_ok_value (rtl : Bool) (fuel : Nat) (e : Expr) (st st1 : CG) (v : Value)
    (h : codegen rtl fuel e st = .ok (v, st1)) : v ≠ Value.null ∧ st1.value = v := by
  cases fuel with
  | zero => simp [codegen] at h
  | succ n =>
    simp only [codegen] at h
    obtain ⟨s, _, hs⟩ := bind_eq_ok h
    by_cases hn : s.value = Value.null
    · simp [hn] at hs
    · simp only [hn, if_false, pure, Except.pure, Except.ok.injEq, Prod.mk.injEq] at hs
      obtain ⟨rfl, rfl⟩ := hs
      exact ⟨hn, rfl⟩

theorem find_after_pushSymbol (name : String) (v : Value) (st st1 : CG)
    (h : pushSymbol name v st = .ok st1) :
    st1.symbolTable.find? name = some v ∧ st1.value = st.value := by
  simp only [pushSymbol] at h
  obtain ⟨m, hm, h⟩ := bind_eq_ok h
  simp only [pure, Except.pure, Except.ok.injEq] at h
  subst h
  cases hst : st.symbolTable with
  | nil => simp [ScopedMap.insert, hst] at hm
  | cons s rest =>
    simp only [ScopedMap.insert, hst, Except.ok.injEq] at hm
    subst hm
    simp [ScopedMap.find?, List.lookup]

/-- Newer scopes that do not bind a name do not hide it. -/
theorem find_append_of_unbound (inner m : ScopedMap) (name : String)
    (h : ∀ s ∈ inner, s.lookup name = none) :
    ScopedMap.find? (inner ++ m) name = ScopedMap.find? m name := by
  induction inner with
  | nil => rfl
  | cons s rest ih =>
    have hs : s.lookup name = none := h s (List.mem_cons_self _ _)
    have hr : ∀ t ∈ rest, t.lookup name = none := fun t ht => h t (List.mem_cons_of_mem _ ht)
    simp only [List.cons_append, ScopedMap.find?, hs]
    exact ih hr

/-! ## C1: the value `codegen(Expr)` returns -/

/-- C1 (fails on the code): for each of the six comparison kinds applied to two
bound variables, `codegen` returns the value of an operand (the one lowered last),
while the compare instruction it emitted, the only instruction in the block, has
another handle; the same happens for `Sqrt` with its call. -/
theorem codegen_comparison_returns_operand (rtl : Bool) (fuel : Nat) :
    (∀ mk ∈ comparisons,
      resultValue (codegen rtl (fuel + 2) (mk Int32 (Expr.Var Int32 "a") (Expr.Var Int32 "b"))
          demoState)
        = some (if rtl then Value.arg 0 (LType.int 32) else Value.arg 1 (LType.int 32)) ∧
      resultHandles (codegen rtl (fuel + 2) (mk Int32 (Expr.Var Int32 "a") (Expr.Var Int32 "b"))
          demoState)
        = some [[Value.inst 0 (LType.int 1)]]) ∧
    resultValue (codegen rtl (fuel + 2)
        (Expr.Sqrt (Datatype.Float 64) (Expr.Var (Datatype.Float 64) "x")) demoState)
      = some (Value.arg 3 LType.double) ∧
    resultHandles (codegen rtl (fuel + 2)
        (Expr.Sqrt (Datatype.Float 64) (Expr.Var (Datatype.Float 64) "x")) demoState)
      = some [[Value.inst 0 LType.double]] := by
  refine ⟨?_, ?_, ?_⟩
  · intro mk hmk
    simp only [comparisons, List.mem_cons, List.mem_singleton, List.not_mem_nil, or_false] at hmk
    rcases hmk with rfl | rfl | rfl | rfl | rfl | rfl <;> cases rtl <;> exact ⟨rfl, rfl⟩
  · cases rtl <;> rfl
  · cases rtl <;> rfl

/-! ## C10: the tensor descriptor record and `indexForProp` -/

/-- C10: the descriptor record has exactly the 8 fields order, dimensions,
component size, mode-ordering, mode-types, indices, values, values-size, in that
order, with pointer depths 0,1,0,1,1,3,1,0; and `indexForProp` is a bijection from
the eight properties onto 0..7 that sends each property to the position of its
own field. -/
theorem tensor_descriptor_layout :
    tacoTensorType.elements = descriptorFields.map Prod.snd ∧
    descriptorFields.length = 8 ∧
    descriptorFields.map Prod.fst =
      [TensorProperty.Order, TensorProperty.Dimension, TensorProperty.ComponentSize,
       TensorProperty.ModeOrdering, TensorProperty.ModeTypes, TensorProperty.Indices,
       TensorProperty.Values, TensorProperty.ValuesSize] ∧
    tacoTensorType.elements.map LType.ptrDepth = [0, 1, 0, 1, 1, 3, 1, 0] ∧
    (∀ p : TensorProperty, (descriptorFields.get? (indexForProp p)).map Prod.fst = some p) ∧
    Function.Injective indexForProp ∧
    (∀ k, k < 8 ↔ ∃ p, indexForProp p = k) := by
  refine ⟨rfl, rfl, rfl, rfl, ?_, ?_, ?_⟩
  · intro p; cases p <;> rfl
  · intro p q h; cases p <;> cases q <;> first | rfl | (exact absurd h (by decide))
  · intro k
    constructor
    · intro hk
      have h8 : k = 0 ∨ k = 1 ∨ k = 2 ∨ k = 3 ∨ k = 4 ∨ k = 5 ∨ k = 6 ∨ k = 7 := by omega
      rcases h8 with rfl | rfl | rfl | rfl | rfl | rfl | rfl | rfl
      · exact ⟨TensorProperty.Order, rfl⟩
      · exact ⟨TensorProperty.Dimension, rfl⟩
      · exact ⟨TensorProperty.ComponentSize, rfl⟩
      · exact ⟨TensorProperty.ModeOrdering, rfl⟩
      · exact ⟨TensorProperty.ModeTypes, rfl⟩
      · exact ⟨TensorProperty.Indices, rfl⟩
      · exact ⟨TensorProperty.Values, rfl⟩
      · exact ⟨TensorProperty.ValuesSize, rfl⟩
    · rintro ⟨p, rfl⟩
      cases p <;> decide

/-! ## C4: running the code of a Switch -/

/-- A switch over the labels 0, 1, 2 with control value 1 runs the second case
only (the example of the specification). -/
theorem switch_example_runs_matching_case (rtl : Bool) (fuel : Nat) :
    traceOf (codegenStmt rtl (fuel + 3)
        (Stmt.Switch [(Expr.Literal (Datatype.UInt 64) 0, storeTo "a"),
                      (Expr.Literal (Datatype.UInt 64) 1, storeTo "b"),
                      (Expr.Literal (Datatype.UInt 64) 2, storeTo "c")]
          (Expr.Var (Datatype.UInt 64) "v")) flowState) (flowArgs 0 0 1) 10
      = some (Stop.endOfCode,
          [Event.enter 3, Event.effect 3 [some 20, some 1000], Event.enter 1]) := by
  cases rtl <;> rfl

/-- C4 (fails on the code): the label of a case is read with `getValue<int32_t>`.
For the single 64-bit unsigned label `2 ^ 32` the constant registered is 0: with
control value `2 ^ 32` no case statement runs, and with control value 0 the case
statement runs although its label differs from the control value. -/
theorem switch_wide_label_mismatch (rtl : Bool) (fuel : Nat) :
    resultOps (codegenStmt rtl (fuel + 3)
        (Stmt.Switch [(Expr.Literal (Datatype.UInt 64) ((2 ^ 32 : Nat) : Int), storeTo "a")]
          (Expr.Var (Datatype.UInt 64) "v")) flowState)
      = some [[Op.switch (Value.arg 2 (LType.int 64)) 1 [(Value.constInt 64 0, 2)]],
              [],
              [Op.store (Value.arg 4 (LType.int 32)) (Value.arg 3 (LType.ptr (LType.int 32))),
               Op.br 1]] ∧
    traceOf (codegenStmt rtl (fuel + 3)
        (Stmt.Switch [(Expr.Literal (Datatype.UInt 64) ((2 ^ 32 : Nat) : Int), storeTo "a")]
          (Expr.Var (Datatype.UInt 64) "v")) flowState) (flowArgs 0 0 (2 ^ 32)) 10
      = some (Stop.endOfCode, [Event.enter 1]) ∧
    traceOf (codegenStmt rtl (fuel + 3)
        (Stmt.Switch [(Expr.Literal (Datatype.UInt 64) ((2 ^ 32 : Nat) : Int), storeTo "a")]
          (Expr.Var (Datatype.UInt 64) "v")) flowState) (flowArgs 0 0 0) 10
      = some (Stop.endOfCode,
          [Event.enter 2, Event.effect 1 [some 10, some 1000], Event.enter 1]) := by
  cases rtl <;> exact ⟨rfl, rfl, rfl⟩

/-! ## C5: a two-clause Case with both conditions false -/

/-- C5 (fails on the code): with `alwaysMatch = false` the last clause becomes the
else branch, its condition is never tested; so when both conditions of a
two-clause Case are false the statement of the second clause runs. -/
theorem case_both_false_runs_last_clause (rtl : Bool) (fuel : Nat) :
    (∀ (c1 c2 : Expr) (s1 s2 : Stmt),
      caseToIfThenElse [(c1, s1), (c2, s2)] false = .ok (Stmt.IfThenElse c1 s1 s2)) ∧
    traceOf (codegenStmt rtl (fuel + 4)
        (Stmt.Case [(Expr.Var Int32 "c1", storeTo "a"), (Expr.Var Int32 "c2", storeTo "b")] false)
        flowState) (flowArgs 0 0 0) 10
      = some (Stop.endOfCode,
          [Event.enter 2, Event.effect 3 [some 20, some 1000], Event.enter 3]) := by
  refine ⟨fun _ _ _ _ => rfl, ?_⟩
  cases rtl <;> rfl

/-! ## C7: integer literals -/

/-- Unsigned literals of width 8, 16, 32 and 64 are lowered exactly. -/
theorem literal_unsigned_exact (rtl : Bool) (fuel : Nat) (st : CG) (w : Nat) (v : Int)
    (hw : w = 8 ∨ w = 16 ∨ w = 32 ∨ w = 64) (h0 : 0 ≤ v) (h1 : v < ((2 ^ w : Nat) : Int)) :
    codegen rtl (fuel + 1) (Expr.Literal (Datatype.UInt w) v) st
      = .ok (Value.constInt w v.toNat, { st with value := Value.constInt w v.toNat }) ∧
    (Value.constInt w v.toNat).decodeUnsigned = some v := by
  rcases hw with rfl | rfl | rfl | rfl
  all_goals
    simp only [codegen, visitExpr, visit_Literal, Datatype.UInt, Datatype.isFloat,
      Datatype.isUInt, Datatype.getNumBits, llvmTypeOf, Datatype.isComplex, ConstantInt.get,
      getValue, HostTy.isSigned, HostTy.bits, bind, Except.bind, pure, Except.pure,
      Value.decodeUnsigned]
    simp
    norm_num at h1 ⊢
    omega

/-- C7 (fails on the code): a 128-bit literal is read through a 64-bit host
integer (`unsigned long long`, `long long`). The largest unsigned 128-bit value
is lowered to a constant that decodes to `2 ^ 64 - 1`, the smallest signed 128-bit
value to one that decodes to 0, the largest signed one to one that decodes to
-1. -/
theorem literal_128_truncated (rtl : Bool) (fuel : Nat) (st : CG) :
    (resultValue (codegen rtl (fuel + 1)
        (Expr.Literal (Datatype.UInt 128) (((2 ^ 128 : Nat) : Int) - 1)) st)).bind
        Value.decodeUnsigned = some (((2 ^ 64 : Nat) : Int) - 1) ∧
    (resultValue (codegen rtl (fuel + 1)
        (Expr.Literal (Datatype.Int 128) (-((2 ^ 127 : Nat) : Int))) st)).bind
        Value.decodeSigned = some 0 ∧
    (resultValue (codegen rtl (fuel + 1)
        (Expr.Literal (Datatype.Int 128) (((2 ^ 127 : Nat) : Int) - 1)) st)).bind
        Value.decodeSigned = some (-1) := by
  exact ⟨rfl, rfl, rfl⟩

/-! ## C2: repeated property accesses -/

/-- When the key of a property access is bound to `v`, the access returns `v` and
changes nothing but the member `value`: no instruction is emitted. -/
theorem getProperty_hit (rtl : Bool) (fuel : Nat) (type : Datatype) (tensor : Expr)
    (property : TensorProperty) (mode : Int) (st : CG) (v : Value)
    (hv : v ≠ Value.null)
    (h : st.symbolTable.find? (util.toString (Expr.GetProperty type tensor property mode))
      = some v) :
    codegen rtl (fuel + 1) (Expr.GetProperty type tensor property mode) st
      = .ok (v, { st with value := v }) := by
  simp only [codegen, visitExpr, visit_GetProperty, containsSymbol, ScopedMap.contains, h,
    Option.isSome_some, if_true, getSymbol, ScopedMap.get, bind, Except.bind, pure, Except.pure]
  simp [hv]

/-- C2 (counterexample): the first access to `A.vals` sits inside a Scope (resp. a
For body), the second one after it. The second access emits a second GEP and a
second load, and the two stores store different values; this is so under either
order of argument evaluation. -/
theorem getProperty_reloaded_after_scope :
    resultOps (codegenStmt false 5 (Stmt.Block [Stmt.Scope readVals, readVals]) propState)
      = some [reloadedOps] ∧
    resultOps (codegenStmt true 5 (Stmt.Block [Stmt.Scope readVals, readVals]) propState)
      = some [reloadedOps] ∧
    (resultOps (codegenStmt false 5
        (Stmt.Block [Stmt.For (Expr.Var Int32 "i") (Expr.Literal Int32 0) (Expr.Literal Int32 4)
          (Expr.Literal Int32 1) LoopKind.Serial readVals, readVals]) propState)).map
        (fun bs => bs.map (fun ops => ops.filter (fun op => match op with
          | Op.load _ => true
          | _ => false)))
      = some [[], [Op.load (Value.inst 3 (LType.ptr (LType.ptr (LType.int 8))))],
              [Op.load (Value.inst 9 (LType.ptr (LType.ptr (LType.int 8))))]] := by
  exact ⟨rfl, rfl, rfl⟩

/-- After `visit(const GetProperty*)` the key of the access is bound to the value
the visit produced. -/
theorem visit_GetProperty_binds (rtl : Bool) (cg : CodegenE) (type : Datatype) (tensor : Expr)
    (property : TensorProperty) (mode : Int) (st st1 : CG)
    (h : visit_GetProperty rtl cg (Expr.GetProperty type tensor property mode) tensor property
      mode st = .ok st1) :
    st1.symbolTable.find? (util.toString (Expr.GetProperty type tensor property mode))
      = some st1.value := by
  simp only [visit_GetProperty] at h
  split at h
  · obtain ⟨v, hv, h⟩ := bind_eq_ok h
    simp only [pure, Except.pure, Except.ok.injEq] at h
    subst h
    simp only [getSymbol, ScopedMap.get] at hv
    split at hv
    · rename_i w hw
      simp only [Except.ok.injEq] at hv
      subst hv
      exact hw
    · simp at hv
  · obtain ⟨a, _, h⟩ := bind_eq_ok h
    obtain ⟨b, _, h⟩ := bind_eq_ok h
    obtain ⟨c, _, h⟩ := bind_eq_ok h
    obtain ⟨d, _, h⟩ := bind_eq_ok h
    have := find_after_pushSymbol _ _ _ _ h
    rw [this.1, this.2]

/-- C2 (amended): once an access to (tensor, property, mode) has returned `v`, its
key is bound to `v`; and every later access made while that binding is still
visible (in particular below newer scopes that do not rebind the key) returns the
identical value `v` and emits nothing: the generator state changes in the member
`value` only. -/
theorem getProperty_cached_while_visible (rtl : Bool) (fuel fuel2 : Nat) (type : Datatype)
    (tensor : Expr) (property : TensorProperty) (mode : Int) (st st1 : CG) (v : Value)
    (hfirst : codegen rtl fuel (Expr.GetProperty type tensor property mode) st = .ok (v, st1)) :
    st1.symbolTable.find? (util.toString (Expr.GetProperty type tensor property mode))
      = some v ∧
    (∀ st2 : CG,
      st2.symbolTable.find? (util.toString (Expr.GetProperty type tensor property mode))
        = some v →
      codegen rtl (fuel2 + 1) (Expr.GetProperty type tensor property mode) st2
        = .ok (v, { st2 with value := v })) ∧
    (∀ (inner : ScopedMap) (st2 : CG),
      (∀ s ∈ inner,
        s.lookup (util.toString (Expr.GetProperty type tensor property mode)) = none) →
      st2.symbolTable = inner ++ st1.symbolTable →
      codegen rtl (fuel2 + 1) (Expr.GetProperty type tensor property mode) st2
        = .ok (v, { st2 with value := v })) := by
  have hv := codegen_ok_value rtl fuel _ st st1 v hfirst
  have hbound : st1.symbolTable.find?
      (util.toString (Expr.GetProperty type tensor property mode)) = some v := by
    cases fuel with
    | zero => simp [codegen] at hfirst
    | succ n =>
      simp only [codegen] at hfirst
      obtain ⟨s, hs, hrest⟩ := bind_eq_ok hfirst
      have hb := visit_GetProperty_binds rtl _ type tensor property mode _ s hs
      by_cases hn : s.value = Value.null
      · simp [hn] at hrest
      · simp only [hn, if_false, pure, Except.pure, Except.ok.injEq, Prod.mk.injEq] at hrest
        obtain ⟨h1, h2⟩ := hrest
        rw [← h2, ← h1]
        exact hb
  refine ⟨hbound, ?_, ?_⟩
  · intro st2 h2
    exact getProperty_hit rtl fuel2 type tensor property mode st2 v hv.1 h2
  · intro inner st2 hin hst
    apply getProperty_hit rtl fuel2 type tensor property mode st2 v hv.1
    rw [hst, find_append_of_unbound inner _ _ hin]
    exact hbound

/-- The amended C2 at a concrete input: `A.vals` is accessed in `propState`, then
again in the state the first access left, and again inside a fresh scope. -/
theorem getProperty_cached_while_visible_witness :
    ∃ (v : Value) (st1 : CG),
      codegen false 3 valsOf propState = .ok (v, st1) ∧
      codegen false 3 valsOf st1 = .ok (v, { st1 with value := v }) ∧
      codegen false 3 valsOf (pushScope st1) = .ok (v, { pushScope st1 with value := v }) := by
  have h : codegen false 3 valsOf propState = .ok (_, _) := rfl
  have t := getProperty_cached_while_visible false 3 2 _ _ _ _ _ _ _ h
  exact ⟨_, _, h, t.2.1 _ t.1, t.2.2 [[]] _ (by simp) rfl⟩

/-! ## C9: `beginFunc` and `endFunc` -/

theorem modifyAt_append_length {α : Type} (f : α → α) (done : List α) (t : α) (ts : List α) :
    modifyAt f (done ++ t :: ts) done.length = done ++ f t :: ts := by
  induction done with
  | nil => rfl
  | cons d ds ih => simp [modifyAt, ih]

theorem noAlias_spec (n i : Nat) (f : LFunction) (done todo : List (List Attribute))
    (hf : f.paramAttrs = done ++ todo) (hi : done.length = i) (hn : todo.length = n) :
    beginFunc.noAlias n i f
      = { f with paramAttrs := done ++ todo.map (fun l => l ++ [Attribute.NoAlias]) } := by
  induction n generalizing i f done todo with
  | zero =>
    have : todo = [] := List.length_eq_zero.mp hn
    subst this
    simp [beginFunc.noAlias, ← hf]
  | succ n ih =>
    cases todo with
    | nil => simp at hn
    | cons t ts =>
      simp only [beginFunc.noAlias]
      have hstep : (f.addParamAttr i Attribute.NoAlias).paramAttrs
          = (done ++ [t ++ [Attribute.NoAlias]]) ++ ts := by
        simp only [LFunction.addParamAttr, hf, ← hi, modifyAt_append_length]
        simp
      rw [ih (i + 1) _ (done ++ [t ++ [Attribute.NoAlias]]) ts hstep (by simp [hi])
        (by simpa using hn)]
      simp [LFunction.addParamAttr]

theorem bindArgs_spec (ty : LType) (ps : List (Datatype × String)) (k : Nat) (pre : List Expr)
    (st : CG) (top : List (String × Value)) (rest : ScopedMap)
    (hst : st.symbolTable = top :: rest) (hk : pre.length = k) :
    beginFunc.bindArgs (pre ++ ps.map mkVar) (List.replicate ps.length ty) k st
      = .ok { st with symbolTable := ((paramList ty ps k).reverse ++ top) :: rest } := by
  induction ps generalizing k pre st top with
  | nil => simp [beginFunc.bindArgs, paramList, ← hst]
  | cons p ps ih =>
    have hget : (pre ++ (p :: ps).map mkVar).get? k = some (Expr.Var p.1 p.2) := by
      subst hk
      rw [List.get?_eq_getElem?, List.getElem?_append_right (le_refl _)]
      simp [mkVar]
    simp only [List.length_cons, List.replicate_succ, beginFunc.bindArgs, hget, pushSymbol,
      ScopedMap.insert, hst, bind, Except.bind, pure, Except.pure]
    have := ih (k + 1) (pre ++ [mkVar p])
      { st with symbolTable := ((p.2, Value.arg k ty) :: top) :: rest }
      ((p.2, Value.arg k ty) :: top) rfl (by simp [hk])
    simp only [List.append_assoc, List.singleton_append] at this
    simp only [List.map_cons]
    rw [this]
    simp [paramList]
theorem lookup_append_of_absent (a : String) (l top : List (String × Value))
    (h : ∀ x ∈ l, x.1 ≠ a) : List.lookup a (l ++ top) = List.lookup a top := by
  induction l with
  | nil => rfl
  | cons x xs ih =>
    have hx : (a == x.1) = false := by
      have := h x (List.mem_cons_self _ _)
      simpa [beq_eq_false_iff_ne] using fun e => this e.symm
    obtain ⟨k, v⟩ := x
    simp only [List.cons_append, List.lookup_cons]
    simp only at hx
    rw [hx]
    exact ih (fun y hy => h y (List.mem_cons_of_mem _ hy))

theorem paramList_keys (ty : LType) (ps : List (Datatype × String)) (k : Nat) :
    ∀ x ∈ paramList ty ps k, ∃ j, ∃ hj : j < ps.length, x.1 = (ps[j]).2 := by
  induction ps generalizing k with
  | nil => simp [paramList]
  | cons p ps ih =>
    intro x hx
    simp only [paramList, List.mem_cons] at hx
    rcases hx with rfl | hx
    · exact ⟨0, by simp, rfl⟩
    · obtain ⟨j, hj, e⟩ := ih (k + 1) x hx
      exact ⟨j + 1, by simpa using hj, by simpa using e⟩

theorem lookup_paramList (ty : LType) (ps : List (Datatype × String)) (k i : Nat)
    (top : List (String × Value)) (h : i < ps.length)
    (hlast : ∀ j (hj : j < ps.length), i < j → (ps[j]).2 ≠ (ps[i]).2) :
    List.lookup (ps[i]).2 ((paramList ty ps k).reverse ++ top) = some (Value.arg (k + i) ty) := by
  induction ps generalizing k i top with
  | nil => simp at h
  | cons p ps ih =>
    simp only [paramList, List.reverse_cons, List.append_assoc, List.singleton_append]
    cases i with
    | zero =>
      simp only [List.getElem_cons_zero, Nat.add_zero]
      rw [lookup_append_of_absent]
      · simp [List.lookup_cons]
      · intro x hx
        obtain ⟨j, hj, e⟩ := paramList_keys ty ps (k + 1) x (List.mem_reverse.mp hx)
        rw [e]
        have := hlast (j + 1) (by simpa using hj) (by omega)
        simpa using this
    | succ i =>
      have hi : i < ps.length := by simpa using h
      have := ih (k + 1) i ((p.2, Value.arg k ty) :: top) hi (by
        intro j hj hij
        have := hlast (j + 1) (by simpa using hj) (by omega)
        simpa using this)
      simp only [List.getElem_cons_succ]
      rw [this]
      congr 2
      omega

theorem updateBlock_get (blocks : List BasicBlock) (b : Nat) (f : BasicBlock → BasicBlock) :
    (updateBlock blocks b f).get? b = (blocks.get? b).map f := by
  induction blocks generalizing b with
  | nil => simp [updateBlock]
  | cons x xs ih =>
    cases b with
    | zero => simp [updateBlock]
    | succ n => simpa [updateBlock] using ih n

/-- C9: `beginFunc` declares a function with exactly |I|+|O| parameters, inputs
first, each of type pointer-to-tensor-descriptor and each marked NoAlias, opens
the entry block and binds, in a new scope, the name of every parameter to the
native argument at its position (a name is found bound to its own argument when
no later parameter repeats it); `endFunc` appends `ret i32 0` at the insertion
point, pops the scope and clears the argument list. With I and O empty the
parameter list is empty and the return is emitted all the same. -/
theorem beginFunc_endFunc_contract (name : String) (I O : List (Datatype × String)) (st : CG)
    (hargs : st.currentFunctionArgs = []) :
    beginFunc name (I.map mkVar) (O.map mkVar) st = .ok (afterBeginFunc name I O st) ∧
    (∀ i (h : i < (I ++ O).length),
      (∀ j (hj : j < (I ++ O).length), i < j → ((I ++ O)[j]).2 ≠ ((I ++ O)[i]).2) →
      (afterBeginFunc name I O st).symbolTable.find? ((I ++ O)[i]).2
        = some (Value.arg i tacoTensorType.getPointerTo)) ∧
    (∀ (st2 : CG) (b : Nat) (bb : BasicBlock),
      st2.insertBlock = some b → st2.blocks.get? b = some bb → st2.symbolTable ≠ [] →
      ∃ st3, endFunc st2 = .ok st3 ∧
        st3.blocks.get? b = some { bb with instrs := bb.instrs ++
          [⟨st2.nextId, LType.void, Op.ret (Value.constInt 32 0)⟩] } ∧
        st3.symbolTable = st2.symbolTable.tail ∧ st3.currentFunctionArgs = []) := by
  refine ⟨?_, ?_, ?_⟩
  · simp only [beginFunc, hargs, List.nil_append, createBlock, SetInsertPoint, pushScope,
      ScopedMap.scope]
    have hna := noAlias_spec (I.map mkVar ++ O.map mkVar).length 0
      { name := name, retTy := LType.int 32,
        params := (I.map mkVar ++ O.map mkVar).map (fun _ => tacoTensorType.getPointerTo),
        paramAttrs := ((I.map mkVar ++ O.map mkVar).map
          (fun _ => tacoTensorType.getPointerTo)).map (fun _ => []) }
      [] (((I.map mkVar ++ O.map mkVar).map
          (fun _ => tacoTensorType.getPointerTo)).map (fun _ => [])) rfl rfl (by simp)
    rw [hna]
    have hb := bindArgs_spec tacoTensorType.getPointerTo (I ++ O) 0 []
      { symbolTable := [] :: st.symbolTable, value := st.value,
        blocks := st.blocks ++ [⟨"entry", []⟩], insertBlock := some st.blocks.length,
        nextId := st.nextId,
        function := some
          { name := name, retTy := LType.int 32,
            params := List.replicate (I.length + O.length) tacoTensorType.getPointerTo,
            paramAttrs := List.replicate (I.length + O.length) [Attribute.NoAlias] },
        currentFunctionArgs := I.map mkVar ++ O.map mkVar } [] st.symbolTable rfl rfl
    simp only [List.nil_append, List.map_append, List.length_append, List.append_nil] at hb
    simp only [List.map_append, List.map_map, List.length_append, List.length_map,
      List.nil_append, afterBeginFunc]
    have e1 : ∀ (l : List (Datatype × String)),
        List.map ((fun _ => tacoTensorType.getPointerTo) ∘ mkVar) l
          = List.replicate l.length tacoTensorType.getPointerTo := by
      intro l; induction l with
      | nil => rfl
      | cons x xs ih => simp [List.replicate_succ, ih]
    have e2 : ∀ (l : List (Datatype × String)),
        List.map ((fun l => l ++ [Attribute.NoAlias]) ∘ (fun _ => ([] : List Attribute)) ∘
          (fun _ => tacoTensorType.getPointerTo) ∘ mkVar) l
          = List.replicate l.length [Attribute.NoAlias] := by
      intro l; induction l with
      | nil => rfl
      | cons x xs ih => simp [List.replicate_succ, ih]
    simp only [e1, e2, ← List.replicate_add]
    simp only [List.replicate_add] at hb ⊢
    exact hb
  · intro i h hlast
    simp only [afterBeginFunc, ScopedMap.find?]
    have := lookup_paramList tacoTensorType.getPointerTo (I ++ O) 0 i [] h hlast
    simp only [List.append_nil, Nat.zero_add] at this
    rw [this]
  · intro st2 b bb hb hbb hne
    cases hs : st2.symbolTable with
    | nil => exact absurd hs hne
    | cons s rest =>
      refine ⟨{ (emit LType.void (Op.ret (Value.constInt 32 0)) st2).2 with
          symbolTable := rest, currentFunctionArgs := [] }, ?_, ?_, ?_, ?_⟩
      · simp only [endFunc, ConstantInt.get, CreateRet, emit, popScope, ScopedMap.unscope, hs,
          bind, Except.bind, pure, Except.pure]
        rfl
      · simp only [emit, hb, appendInstr, updateBlock_get, hbb, Option.map_some']
      · rfl
      · rfl
/-- C9 at a concrete input: a function with inputs `B`, `c` and output `A`, and a
function without parameters. -/
theorem beginFunc_endFunc_contract_witness :
    CG.init.currentFunctionArgs = [] ∧
    beginFunc "compute" [Expr.Var (Datatype.Float 64) "B", Expr.Var (Datatype.Float 64) "c"]
        [Expr.Var (Datatype.Float 64) "A"] CG.init
      = .ok (afterBeginFunc "compute" [(Datatype.Float 64, "B"), (Datatype.Float 64, "c")]
          [(Datatype.Float 64, "A")] CG.init) ∧
    (afterBeginFunc "compute" [(Datatype.Float 64, "B"), (Datatype.Float 64, "c")]
        [(Datatype.Float 64, "A")] CG.init).symbolTable.find? "A"
      = some (Value.arg 2 tacoTensorType.getPointerTo) ∧
    (∃ st3, endFunc (afterBeginFunc "compute" [(Datatype.Float 64, "B"), (Datatype.Float 64, "c")]
        [(Datatype.Float 64, "A")] CG.init) = .ok st3 ∧
      st3.blocks.get? 0 = some ⟨"entry", [⟨0, LType.void, Op.ret (Value.constInt 32 0)⟩]⟩ ∧
      st3.symbolTable = [[]] ∧ st3.currentFunctionArgs = []) ∧
    (afterBeginFunc "empty" [] [] CG.init).function
      = some ⟨"empty", LType.int 32, [], []⟩ ∧
    (∃ st3, endFunc (afterBeginFunc "empty" [] [] CG.init) = .ok st3 ∧
      st3.blocks.get? 0 = some ⟨"entry", [⟨0, LType.void, Op.ret (Value.constInt 32 0)⟩]⟩ ∧
      st3.symbolTable = [[]] ∧ st3.currentFunctionArgs = []) := by
  have t := beginFunc_endFunc_contract "compute"
    [(Datatype.Float 64, "B"), (Datatype.Float 64, "c")] [(Datatype.Float 64, "A")] CG.init rfl
  have u := beginFunc_endFunc_contract "empty" [] [] CG.init rfl
  refine ⟨rfl, t.1, t.2.1 2 (by decide) (by intro j hj h; simp at hj; omega), ?_, rfl, ?_⟩
  · exact t.2.2 _ 0 ⟨"entry", []⟩ rfl rfl (by simp [afterBeginFunc])
  · exact u.2.2 _ 0 ⟨"entry", []⟩ rfl rfl (by simp [afterBeginFunc])

/-! ## C8: n-ary Min -/

/-- `codegen` resets the member `value` before it visits. -/
theorem codegen_ignores_value (rtl : Bool) (fuel : Nat) (e : Expr) (st : CG) (x : Value) :
    codegen rtl fuel e { st with value := x } = codegen rtl fuel e st := by
  cases fuel with
  | zero => rfl
  | succ n => simp [codegen]

theorem leftFoldMin_ignores_value (rtl : Bool) (fuel : Nat) (acc x : Value) (os : List Expr)
    (st : CG) :
    (leftFoldMin (codegen rtl fuel) acc os { st with value := x } >>= fun p =>
      (pure { p.2 with value := p.1 } : Except Abort CG))
      = (leftFoldMin (codegen rtl fuel) acc os st >>= fun p => pure { p.2 with value := p.1 }) := by
  cases os with
  | nil => rfl
  | cons o os => simp only [leftFoldMin, codegen_ignores_value]

theorem visit_Min_loop_ltr (fuel : Nat) (ops rest : List Expr) (i : Nat) (st : CG)
    (hdrop : ops.drop i = rest) :
    visit_Min.loop false (codegen false fuel) ops rest.length i st
      = (leftFoldMin (codegen false fuel) st.value rest st >>= fun p =>
          pure { p.2 with value := p.1 }) := by
  induction rest generalizing i st with
  | nil =>
    simp [visit_Min.loop, leftFoldMin, bind, Except.bind, pure, Except.pure]
  | cons o os ih =>
    have hget : ops.get? i = some o := by
      rw [List.get?_eq_getElem?, ← List.head?_drop, hdrop]; rfl
    have hdrop2 : ops.drop (i + 1) = os := by
      rw [← List.drop_drop, hdrop]; rfl
    simp only [List.length_cons, visit_Min.loop, hget, leftFoldMin, bind, Except.bind]
    cases h1 : codegen false fuel o st with
    | error e => simp
    | ok p =>
      obtain ⟨v, s1⟩ := p
      simp only [Bool.false_eq_true, if_false]
      cases h2 : CreateBinOp BinKind.MinNum st.value v s1 with
      | error e => simp
      | ok q =>
        obtain ⟨r, s2⟩ := q
        simp only
        rw [ih (i + 1) _ hdrop2]
        exact leftFoldMin_ignores_value false fuel r r os s2

/-- When the arguments of a call are evaluated left to right, `visit(const Min*)`
on two or more operands is the left fold: the first two operands are lowered and
combined, then every further operand is lowered once and combined with the
accumulated minimum. -/
theorem visit_Min_ltr_leftFold (fuel : Nat) (o0 o1 : Expr) (rest : List Expr) (st : CG) :
    visit_Min false (codegen false fuel) (o0 :: o1 :: rest) st
      = (do
          let (v0, st) ← codegen false fuel o0 st
          let (v1, st) ← codegen false fuel o1 st
          let (r, st) ← CreateBinOp BinKind.MinNum v0 v1 st
          let (r, st) ← leftFoldMin (codegen false fuel) r rest st
          pure { st with value := r }) := by
  simp only [visit_Min, List.get?_cons_zero, List.get?_cons_succ, codegen2, Bool.false_eq_true,
    if_false, bind, Except.bind, List.length_cons, Nat.add_sub_cancel]
  cases h0 : codegen false fuel o0 st with
  | error e => rfl
  | ok p0 =>
    obtain ⟨v0, s0⟩ := p0
    simp only
    cases h1 : codegen false fuel o1 s0 with
    | error e => rfl
    | ok p1 =>
      obtain ⟨v1, s1⟩ := p1
      simp only [pure, Except.pure]
      cases h2 : CreateBinOp BinKind.MinNum v0 v1 s1 with
      | error e => rfl
      | ok p2 =>
        obtain ⟨r, s2⟩ := p2
        simp only
        have := visit_Min_loop_ltr fuel (o0 :: o1 :: rest) rest 2 { s2 with value := r } rfl
        have e : rest.length + 1 + 1 - 2 = rest.length := by omega
        rw [e, this]
        exact leftFoldMin_ignores_value false fuel r r rest s2

/-- C8 (fails on the code): in `value = builder->CreateMinNum(value,
codegen(e->operands[i]))` the first argument reads the member `value` and the
second argument's `codegen` overwrites it; C++ does not fix which happens first.
When the second argument is evaluated first, `Min([a, b, c])` emits `minnum(a, b)`
and then `minnum(c, c)`: the accumulated minimum is lost. When the first argument
is evaluated first the second instruction is `minnum(minnum(a, b), c)`. -/
theorem min_three_operands_by_evaluation_order :
    minOps true
      = some [[Op.bin BinKind.MinNum (Value.arg 0 (LType.int 32)) (Value.arg 1 (LType.int 32)),
               Op.bin BinKind.MinNum (Value.arg 2 (LType.int 32)) (Value.arg 2 (LType.int 32))]] ∧
    minOps false
      = some [[Op.bin BinKind.MinNum (Value.arg 0 (LType.int 32)) (Value.arg 1 (LType.int 32)),
               Op.bin BinKind.MinNum (Value.inst 0 (LType.int 32)) (Value.arg 2 (LType.int 32))]] :=
  ⟨rfl, rfl⟩

theorem get?_append_length {α : Type} (front : List α) (x : α) (rest : List α) :
    (front ++ x :: rest).get? front.length = some x := by
  rw [List.get?_eq_getElem?, List.getElem?_append_right (le_refl _)]
  simp

theorem codegen_var (rtl : Bool) (fuel : Nat) (t : Datatype) (name : String) (s : CG) (v : Value)
    (h : s.symbolTable.find? name = some v) (hv : v ≠ Value.null) :
    codegen rtl (fuel + 1) (Expr.Var t name) s = .ok (v, { s with value := v }) := by
  simp [codegen, visitExpr, visit_Var, getSymbol, ScopedMap.get, h, bind, Except.bind, pure,
    Except.pure, hv]

theorem caseToIfThenElse_ok (clauses : List (Expr × Stmt)) (alwaysMatch : Bool)
    (hne : clauses ≠ []) : ∃ r, caseToIfThenElse clauses alwaysMatch = .ok r := by
  induction clauses with
  | nil => exact absurd rfl hne
  | cons p ps ih =>
    simp only [caseToIfThenElse]
    cases ps with
    | nil => exact ⟨_, rfl⟩
    | cons q qs =>
      obtain ⟨r, hr⟩ := ih (by simp)
      exact ⟨Stmt.IfThenElse p.1 p.2 r, by simp [hr, bind, Except.bind, pure, Except.pure]⟩

/-- C6: when some clause condition holds, `caseToIfThenElse` returns a nest that executes
what the statement of the first clause whose condition holds executes, and nothing else,
whatever `alwaysMatch` is. -/
theorem caseToIfThenElse_first_match (holds : Expr → Bool) (clauses : List (Expr × Stmt))
    (alwaysMatch : Bool) (c : Expr) (s : Stmt)
    (h : clauses.find? (fun p => holds p.1) = some (c, s)) :
    ∃ r, caseToIfThenElse clauses alwaysMatch = .ok r ∧
      Stmt.leaves holds r = Stmt.leaves holds s := by
  induction clauses with
  | nil => simp at h
  | cons p ps ih =>
    obtain ⟨c0, s0⟩ := p
    simp only [caseToIfThenElse]
    by_cases hp : holds c0 = true
    · simp only [List.find?_cons, hp, Option.some.injEq, Prod.mk.injEq] at h
      obtain ⟨rfl, rfl⟩ := h
      cases ps with
      | nil => cases alwaysMatch <;> simp [Stmt.leaves, hp]
      | cons q qs =>
        obtain ⟨r, hr⟩ := caseToIfThenElse_ok (q :: qs) alwaysMatch (by simp)
        exact ⟨Stmt.IfThenElse c0 s0 r,
          by simp [hr, bind, Except.bind, pure, Except.pure], by simp [Stmt.leaves, hp]⟩
    · have hp' : holds c0 = false := by simpa using hp
      simp only [List.find?_cons, hp'] at h
      cases ps with
      | nil => simp at h
      | cons q qs =>
        obtain ⟨r, hr, hl⟩ := ih h
        exact ⟨Stmt.IfThenElse c0 s0 r,
          by simp [hr, bind, Except.bind, pure, Except.pure], by simp [Stmt.leaves, hp', hl]⟩

theorem caseToIfThenElse_first_match_witness :
    ∃ r, caseToIfThenElse
        [(Expr.Var Int32 "p", Stmt.BlankLine), (Expr.Var Int32 "q", Stmt.VarAssign (Expr.Var Int32 "x") (Expr.Var Int32 "q") false),
         (Expr.Var Int32 "r", Stmt.VarAssign (Expr.Var Int32 "x") (Expr.Var Int32 "r") false)] false = .ok r ∧
      Stmt.leaves (fun e => match e with
          | Expr.Var _ n => n != "p"
          | _ => false) r
        = [Stmt.VarAssign (Expr.Var Int32 "x") (Expr.Var Int32 "q") false] :=
  caseToIfThenElse_first_match
    (fun e => match e with
      | Expr.Var _ n => n != "p"
      | _ => false)
    [(Expr.Var Int32 "p", Stmt.BlankLine), (Expr.Var Int32 "q", Stmt.VarAssign (Expr.Var Int32 "x") (Expr.Var Int32 "q") false),
     (Expr.Var Int32 "r", Stmt.VarAssign (Expr.Var Int32 "x") (Expr.Var Int32 "r") false)] false (Expr.Var Int32 "q") (Stmt.VarAssign (Expr.Var Int32 "x") (Expr.Var Int32 "q") false) rfl

/-! ## C11: the uncached path of a property access -/

/-- `Literal::make(v)` lowers to the 32-bit constant of `v`. -/
theorem codegen_make_literal (rtl : Bool) (fuel : Nat) (v : Int) (s : CG) :
    codegen rtl (fuel + 1) (Literal.make v) s
      = .ok (int32Const v, { s with value := int32Const v }) := by
  simp [codegen, visitExpr, Literal.make, visit_Literal, Int32, Datatype.Int, Datatype.isFloat,
    Datatype.isUInt, Datatype.isInt, Datatype.getNumBits, llvmTypeOf, Datatype.isComplex,
    ConstantInt.getSigned, bind, Except.bind, pure, Except.pure, int32Const]

/-- With left-to-right argument evaluation an access whose key is not bound emits the GEP
to field `indexForProp property` of the record the tensor points to and the load of that
field; for the four per-mode properties one more GEP at offset `mode` from the loaded value
and one more load, for the other four nothing more; the last load is returned and bound to
the key in the innermost scope. -/
theorem getProperty_uncached_ltr (fuel : Nat) (type tt : Datatype) (name : String)
    (property : TensorProperty) (mode : Int) (st : CG) (tv : Value)
    (scope : List (String × Value)) (rest : ScopedMap) (fieldTy : LType)
    (hscope : st.symbolTable = scope :: rest)
    (htv : st.symbolTable.find? name = some tv)
    (hty : tv.getType = tacoTensorType.getPointerTo)
    (hnew : st.symbolTable.find?
      (util.toString (Expr.GetProperty type (Expr.Var tt name) property mode)) = none)
    (hf : tacoTensorType.elements.get? (indexForProp property) = some fieldTy) :
    let key := util.toString (Expr.GetProperty type (Expr.Var tt name) property mode)
    let s1 := emit fieldTy.getPointerTo
      (Op.gep tv [Value.constInt 32 0, Value.constInt 32 (indexForProp property)]) st
    let s2 := emit fieldTy (Op.load s1.1) s1.2
    (property.perMode = false →
      codegen false (fuel + 2) (Expr.GetProperty type (Expr.Var tt name) property mode) st
        = .ok (s2.1, { s2.2 with value := s2.1, symbolTable := ((key, s2.1) :: scope) :: rest })) ∧
    (property.perMode = true → ∃ elemTy, fieldTy = LType.ptr elemTy ∧
      let s3 := emit fieldTy (Op.gep s2.1 [int32Const mode]) s2.2
      let s4 := emit elemTy (Op.load s3.1) s3.2
      codegen false (fuel + 2) (Expr.GetProperty type (Expr.Var tt name) property mode) st
        = .ok (s4.1, { s4.2 with value := s4.1, symbolTable := ((key, s4.1) :: scope) :: rest })) := by
  have htn : tv ≠ Value.null := by
    intro h; rw [h] at hty; simp [Value.getType, LType.getPointerTo] at hty
  obtain ⟨sym, val, blocks, ib, nid, fn, args⟩ := st
  simp only at hscope htv hnew
  subst hscope
  have hc : containsSymbol (util.toString (Expr.GetProperty type (Expr.Var tt name) property mode)) (CG.mk (scope :: rest) val blocks ib nid fn args)
      = false := by simp [containsSymbol, ScopedMap.contains, hnew]
  have hv := codegen_var false fuel tt name
  have hl := codegen_make_literal false fuel
  have k0 : int32Const 0 = Value.constInt 32 0 := by decide
  have k1 : int32Const 1 = Value.constInt 32 1 := by decide
  have k2 : int32Const 2 = Value.constInt 32 2 := by decide
  have k3 : int32Const 3 = Value.constInt 32 3 := by decide
  have k4 : int32Const 4 = Value.constInt 32 4 := by decide
  have k5 : int32Const 5 = Value.constInt 32 5 := by decide
  have k6 : int32Const 6 = Value.constInt 32 6 := by decide
  have k7 : int32Const 7 = Value.constInt 32 7 := by decide
  have hgi : ∀ (i : Nat) (ty : LType), (Value.inst i ty).getType = ty := fun _ _ => rfl
  have hmn : ∀ m : Int, Value.null ≠ int32Const m := fun m => by simp [int32Const]
  have hvar := hv { (CG.mk (scope :: rest) val blocks ib nid fn args) with value := Value.null } tv htv htn
  have hgt : tv.getType = LType.ptr tacoTensorType := hty
  intro key s1 s2
  have hunf : codegen false (fuel + 2) (Expr.GetProperty type (Expr.Var tt name) property mode) (CG.mk (scope :: rest) val blocks ib nid fn args)
      = (do
        let st0 ← visit_GetProperty false (codegen false (fuel + 1))
          (Expr.GetProperty type (Expr.Var tt name) property mode) (Expr.Var tt name) property mode
          { (CG.mk (scope :: rest) val blocks ib nid fn args) with value := Value.null }
        if st0.value = Value.null then .error Abort.ierror else pure (st0.value, st0)) := rfl
  cases property <;>
    simp only [tacoTensorType, init_context, LType.elements, LTypes.toList, LTypes.ofList,
      indexForProp, List.get?, Option.some.injEq, LType.getPointerTo] at hf <;>
    subst hf <;>
    refine ⟨fun hp => ?_, fun hp => ?_⟩ <;>
    first
    | exact absurd hp (by decide)
    | (refine ⟨_, rfl, ?_⟩
       simp [hunf, visit_GetProperty, hvar, hl, k0, k1, k2, k3, k4, k5, k6, k7, indexForProp,
         CreateGEP, CreateLoad, pushSymbol, ScopedMap.insert, bind, Except.bind, pure,
         Except.pure, htn, hgt, indexedType, tacoTensorType, init_context, LTypes.toList,
         LTypes.ofList, LType.getPointerTo, emit, hgi, hmn, containsSymbol, ScopedMap.contains,
         hnew, key, s1, s2])
    | (simp [hunf, visit_GetProperty, hvar, hl, k0, k1, k2, k3, k4, k5, k6, k7, indexForProp,
        CreateGEP, CreateLoad, pushSymbol, ScopedMap.insert, bind, Except.bind, pure,
        Except.pure, htn, hgt, indexedType, tacoTensorType, init_context, LTypes.toList,
        LTypes.ofList, LType.getPointerTo, emit, hgi, hmn, containsSymbol, ScopedMap.contains,
        hnew, key, s1, s2])

/-- C11: an uncached access to `A.dimension[2]` lowered with left-to-right argument
evaluation emits GEP, load, GEP at offset 2 from the loaded field, load. Lowered with
right-to-left evaluation, `codegen(Literal::make(e->mode))` overwrites `value` before
`CreateGEP(value, ...)` reads it, so the base of the second GEP is the constant 2 and not the
loaded field: no address is computed for any of the four per-mode properties. The
properties without further indirection lower alike under both orders. -/
theorem getProperty_per_mode_base_by_evaluation_order :
    resultOps ((codegen false 3 (propOf TensorProperty.Dimension 2) propState).map Prod.snd)
      = some [perModeOps] ∧
    resultValue (codegen false 3 (propOf TensorProperty.Dimension 2) propState)
      = some (Value.inst 3 (LType.int 32)) ∧
    codegen true 3 (propOf TensorProperty.Dimension 2) propState = .error Abort.undefined ∧
    codegen true 3 (propOf TensorProperty.ModeOrdering 2) propState = .error Abort.undefined ∧
    codegen true 3 (propOf TensorProperty.ModeTypes 2) propState = .error Abort.undefined ∧
    codegen true 3 (propOf TensorProperty.Indices 2) propState = .error Abort.undefined ∧
    resultOps ((codegen true 3 (propOf TensorProperty.Order 2) propState).map Prod.snd)
      = resultOps ((codegen false 3 (propOf TensorProperty.Order 2) propState).map Prod.snd) := by
  exact ⟨rfl, rfl, rfl, rfl, rfl, rfl, rfl⟩

/-! ## C12: the back edge of a While loop -/

/-- C12: in the code emitted for `while (c) x = v` the header phi has the incoming entries
(c, preheader) and (instruction 3, loop block), where instruction 3 is the `br` that ends the
body, of type void: the second incoming value is the branch handle, not a re-evaluated
condition (the condition is lowered once, in the preheader). That branch goes to block 0,
the preheader, not to the loop header, block 1. The emitted code is the same under either
order of argument evaluation. -/
theorem while_phi_backedge_is_branch_handle :
    resultOps (codegenStmt false 3 whileLoop whileState) = some whileOps ∧
    resultOps (codegenStmt true 3 whileLoop whileState) = some whileOps ∧
    (codegenStmt false 3 whileLoop whileState).toOption.map
        (fun s => (getInstr s.blocks 1 2).map (fun i => (i.id, i.ty)))
      = some (some (3, LType.void)) := by
  exact ⟨rfl, rfl, rfl⟩

/-! ## C13: the store of an Allocate -/

/-- C13: `x = malloc(n * 4)` lowers to the widening of `n` to 64 bits, the multiplication
by the byte width 4, the call of `malloc` with the product, and a store whose value operand
is the variable `x` and whose pointer operand is the result of the call: `CreateStore(
codegen(e->var), call)` passes the operands in the order (value, destination), so the store
writes `x` (1000 at run time) into the allocated memory instead of writing the allocator's
result into `x`. The emitted code is the same under either order of argument evaluation. -/
theorem allocate_store_operands_swapped :
    resultOps (codegenStmt false 4 allocX loopState) = some [allocOps] ∧
    resultOps (codegenStmt true 4 allocX loopState) = some [allocOps] ∧
    traceOf (codegenStmt false 4 allocX loopState) (loopArgs 5) 10
      = some (Stop.endOfCode, [Event.effect 2 [none], Event.effect 3 [some 1000, none]]) := by
  exact ⟨rfl, rfl, rfl⟩

/-! ## C14: the shape of the nest `caseToIfThenElse` returns -/

/-- C14: for clauses `(c1,s1), ..., (cn,sn)` (a list with a last element) `caseToIfThenElse`
returns, when `alwaysMatch` is false, `if c1 then s1 else (... if c(n-1) then s(n-1) else sn)`
with the last statement as the unconditional innermost else, and, when `alwaysMatch` is true,
`if c1 then s1 else (... if cn then sn else <empty comment>)`: the clauses in their order,
each once. -/
theorem caseToIfThenElse_shape (clauses : List (Expr × Stmt)) (c : Expr) (s : Stmt) :
    caseToIfThenElse (clauses ++ [(c, s)]) false = .ok (nestIf clauses s) ∧
    caseToIfThenElse (clauses ++ [(c, s)]) true
      = .ok (nestIf (clauses ++ [(c, s)]) (Stmt.Comment "")) := by
  induction clauses with
  | nil => exact ⟨rfl, rfl⟩
  | cons p ps ih =>
    constructor
    · simp [caseToIfThenElse, ih.1, nestIf, bind, Except.bind, pure, Except.pure]
    · simp [caseToIfThenElse, ih.2, nestIf, bind, Except.bind, pure, Except.pure]

/-! ## C15: negation -/

/-- Had the operand been lowered, the subtraction would still not be created: its left
operand is the literal `0`, a null `Value*`. -/
theorem visit_Neg_null_operand (cg : CodegenE) (e : Expr) (st s1 : CG) (v : Value)
    (h : cg e st = .ok (v, s1)) : visit_Neg cg e st = .error Abort.undefined := by
  simp only [visit_Neg, h, bind, Except.bind, CreateBinOp, true_or, if_true]
  split <;> rfl

/-- C15: lowering a Neg never returns, whatever the fuel: `visit(const Neg*)` calls
`codegen(e)` with `e` the Neg node itself instead of its operand, so the visit re-enters
itself without end and no subtraction is ever emitted. -/
theorem neg_never_returns (rtl : Bool) (fuel : Nat) (type : Datatype) (a : Expr) (st : CG) :
    codegen rtl fuel (Expr.Neg type a) st = .error Abort.outOfFuel := by
  induction fuel generalizing st with
  | zero => rfl
  | succ n ih =>
    simp only [codegen, visitExpr, visit_Neg, ih, bind, Except.bind]

/-! ## C16 and C17: the instruction of a comparison and of an arithmetic operator -/

/-- Both values of a pair of operands lowered by `codegen` are non-null. -/
theorem codegen2_values (rtl : Bool) (fuel : Nat) (a b : Expr) (st s1 : CG) (va vb : Value)
    (h : codegen2 rtl (codegen rtl fuel) a b st = .ok ((va, vb), s1)) :
    va ≠ Value.null ∧ vb ≠ Value.null := by
  simp only [codegen2] at h
  cases rtl with
  | false =>
    simp only [Bool.false_eq_true, if_false] at h
    obtain ⟨⟨x, sx⟩, hx, h⟩ := bind_eq_ok h
    obtain ⟨⟨y, sy⟩, hy, h⟩ := bind_eq_ok h
    simp only [pure, Except.pure, Except.ok.injEq, Prod.mk.injEq] at h
    obtain ⟨⟨rfl, rfl⟩, _⟩ := h
    exact ⟨(codegen_ok_value _ _ _ _ _ _ hx).1, (codegen_ok_value _ _ _ _ _ _ hy).1⟩
  | true =>
    simp only [if_true] at h
    obtain ⟨⟨y, sy⟩, hy, h⟩ := bind_eq_ok h
    obtain ⟨⟨x, sx⟩, hx, h⟩ := bind_eq_ok h
    simp only [pure, Except.pure, Except.ok.injEq, Prod.mk.injEq] at h
    obtain ⟨⟨rfl, rfl⟩, _⟩ := h
    exact ⟨(codegen_ok_value _ _ _ _ _ _ hx).1, (codegen_ok_value _ _ _ _ _ _ hy).1⟩

/-- C16: when the operands `a` and `b` lower to `va` and `vb`, visiting a comparison node
inserts one compare of `va` with `vb`, in that order: the ordered floating-point predicate of
the relation when the node's type is float, the unsigned integer predicate when it is an
unsigned integer, the signed one otherwise (Eq and Neq: the same predicate for both signs). -/
theorem comparison_instruction (rtl : Bool) (fuel : Nat) (r : Rel) (type : Datatype)
    (a b : Expr) (st s1 : CG) (va vb : Value)
    (h : codegen2 rtl (codegen rtl fuel) a b st = .ok ((va, vb), s1)) :
    visitExpr rtl (codegen rtl fuel) (r.node type a b) st
      = .ok (emit (LType.int 1)
          (if type.isFloat then Op.fcmp r.ordered va vb
           else if type.isUInt then Op.icmp r.unsigned va vb
           else Op.icmp r.signed va vb) s1).2 := by
  obtain ⟨ha, hb⟩ := codegen2_values rtl fuel a b st s1 va vb h
  cases r <;>
    simp only [Rel.node, visitExpr, visit_Eq, visit_Neq, visit_Gt, visit_Lt, visit_Gte, visit_Lte,
      visitCompare, h, bind, Except.bind, Rel.ordered, Rel.unsigned, Rel.signed] <;>
    by_cases hf : type.isFloat = true <;> by_cases hu : type.isUInt = true <;>
    simp [hf, hu, CreateFCmp, CreateICmp, ha, hb, pure, Except.pure]

theorem comparison_instruction_witness :
    codegen2 true (codegen true 1) (Expr.Var Int32 "a") (Expr.Var Int32 "b") demoState
      = .ok ((Value.arg 0 (LType.int 32), Value.arg 1 (LType.int 32)),
          { demoState with value := Value.arg 0 (LType.int 32) }) ∧
    visitExpr true (codegen true 1)
        (Expr.Gt (Datatype.UInt 32) (Expr.Var Int32 "a") (Expr.Var Int32 "b")) demoState
      = .ok (emit (LType.int 1)
          (Op.icmp IPred.UGT (Value.arg 0 (LType.int 32)) (Value.arg 1 (LType.int 32)))
          { demoState with value := Value.arg 0 (LType.int 32) }).2 :=
  ⟨rfl, comparison_instruction true 1 Rel.gt (Datatype.UInt 32) (Expr.Var Int32 "a")
    (Expr.Var Int32 "b") demoState _ _ _ rfl⟩

/-- C17: when the operands `a` and `b` lower to `va` and `vb`, lowering Add, Sub, Mul or
Div returns the result of one instruction on `va` and `vb`, in that order: the floating-point
instruction of the operator when the node's type is float, the integer one otherwise, which
for Div is the exact unsigned division for an unsigned type and the exact signed division
otherwise. -/
theorem arithmetic_instruction (rtl : Bool) (fuel : Nat) (k : Arith) (type : Datatype)
    (a b : Expr) (st s1 : CG) (va vb : Value)
    (h : codegen2 rtl (codegen rtl fuel) a b { st with value := Value.null }
      = .ok ((va, vb), s1)) :
    codegen rtl (fuel + 1) (k.node type a b) st
      = .ok ((emit va.getType
            (Op.bin (if type.isFloat then k.floatOp else k.intOp type.isUInt) va vb) s1).1,
          { (emit va.getType
            (Op.bin (if type.isFloat then k.floatOp else k.intOp type.isUInt) va vb) s1).2 with
            value := Value.inst s1.nextId va.getType }) := by
  obtain ⟨ha, hb⟩ := codegen2_values rtl fuel a b _ s1 va vb h
  cases k <;>
    simp only [Arith.node, codegen, visitExpr, visit_Add, visit_Sub, visit_Mul, visit_Div,
      Arith.floatOp, Arith.intOp] <;>
    by_cases hf : type.isFloat = true <;> by_cases hu : type.isUInt = true <;>
    simp [hf, hu, visitBinary, h, CreateBinOp, ha, hb, bind, Except.bind, pure, Except.pure, emit,
      Arith.intOp]

theorem arithmetic_instruction_witness :
    codegen false 2 (Expr.Div (Datatype.UInt 32) (Expr.Var Int32 "a") (Expr.Var Int32 "b"))
        demoState
      = .ok (Value.inst 0 (LType.int 32),
          { (emit (LType.int 32)
              (Op.bin BinKind.ExactUDiv (Value.arg 0 (LType.int 32)) (Value.arg 1 (LType.int 32)))
              { demoState with value := Value.arg 1 (LType.int 32) }).2 with
            value := Value.inst 0 (LType.int 32) }) :=
  arithmetic_instruction false 1 Arith.div (Datatype.UInt 32) (Expr.Var Int32 "a")
    (Expr.Var Int32 "b") demoState _ _ _ rfl

/-! ## C18: literals that cannot be lowered -/

/-- C18: lowering a Literal either returns a constant, which it does exactly for the
integer types of 8, 16, 32, 64 or 128 bits and the float types of 32 or 64 bits, or stops
with an internal error and no value: for a complex type, an integer of another width, a float
of another width. -/
theorem literal_supported_or_ierror (rtl : Bool) (fuel : Nat) (type : Datatype) (val : Int)
    (st : CG) :
    (literalSupported type = true ∧ ∃ v, v ≠ Value.null ∧
      codegen rtl (fuel + 1) (Expr.Literal type val) st = .ok (v, { st with value := v })) ∨
    (literalSupported type = false ∧
      codegen rtl (fuel + 1) (Expr.Literal type val) st = .error Abort.ierror) := by
  obtain ⟨kind, bits⟩ := type
  cases kind
  · -- unsigned
    by_cases h : bits ∈ [8, 16, 32, 64, 128]
    · left
      refine ⟨by simp [literalSupported, h], ?_⟩
      simp only [List.mem_cons, List.mem_singleton, List.not_mem_nil, or_false] at h
      rcases h with rfl | rfl | rfl | rfl | rfl <;>
        exact ⟨_, by simp, rfl⟩
    · right
      refine ⟨by simp [literalSupported, h], ?_⟩
      simp only [List.mem_cons, List.mem_singleton, List.not_mem_nil, or_false, not_or] at h
      simp [codegen, visitExpr, visit_Literal, Datatype.isFloat, Datatype.isUInt,
        Datatype.getNumBits, h, bind, Except.bind]
  · -- signed
    by_cases h : bits ∈ [8, 16, 32, 64, 128]
    · left
      refine ⟨by simp [literalSupported, h], ?_⟩
      simp only [List.mem_cons, List.mem_singleton, List.not_mem_nil, or_false] at h
      rcases h with rfl | rfl | rfl | rfl | rfl <;>
        exact ⟨_, by simp, rfl⟩
    · right
      refine ⟨by simp [literalSupported, h], ?_⟩
      simp only [List.mem_cons, List.mem_singleton, List.not_mem_nil, or_false, not_or] at h
      simp [codegen, visitExpr, visit_Literal, Datatype.isFloat, Datatype.isUInt, Datatype.isInt,
        Datatype.getNumBits, h, bind, Except.bind]
  · -- float
    by_cases h : bits ∈ [32, 64]
    · left
      refine ⟨by simp [literalSupported, h], ?_⟩
      simp only [List.mem_cons, List.mem_singleton, List.not_mem_nil, or_false] at h
      rcases h with rfl | rfl <;>
        exact ⟨_, by simp, rfl⟩
    · right
      refine ⟨by simp [literalSupported, h], ?_⟩
      simp only [List.mem_cons, List.mem_singleton, List.not_mem_nil, or_false, not_or] at h
      simp [codegen, visitExpr, visit_Literal, Datatype.isFloat, Datatype.isComplex, llvmTypeOf,
        Datatype.getNumBits, h, bind, Except.bind]
  · -- complex
    right
    refine ⟨rfl, ?_⟩
    simp [codegen, visitExpr, visit_Literal, Datatype.isFloat, Datatype.isUInt, Datatype.isInt,
      bind, Except.bind]

/-! ## C19: when lowering a For loop fails -/

/-- In the scope a loop over `i` opens on top of `loopState`, the body `x = i` lowers. -/
theorem assign_in_loop_scope (t : Datatype) (n : String) (s : CG)
    (h : Expr.Var Int32 "i" = Expr.Var t n) (hib : s.insertBlock = some 1)
    (hsym : s.symbolTable = [(n, Value.inst 2 (LType.int 32))] :: loopState.symbolTable) :
    ∃ s', codegenStmt false 2 (Stmt.VarAssign (Expr.Var Int32 "x") (Expr.Var Int32 "i") false) s
        = .ok s' ∧ s'.insertBlock ≠ none ∧ s'.symbolTable ≠ [] := by
  simp only [Expr.Var.injEq] at h
  obtain ⟨rfl, rfl⟩ := h
  obtain ⟨sym, val, blocks, ib, nid, fn, args⟩ := s
  simp only at hib hsym
  subst hib hsym
  exact ⟨_, rfl, by simp [emit], by simp [emit, loopState]⟩

/-- C19: take a For whose start and end lower to the non-null values `sv` and `ev` with an
insertion block set, whose increment lowers to a value in every state, and whose body lowers,
keeping an insertion block and a scope, in the state it is lowered in (insertion point in the
loop block, the loop variable bound to the phi in a new scope). Lowering the loop fails exactly
when the kind is not Serial, or `sv` and `ev` differ in type, or the loop variable is not a
Var. A kind other than Serial fails at entry, whatever the generator state and whatever
lowering the sub-terms would do. -/
theorem for_fails_iff (cgE : CodegenE) (cgS : CodegenS) (var start end_ increment : Expr)
    (kind : LoopKind) (body : Stmt) (st s1 s2 : CG) (sv ev : Value) (pre : Nat)
    (hs : cgE start st = .ok (sv, s1)) (he : cgE end_ s1 = .ok (ev, s2))
    (hsv : sv ≠ Value.null) (hev : ev ≠ Value.null)
    (hpre : s2.insertBlock = some pre)
    (hinc : ∀ s, ∃ v, v ≠ Value.null ∧ cgE increment s = .ok (v, { s with value := v }))
    (hbody : ∀ (t : Datatype) (n : String) (s : CG), var = Expr.Var t n →
      s.insertBlock = some s2.blocks.length →
      s.symbolTable = [(n, Value.inst (s2.nextId + 2) sv.getType)] :: s2.symbolTable →
      ∃ s', cgS body s = .ok s' ∧ s'.insertBlock ≠ none ∧ s'.symbolTable ≠ []) :
    ((∃ e, visit_For cgE cgS var start end_ increment kind body st = .error e) ↔
      (kind ≠ LoopKind.Serial ∨ sv.getType ≠ ev.getType ∨ ∀ t n, var ≠ Expr.Var t n)) ∧
    (kind ≠ LoopKind.Serial → ∀ (cgE1 : CodegenE) (cgS1 : CodegenS) (st1 : CG),
      visit_For cgE1 cgS1 var start end_ increment kind body st1 = .error Abort.tassert) := by
  refine ⟨?_, fun hk cgE1 cgS1 st1 => by simp [visit_For, hk]⟩
  by_cases hk : kind = LoopKind.Serial
  swap
  · simp [visit_For, hk]
  by_cases hty : sv.getType = ev.getType
  swap
  · simp [visit_For, hk, hs, he, hty, bind, Except.bind, createBlock]
  by_cases hvar : ∃ t n, var = Expr.Var t n
  · obtain ⟨t, n, rfl⟩ := hvar
    have hb := hbody t n
    have hrhs : ¬ (kind ≠ LoopKind.Serial ∨ sv.getType ≠ ev.getType ∨
        ∀ t1 n1, Expr.Var t n ≠ Expr.Var t1 n1) := by
      simp [hk, hty]
    refine iff_of_false ?_ hrhs
    rintro ⟨e, herr⟩
    simp only [visit_For, hk, ne_eq, not_true_eq_false, if_false, hs, he, hty, bind, Except.bind,
      createBlock, CreateICmp, hsv, hev, or_self, CreateCondBr, emit, SetInsertPoint, CreatePHI,
      hpre, pure, Except.pure, pushScope, pushSymbol, ScopedMap.scope, ScopedMap.insert,
      addIncoming, updateInstr, reduceCtorEq] at herr
    generalize hS : cgS body _ = r at herr
    have hex : ∃ s', r = .ok s' ∧ s'.insertBlock ≠ none ∧ s'.symbolTable ≠ [] := by
      rw [← hS]
      exact hb _ rfl rfl (by simp [hty])
    obtain ⟨s', rfl, hib, hsym⟩ := hex
    obtain ⟨v, hvn, hvi⟩ := hinc s'
    simp only [hvi, CreateBinOp, hvn, reduceCtorEq, or_self, if_false, emit] at herr
    obtain ⟨cur, hcur⟩ : ∃ cur, s'.insertBlock = some cur := Option.ne_none_iff_exists'.mp hib
    obtain ⟨sc, rest, hst⟩ : ∃ sc rest, s'.symbolTable = sc :: rest := by
      cases hq : s'.symbolTable with
      | nil => exact absurd hq hsym
      | cons a b => exact ⟨a, b, rfl⟩
    simp [hcur, popScope, ScopedMap.unscope, hst, bind, Except.bind, pure, Except.pure] at herr
  · have hno : ∀ t n, var ≠ Expr.Var t n := fun t n h => hvar ⟨t, n, h⟩
    cases var <;>
      first
      | exact absurd rfl (hno _ _)
      | simp [visit_For, hk, hs, he, hty, bind, Except.bind, createBlock, CreateICmp, hsv, hev,
          CreateCondBr, emit, SetInsertPoint, CreatePHI, hpre, pure, Except.pure]

/-- C19 at a concrete input: the serial loop `for (i = 0; i < n; i += 1) x = i` lowers in
`loopState`, and the same loop marked Parallel fails at entry. -/
theorem for_fails_iff_witness :
    (¬ ∃ e, visit_For (codegen false 2) (codegenStmt false 2) (Expr.Var Int32 "i")
      (Expr.Literal Int32 0) (Expr.Var Int32 "n") (Expr.Literal Int32 1) LoopKind.Serial
      (Stmt.VarAssign (Expr.Var Int32 "x") (Expr.Var Int32 "i") false) loopState = .error e) ∧
    visit_For (codegen false 2) (codegenStmt false 2) (Expr.Var Int32 "i")
      (Expr.Literal Int32 0) (Expr.Var Int32 "n") (Expr.Literal Int32 1) LoopKind.Parallel
      (Stmt.VarAssign (Expr.Var Int32 "x") (Expr.Var Int32 "i") false) CG.init
      = .error Abort.tassert := by
  have hinc : ∀ s : CG, ∃ v, v ≠ Value.null ∧
      codegen false 2 (Expr.Literal Int32 1) s = .ok (v, { s with value := v }) :=
    fun s => ⟨Value.constInt 32 1, by simp, rfl⟩
  have t1 := for_fails_iff (codegen false 2) (codegenStmt false 2) (Expr.Var Int32 "i")
    (Expr.Literal Int32 0) (Expr.Var Int32 "n") (Expr.Literal Int32 1) LoopKind.Serial
    (Stmt.VarAssign (Expr.Var Int32 "x") (Expr.Var Int32 "i") false) loopState
    { loopState with value := Value.constInt 32 0 }
    { loopState with value := Value.arg 0 (LType.int 32) }
    (Value.constInt 32 0) (Value.arg 0 (LType.int 32)) 0 rfl rfl (by simp) (by simp) rfl hinc
    assign_in_loop_scope
  have t2 := for_fails_iff (codegen false 2) (codegenStmt false 2) (Expr.Var Int32 "i")
    (Expr.Literal Int32 0) (Expr.Var Int32 "n") (Expr.Literal Int32 1) LoopKind.Parallel
    (Stmt.VarAssign (Expr.Var Int32 "x") (Expr.Var Int32 "i") false) loopState
    { loopState with value := Value.constInt 32 0 }
    { loopState with value := Value.arg 0 (LType.int 32) }
    (Value.constInt 32 0) (Value.arg 0 (LType.int 32)) 0 rfl rfl (by simp) (by simp) rfl hinc
    assign_in_loop_scope
  refine ⟨fun h => ?_, t2.2 (by decide) _ _ _⟩
  rcases t1.1.mp h with h1 | h1 | h1
  · exact h1 rfl
  · exact h1 rfl
  · exact h1 _ _ rfl

/-! ## C20: the labels of a Switch -/

/-- For an unsigned label of 8, 16 or 32 bits the constant built from the label read as
`int32_t` is the label's value. -/
theorem label_constant_narrow (w : Nat) (val : Int) (hw : w = 8 ∨ w = 16 ∨ w = 32)
    (h0 : 0 ≤ val) (h1 : val < ((2 ^ w : Nat) : Int)) :
    ConstantInt.get (LType.int w) (getValue HostTy.int32_t val)
      = .ok (Value.constInt w val.toNat) := by
  simp only [ConstantInt.get, getValue, HostTy.isSigned, HostTy.bits, if_true, wrapSigned,
    Except.ok.injEq, Value.constInt.injEq, true_and]
  rcases hw with rfl | rfl | rfl <;> norm_num at h1 ⊢ <;> split <;> omega

/-- C20: the unsigned 64-bit label `2 ^ 31`, read with `getValue<int32_t>` and widened to
the `uint64_t` parameter of `ConstantInt::get`, is registered as the constant
`2 ^ 64 - 2 ^ 31`: the lowering succeeds, the constant differs from the literal's value, and
with control value `2 ^ 31` the case does not run. A label that is a signed literal, or not a
literal, stops the lowering with an internal error. -/
theorem switch_label_by_int32 :
    resultOps (codegenStmt false 3
        (switchOn (Expr.Literal (Datatype.UInt 64) ((2 ^ 31 : Nat) : Int))) flowState)
      = some [[Op.switch (Value.arg 2 (LType.int 64)) 1
                [(Value.constInt 64 (2 ^ 64 - 2 ^ 31), 2)]],
              [],
              [Op.store (Value.arg 4 (LType.int 32)) (Value.arg 3 (LType.ptr (LType.int 32))),
               Op.br 1]] ∧
    traceOf (codegenStmt false 3
        (switchOn (Expr.Literal (Datatype.UInt 64) ((2 ^ 31 : Nat) : Int))) flowState)
        (flowArgs 0 0 (2 ^ 31)) 10
      = some (Stop.endOfCode, [Event.enter 1]) ∧
    codegenStmt false 3 (switchOn (Expr.Literal (Datatype.Int 64) 1)) flowState
      = .error Abort.ierror ∧
    codegenStmt false 3 (switchOn (Expr.Var (Datatype.UInt 64) "v")) flowState
      = .error Abort.ierror := by
  exact ⟨rfl, rfl, rfl, rfl⟩

/-! ## C23: the type mapper -/

/-- C23: `llvmTypeOf` maps the 32-bit float type to `float` and the 64-bit one to `double`,
fails for a float of any other width (internal error) and for every complex type (assertion),
and maps the unsigned and the signed integer type of `n` bits both to the `n`-bit integer
type. -/
theorem llvmTypeOf_mapping :
    llvmTypeOf (Datatype.Float 32) = .ok LType.float ∧
    llvmTypeOf (Datatype.Float 64) = .ok LType.double ∧
    (∀ n, n ≠ 32 → n ≠ 64 → llvmTypeOf (Datatype.Float n) = .error Abort.ierror) ∧
    (∀ n, llvmTypeOf ⟨Kind.complex, n⟩ = .error Abort.tassert) ∧
    (∀ n, llvmTypeOf (Datatype.UInt n) = .ok (LType.int n) ∧
      llvmTypeOf (Datatype.Int n) = .ok (LType.int n)) := by
  refine ⟨rfl, rfl, fun n h32 h64 => ?_, fun n => rfl, fun n => ⟨rfl, rfl⟩⟩
  simp [llvmTypeOf, Datatype.Float, Datatype.isComplex, Datatype.isFloat, Datatype.getNumBits,
    h32, h64]

/-! ## C24: `caseToIfThenElse` on the empty clause list -/

/-- C24: on the empty clause list `caseToIfThenElse` returns no statement: it forms
`clauses.begin()+1`, past the end of the empty vector, and reads `clauses[0]`; lowering a Case
without clauses stops there. -/
theorem caseToIfThenElse_empty_out_of_bounds (rtl : Bool) (fuel : Nat) (alwaysMatch : Bool)
    (st : CG) :
    caseToIfThenElse [] alwaysMatch = .error Abort.undefined ∧
    codegenStmt rtl (fuel + 1) (Stmt.Case [] alwaysMatch) st = .error Abort.undefined := by
  exact ⟨rfl, rfl⟩

/-! ## C25: termination of expression lowering -/

/-- The recursive call of `visit(const Neg*)` is made on the node visited: whatever stops
`codegen` on the node stops the visit of the node. -/
theorem visit_Neg_calls_itself (cg : CodegenE) (e : Expr) (st : CG) (x : Abort)
    (h : cg e st = .error x) : visit_Neg cg e st = .error x := by
  simp [visit_Neg, h, bind, Except.bind]

/-- C25: lowering `a + (-b)` with `a` and `b` bound does not terminate: whatever the fuel,
the walk is still inside the visit of the Neg node, whose recursive call is on the node
itself and not on its operand. The same tree with `0 - b` in place of `-b` is lowered with
fuel 3. -/
theorem codegen_with_neg_never_terminates (rtl : Bool) (fuel : Nat) :
    codegen rtl fuel (Expr.Add Int32 (Expr.Var Int32 "a") (Expr.Neg Int32 (Expr.Var Int32 "b")))
        demoState = .error Abort.outOfFuel ∧
    resultValue (codegen rtl 3
        (Expr.Add Int32 (Expr.Var Int32 "a")
          (Expr.Sub Int32 (Expr.Literal Int32 0) (Expr.Var Int32 "b"))) demoState)
      = some (Value.inst 1 (LType.int 32)) := by
  have hneg : ∀ (n : Nat) (s : CG),
      codegen rtl n (Expr.Neg Int32 (Expr.Var Int32 "b")) s = .error Abort.outOfFuel := by
    intro n
    induction n with
    | zero => intro s; rfl
    | succ n ih =>
      intro s
      simp only [codegen, visitExpr, visit_Neg, ih, bind, Except.bind]
  refine ⟨?_, by cases rtl <;> rfl⟩
  cases fuel with
  | zero => rfl
  | succ n =>
    cases n with
    | zero => cases rtl <;> rfl
    | succ m =>
      have hv : codegen rtl (m + 1) (Expr.Var Int32 "a") { demoState with value := Value.null }
          = .ok (Value.arg 0 (LType.int 32),
              { demoState with value := Value.arg 0 (LType.int 32) }) := rfl
      have hf : Int32.isFloat = false := rfl
      have hunf : codegen rtl (m + 2)
            (Expr.Add Int32 (Expr.Var Int32 "a") (Expr.Neg Int32 (Expr.Var Int32 "b"))) demoState
          = (do
            let st ← visit_Add rtl (codegen rtl (m + 1)) Int32 (Expr.Var Int32 "a")
              (Expr.Neg Int32 (Expr.Var Int32 "b")) { demoState with value := Value.null }
            if st.value = Value.null then .error Abort.ierror else pure (st.value, st)) := rfl
      rw [hunf]
      cases rtl <;>
        simp only [visit_Add, hf, visitBinary, codegen2, hv, hneg, bind, Except.bind,
          Bool.false_eq_true, if_false, if_true]

/-! ## C21: the verifier calls of `visit(const Function*)` -/

/-- Once `beginFunc`, the body and `endFunc` have run, `visit(const Function*)` ends with
`exit(0)`: nothing in between depends on what was produced. -/
theorem function_exits_zero_once_produced (rtl : Bool) (fuel : Nat) (name : String) (body : Stmt)
    (inputs outputs : List Expr) (st s : CG)
    (h : producedFunction rtl fuel name body inputs outputs st = .ok s) :
    acceptStmt rtl (fuel + 1) (Stmt.Function name body inputs outputs) st
      = .error (Abort.exit 0) := by
  simp only [producedFunction] at h
  obtain ⟨s1, h1, h⟩ := bind_eq_ok h
  obtain ⟨s2, h2, h⟩ := bind_eq_ok h
  simp [acceptStmt, visitStmt, visit_Function, h1, h2, h, bind, Except.bind]

/-- C21: the function `f(c) { while (c) {} }` is produced with a phi that names a block
which is not a predecessor and with a branch back into the entry block, so the structural
check reports it broken; the function `g() {}` passes the check. Compiling either one ends the
same way, with `exit(0)`: the results of `verifyFunction` and `verifyModule` are not looked
at. -/
theorem function_outcome_ignores_verifier :
    (producedFunction false 3 "f" (Stmt.While (Expr.Var (Datatype.UInt 1) "c") (Stmt.Block [])
        LoopKind.Serial) [Expr.Var Int32 "c"] [] CG.init).toOption.map
        (fun s => verifyFunction s.blocks) = some true ∧
    (producedFunction false 3 "g" (Stmt.Block []) [] [] CG.init).toOption.map
        (fun s => verifyFunction s.blocks) = some false ∧
    acceptStmt false 4 (Stmt.Function "f" (Stmt.While (Expr.Var (Datatype.UInt 1) "c")
        (Stmt.Block []) LoopKind.Serial) [Expr.Var Int32 "c"] []) CG.init
      = .error (Abort.exit 0) ∧
    acceptStmt false 4 (Stmt.Function "g" (Stmt.Block []) [] []) CG.init
      = .error (Abort.exit 0) := by
  refine ⟨rfl, rfl, rfl, rfl⟩

/-! ## C26: the control-flow invariant -/

/-- C26: before lowering, `whileState` satisfies the invariant. After lowering
`while (c) x = v` every block but the insertion block ends in one terminator and the
insertion block is open, but the loop block has the single predecessor 0 while its phi has
entries for the blocks 0 and 1, and the entry block has become a successor of the loop block:
the phi part of the invariant fails. The For, IfThenElse and Switch examples keep the
invariant. -/
theorem while_breaks_flow_invariant :
    wellFormedFlow whileState = true ∧
    terminatorsInPlace (lowered (codegenStmt false 3 whileLoop whileState)) = true ∧
    predecessors (lowered (codegenStmt false 3 whileLoop whileState)).blocks 1 = [0] ∧
    predecessors (lowered (codegenStmt false 3 whileLoop whileState)).blocks 0 = [1] ∧
    phisMatchPredecessors (lowered (codegenStmt false 3 whileLoop whileState)).blocks = false ∧
    wellFormedFlow (lowered (codegenStmt false 3 whileLoop whileState)) = false ∧
    wellFormedFlow countLoopLowered = true ∧
    wellFormedFlow (lowered (codegenStmt false 3 ifStore flowState)) = true ∧
    wellFormedFlow (lowered (codegenStmt false 3
      (Stmt.Switch [(Expr.Literal (Datatype.UInt 64) 0, storeTo "a"),
                    (Expr.Literal (Datatype.UInt 64) 1, storeTo "b")]
        (Expr.Var (Datatype.UInt 64) "v")) flowState)) = true := by
  refine ⟨rfl, rfl, rfl, rfl, rfl, rfl, rfl, rfl, rfl⟩

/-! ## C27 and C22: the scope stack across statements -/

theorem ext_refl (m : ScopedMap) : ScopedMap.ExtendedBy m m := by
  cases m with
  | nil => trivial
  | cons h t => exact ⟨rfl, [], rfl⟩

theorem ext_of_eq {m m1 : ScopedMap} (h : m1 = m) : ScopedMap.ExtendedBy m m1 := by
  subst h; exact ext_refl _

theorem ext_trans {a b c : ScopedMap} (h1 : ScopedMap.ExtendedBy a b)
    (h2 : ScopedMap.ExtendedBy b c) : ScopedMap.ExtendedBy a c := by
  cases a with
  | nil =>
    cases b with
    | nil => exact h2
    | cons _ _ => exact absurd h1 (by simp [ScopedMap.ExtendedBy])
  | cons ha ta =>
    cases b with
    | nil => exact absurd h1 (by simp [ScopedMap.ExtendedBy])
    | cons hb tb =>
      cases c with
      | nil => exact absurd h2 (by simp [ScopedMap.ExtendedBy])
      | cons hc tc =>
        obtain ⟨e1, x, rfl⟩ := h1
        obtain ⟨e2, y, rfl⟩ := h2
        exact ⟨e2.trans e1, y ++ x, by simp⟩

theorem ext_length {m m1 : ScopedMap} (h : ScopedMap.ExtendedBy m m1) : m1.length = m.length := by
  cases m with
  | nil =>
    cases m1 with
    | nil => rfl
    | cons _ _ => exact absurd h (by simp [ScopedMap.ExtendedBy])
  | cons a t =>
    cases m1 with
    | nil => exact absurd h (by simp [ScopedMap.ExtendedBy])
    | cons b t1 =>
      obtain ⟨e, _⟩ := h
      simp [e]

theorem ext_pushSymbol (name : String) (v : Value) (st st1 : CG)
    (h : pushSymbol name v st = .ok st1) :
    ScopedMap.ExtendedBy st.symbolTable st1.symbolTable := by
  simp only [pushSymbol] at h
  obtain ⟨m, hm, h⟩ := bind_eq_ok h
  simp only [pure, Except.pure, Except.ok.injEq] at h
  subst h
  cases hs : st.symbolTable with
  | nil => simp [ScopedMap.insert, hs] at hm
  | cons s rest =>
    simp only [ScopedMap.insert, hs, Except.ok.injEq] at hm
    subst hm
    exact ⟨rfl, [(name, v)], rfl⟩

/-- Leaving a scope that was pushed on `m` gives back `m`, whatever was bound in it. -/
theorem popScope_of_ext (m : ScopedMap) (st st1 : CG)
    (h : ScopedMap.ExtendedBy (ScopedMap.scope m) st.symbolTable)
    (hp : popScope st = .ok st1) : st1.symbolTable = m := by
  simp only [popScope] at hp
  obtain ⟨m1, hm, hp⟩ := bind_eq_ok hp
  simp only [pure, Except.pure, Except.ok.injEq] at hp
  subst hp
  cases hs : st.symbolTable with
  | nil => simp [ScopedMap.unscope, hs] at hm
  | cons s rest =>
    rw [hs] at h
    simp only [ScopedMap.unscope, hs, Except.ok.injEq] at hm
    subst hm
    exact h.1

theorem emit_symbolTable (ty : LType) (op : Op) (st : CG) :
    (emit ty op st).2.symbolTable = st.symbolTable := rfl

theorem CreateBinOp_symbolTable (k : BinKind) (a b : Value) (st : CG) (r : Value × CG)
    (h : CreateBinOp k a b st = .ok r) : r.2.symbolTable = st.symbolTable := by
  simp only [CreateBinOp] at h
  split at h
  · simp at h
  · simp only [Except.ok.injEq] at h; subst h; rfl

theorem CreateICmp_symbolTable (p : IPred) (a b : Value) (st : CG) (r : Value × CG)
    (h : CreateICmp p a b st = .ok r) : r.2.symbolTable = st.symbolTable := by
  simp only [CreateICmp] at h
  split at h
  · simp at h
  · simp only [Except.ok.injEq] at h; subst h; rfl

theorem CreateFCmp_symbolTable (p : FPred) (a b : Value) (st : CG) (r : Value × CG)
    (h : CreateFCmp p a b st = .ok r) : r.2.symbolTable = st.symbolTable := by
  simp only [CreateFCmp] at h
  split at h
  · simp at h
  · simp only [Except.ok.injEq] at h; subst h; rfl

theorem CreateFPCast_symbolTable (v : Value) (ty : LType) (st : CG) (r : Value × CG)
    (h : CreateFPCast v ty st = .ok r) : r.2.symbolTable = st.symbolTable := by
  simp only [CreateFPCast] at h
  split at h
  · simp at h
  · simp only [Except.ok.injEq] at h; subst h; rfl

theorem CreateIntCast_symbolTable (v : Value) (ty : LType) (sg : Bool) (st : CG) (r : Value × CG)
    (h : CreateIntCast v ty sg st = .ok r) : r.2.symbolTable = st.symbolTable := by
  simp only [CreateIntCast] at h
  split at h
  · simp at h
  · simp only [Except.ok.injEq] at h; subst h; rfl

theorem CreateGEP_symbolTable (base : Value) (idx : List Value) (st : CG) (r : Value × CG)
    (h : CreateGEP base idx st = .ok r) : r.2.symbolTable = st.symbolTable := by
  simp only [CreateGEP] at h
  split at h
  · simp at h
  · split at h
    · split at h
      · simp only [Except.ok.injEq] at h; subst h; rfl
      · simp at h
    · simp at h

theorem CreateLoad_symbolTable (p : Value) (st : CG) (r : Value × CG)
    (h : CreateLoad p st = .ok r) : r.2.symbolTable = st.symbolTable := by
  simp only [CreateLoad] at h
  split at h
  · simp only [Except.ok.injEq] at h; subst h; rfl
  · simp at h

theorem CreateStore_symbolTable (v p : Value) (st : CG) (r : Value × CG)
    (h : CreateStore v p st = .ok r) : r.2.symbolTable = st.symbolTable := by
  simp only [CreateStore] at h
  split at h
  · simp at h
  · simp only [Except.ok.injEq] at h; subst h; rfl

theorem CreateAlloca_symbolTable (ty : LType) (st : CG) (r : Value × CG)
    (h : CreateAlloca ty st = .ok r) : r.2.symbolTable = st.symbolTable := by
  simp only [CreateAlloca, Except.ok.injEq] at h
  subst h; rfl

theorem CreateCall_symbolTable (callee : String) (ty : LType) (args : List Value) (st : CG)
    (r : Value × CG) (h : CreateCall callee ty args st = .ok r) :
    r.2.symbolTable = st.symbolTable := by
  simp only [CreateCall] at h
  split at h
  · simp at h
  · simp only [Except.ok.injEq] at h; subst h; rfl

theorem CreateCondBr_symbolTable (c : Value) (t f : Nat) (st : CG) (r : Value × CG)
    (h : CreateCondBr c t f st = .ok r) : r.2.symbolTable = st.symbolTable := by
  simp only [CreateCondBr] at h
  split at h
  · simp at h
  · simp only [Except.ok.injEq] at h; subst h; rfl

theorem CreateSwitch_symbolTable (c : Value) (d : Nat) (st : CG) (r : InstrRef × CG)
    (h : CreateSwitch c d st = .ok r) : r.2.symbolTable = st.symbolTable := by
  simp only [CreateSwitch] at h
  split at h
  · simp at h
  · simp only [Except.ok.injEq] at h; subst h; rfl

theorem updateInstr_symbolTable (r : InstrRef) (f : Op → Op) (st : CG) :
    (updateInstr r f st).symbolTable = st.symbolTable := by
  simp only [updateInstr]
  split <;> rfl

theorem codegen2_ext (rtl : Bool) (cg : CodegenE) (hcg : KeepsScopesE cg) (a b : Expr)
    (st : CG) (r : (Value × Value) × CG) (h : codegen2 rtl cg a b st = .ok r) :
    ScopedMap.ExtendedBy st.symbolTable r.2.symbolTable := by
  simp only [codegen2] at h
  cases rtl with
  | false =>
    simp only [Bool.false_eq_true, if_false] at h
    obtain ⟨⟨x, sx⟩, hx, h⟩ := bind_eq_ok h
    obtain ⟨⟨y, sy⟩, hy, h⟩ := bind_eq_ok h
    simp only [pure, Except.pure, Except.ok.injEq] at h
    subst h
    exact ext_trans (hcg _ _ _ _ hx) (hcg _ _ _ _ hy)
  | true =>
    simp only [if_true] at h
    obtain ⟨⟨y, sy⟩, hy, h⟩ := bind_eq_ok h
    obtain ⟨⟨x, sx⟩, hx, h⟩ := bind_eq_ok h
    simp only [pure, Except.pure, Except.ok.injEq] at h
    subst h
    exact ext_trans (hcg _ _ _ _ hy) (hcg _ _ _ _ hx)

theorem visit_Literal_symbolTable (type : Datatype) (val : Int) (st st1 : CG)
    (h : visit_Literal type val st = .ok st1) : st1.symbolTable = st.symbolTable := by
  simp only [visit_Literal] at h
  split at h
  · split at h
    · obtain ⟨ty, _, h⟩ := bind_eq_ok h
      simp only [pure, Except.pure, Except.ok.injEq] at h; subst h; rfl
    · obtain ⟨ty, _, h⟩ := bind_eq_ok h
      simp only [pure, Except.pure, Except.ok.injEq] at h; subst h; rfl
  · split at h
    · split at h
      · obtain ⟨ty, _, h⟩ := bind_eq_ok h
        obtain ⟨c, _, h⟩ := bind_eq_ok h
        simp only [pure, Except.pure, Except.ok.injEq] at h; subst h; rfl
      · simp at h
    · split at h
      · split at h
        · obtain ⟨ty, _, h⟩ := bind_eq_ok h
          obtain ⟨c, _, h⟩ := bind_eq_ok h
          simp only [pure, Except.pure, Except.ok.injEq] at h; subst h; rfl
        · simp at h
      · simp at h

theorem visit_Var_symbolTable (name : String) (st st1 : CG)
    (h : visit_Var name st = .ok st1) : st1.symbolTable = st.symbolTable := by
  simp only [visit_Var] at h
  obtain ⟨v, _, h⟩ := bind_eq_ok h
  simp only [pure, Except.pure, Except.ok.injEq] at h; subst h; rfl

theorem visitBinary_ext (rtl : Bool) (cg : CodegenE) (hcg : KeepsScopesE cg) (k : BinKind)
    (a b : Expr) (st st1 : CG) (h : visitBinary rtl cg k a b st = .ok st1) :
    ScopedMap.ExtendedBy st.symbolTable st1.symbolTable := by
  simp only [visitBinary] at h
  obtain ⟨⟨⟨va, vb⟩, s1⟩, h1, h⟩ := bind_eq_ok h
  obtain ⟨⟨r, s2⟩, h2, h⟩ := bind_eq_ok h
  simp only [pure, Except.pure, Except.ok.injEq] at h
  subst h
  have e1 := codegen2_ext rtl cg hcg a b st _ h1
  have e2 := CreateBinOp_symbolTable _ _ _ _ _ h2
  exact ext_trans e1 (ext_of_eq e2)

theorem visitCompare_ext (rtl : Bool) (cg : CodegenE) (hcg : KeepsScopesE cg) (type : Datatype)
    (f : FPred) (u s : IPred) (a b : Expr) (st st1 : CG)
    (h : visitCompare rtl cg type f u s a b st = .ok st1) :
    ScopedMap.ExtendedBy st.symbolTable st1.symbolTable := by
  simp only [visitCompare] at h
  obtain ⟨⟨⟨va, vb⟩, s1⟩, h1, h⟩ := bind_eq_ok h
  have e1 := codegen2_ext rtl cg hcg a b st _ h1
  split at h
  all_goals try split at h
  all_goals
    obtain ⟨⟨r, s2⟩, h2, h⟩ := bind_eq_ok h
    simp only [pure, Except.pure, Except.ok.injEq] at h
    subst h
    first
    | exact ext_trans e1 (ext_of_eq (CreateFCmp_symbolTable _ _ _ _ _ h2))
    | exact ext_trans e1 (ext_of_eq (CreateICmp_symbolTable _ _ _ _ _ h2))

theorem visit_Eq_ext (rtl : Bool) (cg : CodegenE) (hcg : KeepsScopesE cg) (type : Datatype)
    (a b : Expr) (st st1 : CG) (h : visit_Eq rtl cg type a b st = .ok st1) :
    ScopedMap.ExtendedBy st.symbolTable st1.symbolTable := by
  simp only [visit_Eq] at h
  obtain ⟨⟨⟨va, vb⟩, s1⟩, h1, h⟩ := bind_eq_ok h
  have e1 := codegen2_ext rtl cg hcg a b st _ h1
  split at h
  all_goals
    obtain ⟨⟨r, s2⟩, h2, h⟩ := bind_eq_ok h
    simp only [pure, Except.pure, Except.ok.injEq] at h
    subst h
    first
    | exact ext_trans e1 (ext_of_eq (CreateFCmp_symbolTable _ _ _ _ _ h2))
    | exact ext_trans e1 (ext_of_eq (CreateICmp_symbolTable _ _ _ _ _ h2))

theorem visit_Neq_ext (rtl : Bool) (cg : CodegenE) (hcg : KeepsScopesE cg) (type : Datatype)
    (a b : Expr) (st st1 : CG) (h : visit_Neq rtl cg type a b st = .ok st1) :
    ScopedMap.ExtendedBy st.symbolTable st1.symbolTable := by
  simp only [visit_Neq] at h
  obtain ⟨⟨⟨va, vb⟩, s1⟩, h1, h⟩ := bind_eq_ok h
  have e1 := codegen2_ext rtl cg hcg a b st _ h1
  split at h
  all_goals
    obtain ⟨⟨r, s2⟩, h2, h⟩ := bind_eq_ok h
    simp only [pure, Except.pure, Except.ok.injEq] at h
    subst h
    first
    | exact ext_trans e1 (ext_of_eq (CreateFCmp_symbolTable _ _ _ _ _ h2))
    | exact ext_trans e1 (ext_of_eq (CreateICmp_symbolTable _ _ _ _ _ h2))

theorem visit_Neg_ext (cg : CodegenE) (hcg : KeepsScopesE cg) (e : Expr) (st st1 : CG)
    (h : visit_Neg cg e st = .ok st1) :
    ScopedMap.ExtendedBy st.symbolTable st1.symbolTable := by
  simp only [visit_Neg] at h
  obtain ⟨⟨v, s1⟩, h1, h⟩ := bind_eq_ok h
  split at h
  all_goals
    obtain ⟨⟨r, s2⟩, h2, h⟩ := bind_eq_ok h
    simp only [pure, Except.pure, Except.ok.injEq] at h
    subst h
    exact ext_trans (hcg _ _ _ _ h1) (ext_of_eq (CreateBinOp_symbolTable _ _ _ _ _ h2))

theorem visit_Sqrt_ext (cg : CodegenE) (hcg : KeepsScopesE cg) (a : Expr) (st st1 : CG)
    (h : visit_Sqrt cg a st = .ok st1) :
    ScopedMap.ExtendedBy st.symbolTable st1.symbolTable := by
  simp only [visit_Sqrt] at h
  obtain ⟨ty, _, h⟩ := bind_eq_ok h
  obtain ⟨⟨v, s1⟩, h1, h⟩ := bind_eq_ok h
  obtain ⟨⟨r, s2⟩, h2, h⟩ := bind_eq_ok h
  simp only [pure, Except.pure, Except.ok.injEq] at h
  subst h
  exact ext_trans (hcg _ _ _ _ h1) (ext_of_eq (CreateCall_symbolTable _ _ _ _ _ h2))

theorem visit_Cast_ext (rtl : Bool) (cg : CodegenE) (hcg : KeepsScopesE cg) (type : Datatype)
    (a : Expr) (st st1 : CG) (h : visit_Cast rtl cg type a st = .ok st1) :
    ScopedMap.ExtendedBy st.symbolTable st1.symbolTable := by
  simp only [visit_Cast] at h
  obtain ⟨⟨v, ty, s1⟩, h1, h⟩ := bind_eq_ok h
  have e1 : ScopedMap.ExtendedBy st.symbolTable s1.symbolTable := by
    cases rtl with
    | false =>
      simp only [Bool.false_eq_true, if_false] at h1
      obtain ⟨⟨x, sx⟩, hx, h1⟩ := bind_eq_ok h1
      obtain ⟨t, _, h1⟩ := bind_eq_ok h1
      simp only [pure, Except.pure, Except.ok.injEq, Prod.mk.injEq] at h1
      obtain ⟨_, _, rfl⟩ := h1
      exact hcg _ _ _ _ hx
    | true =>
      simp only [if_true] at h1
      obtain ⟨t, _, h1⟩ := bind_eq_ok h1
      obtain ⟨⟨x, sx⟩, hx, h1⟩ := bind_eq_ok h1
      simp only [pure, Except.pure, Except.ok.injEq, Prod.mk.injEq] at h1
      obtain ⟨_, _, rfl⟩ := h1
      exact hcg _ _ _ _ hx
  split at h
  all_goals
    obtain ⟨⟨r, s2⟩, h2, h⟩ := bind_eq_ok h
    simp only [pure, Except.pure, Except.ok.injEq] at h
    subst h
    first
    | exact ext_trans e1 (ext_of_eq (CreateFPCast_symbolTable _ _ _ _ h2))
    | exact ext_trans e1 (ext_of_eq (CreateIntCast_symbolTable _ _ _ _ _ h2))

theorem visit_Load_ext (cg : CodegenE) (hcg : KeepsScopesE cg) (arr loc : Expr) (st st1 : CG)
    (h : visit_Load cg arr loc st = .ok st1) :
    ScopedMap.ExtendedBy st.symbolTable st1.symbolTable := by
  simp only [visit_Load] at h
  obtain ⟨⟨l, s1⟩, h1, h⟩ := bind_eq_ok h
  obtain ⟨⟨ar, s2⟩, h2, h⟩ := bind_eq_ok h
  obtain ⟨⟨g, s3⟩, h3, h⟩ := bind_eq_ok h
  obtain ⟨⟨r, s4⟩, h4, h⟩ := bind_eq_ok h
  simp only [pure, Except.pure, Except.ok.injEq] at h
  subst h
  exact ext_trans (hcg _ _ _ _ h1) (ext_trans (hcg _ _ _ _ h2)
    (ext_of_eq ((CreateLoad_symbolTable _ _ _ h4).trans (CreateGEP_symbolTable _ _ _ _ h3))))
theorem visit_Min_loop_ext (rtl : Bool) (cg : CodegenE) (hcg : KeepsScopesE cg)
    (operands : List Expr) (n i : Nat) (st st1 : CG)
    (h : visit_Min.loop rtl cg operands n i st = .ok st1) :
    ScopedMap.ExtendedBy st.symbolTable st1.symbolTable := by
  induction n generalizing i st with
  | zero =>
    simp only [visit_Min.loop, Except.ok.injEq] at h
    subst h
    exact ext_refl _
  | succ n ih =>
    simp only [visit_Min.loop] at h
    split at h
    · simp at h
    · split at h
      all_goals
        obtain ⟨⟨v, s1⟩, h1, h⟩ := bind_eq_ok h
        obtain ⟨⟨r, s2⟩, h2, h⟩ := bind_eq_ok h
        have e3 := ih _ _ h
        exact ext_trans (hcg _ _ _ _ h1)
          (ext_trans (ext_of_eq (CreateBinOp_symbolTable _ _ _ _ _ h2)) e3)

theorem visit_Min_ext (rtl : Bool) (cg : CodegenE) (hcg : KeepsScopesE cg)
    (operands : List Expr) (st st1 : CG) (h : visit_Min rtl cg operands st = .ok st1) :
    ScopedMap.ExtendedBy st.symbolTable st1.symbolTable := by
  simp only [visit_Min] at h
  split at h
  · obtain ⟨⟨⟨a, b⟩, s1⟩, h1, h⟩ := bind_eq_ok h
    obtain ⟨⟨r, s2⟩, h2, h⟩ := bind_eq_ok h
    have e3 := visit_Min_loop_ext rtl cg hcg _ _ _ _ _ h
    exact ext_trans (codegen2_ext rtl cg hcg _ _ _ _ h1)
      (ext_trans (ext_of_eq (CreateBinOp_symbolTable _ _ _ _ _ h2)) e3)
  · simp at h

theorem visit_GetProperty_ext (rtl : Bool) (cg : CodegenE) (hcg : KeepsScopesE cg) (e tensor : Expr)
    (property : TensorProperty) (mode : Int) (st st1 : CG)
    (h : visit_GetProperty rtl cg e tensor property mode st = .ok st1) :
    ScopedMap.ExtendedBy st.symbolTable st1.symbolTable := by
  simp only [visit_GetProperty] at h
  split at h
  · obtain ⟨v, _, h⟩ := bind_eq_ok h
    simp only [pure, Except.pure, Except.ok.injEq] at h
    subst h
    exact ext_refl _
  · obtain ⟨⟨t, i0, i1, s1⟩, h1, h⟩ := bind_eq_ok h
    obtain ⟨⟨p, s2⟩, h2, h⟩ := bind_eq_ok h
    obtain ⟨⟨v, s3⟩, h3, h⟩ := bind_eq_ok h
    obtain ⟨⟨w, s4⟩, h4, h⟩ := bind_eq_ok h
    have e1 : ScopedMap.ExtendedBy st.symbolTable s1.symbolTable := by
      cases rtl with
      | false =>
        simp only [Bool.false_eq_true, if_false] at h1
        obtain ⟨⟨x, sx⟩, hx, h1⟩ := bind_eq_ok h1
        obtain ⟨⟨y, sy⟩, hy, h1⟩ := bind_eq_ok h1
        obtain ⟨⟨z, sz⟩, hz, h1⟩ := bind_eq_ok h1
        simp only [pure, Except.pure, Except.ok.injEq, Prod.mk.injEq] at h1
        obtain ⟨_, _, _, rfl⟩ := h1
        exact ext_trans (hcg _ _ _ _ hx) (ext_trans (hcg _ _ _ _ hy) (hcg _ _ _ _ hz))
      | true =>
        simp only [if_true] at h1
        obtain ⟨⟨x, sx⟩, hx, h1⟩ := bind_eq_ok h1
        obtain ⟨⟨y, sy⟩, hy, h1⟩ := bind_eq_ok h1
        obtain ⟨⟨z, sz⟩, hz, h1⟩ := bind_eq_ok h1
        simp only [pure, Except.pure, Except.ok.injEq, Prod.mk.injEq] at h1
        obtain ⟨_, _, _, rfl⟩ := h1
        exact ext_trans (hcg _ _ _ _ hx) (ext_trans (hcg _ _ _ _ hy) (hcg _ _ _ _ hz))
    have e2 : s3.symbolTable = s1.symbolTable :=
      (CreateLoad_symbolTable _ _ _ h3).trans (CreateGEP_symbolTable _ _ _ _ h2)
    have e4 : ScopedMap.ExtendedBy s3.symbolTable s4.symbolTable := by
      split at h4
      · obtain ⟨⟨m, sm⟩, hm, h4⟩ := bind_eq_ok h4
        obtain ⟨⟨g, sg⟩, hg, h4⟩ := bind_eq_ok h4
        have := hcg _ _ _ _ hm
        exact ext_trans this (ext_of_eq
          ((CreateLoad_symbolTable _ _ _ h4).trans (CreateGEP_symbolTable _ _ _ _ hg)))
      · simp only [pure, Except.pure, Except.ok.injEq, Prod.mk.injEq] at h4
        obtain ⟨_, rfl⟩ := h4
        exact ext_refl _
    have e5 := ext_pushSymbol _ _ _ _ h
    exact ext_trans e1 (ext_trans (ext_of_eq e2) (ext_trans e4 e5))

theorem visitExpr_ext (rtl : Bool) (cg : CodegenE) (hcg : KeepsScopesE cg) (e : Expr)
    (st st1 : CG) (h : visitExpr rtl cg e st = .ok st1) :
    ScopedMap.ExtendedBy st.symbolTable st1.symbolTable := by
  cases e with
  | Literal type val => exact ext_of_eq (visit_Literal_symbolTable _ _ _ _ h)
  | Var type name => exact ext_of_eq (visit_Var_symbolTable _ _ _ h)
  | Neg type a => exact visit_Neg_ext cg hcg _ _ _ h
  | Sqrt type a => exact visit_Sqrt_ext cg hcg _ _ _ h
  | Add type a b =>
    simp only [visitExpr, visit_Add] at h
    split at h <;> exact visitBinary_ext rtl cg hcg _ _ _ _ _ h
  | Sub type a b =>
    simp only [visitExpr, visit_Sub] at h
    split at h <;> exact visitBinary_ext rtl cg hcg _ _ _ _ _ h
  | Mul type a b =>
    simp only [visitExpr, visit_Mul] at h
    split at h <;> exact visitBinary_ext rtl cg hcg _ _ _ _ _ h
  | Div type a b =>
    simp only [visitExpr, visit_Div] at h
    split at h
    · exact visitBinary_ext rtl cg hcg _ _ _ _ _ h
    · split at h <;> exact visitBinary_ext rtl cg hcg _ _ _ _ _ h
  | Rem type a b =>
    simp only [visitExpr, Except.ok.injEq] at h
    subst h
    exact ext_refl _
  | Min type operands => exact visit_Min_ext rtl cg hcg _ _ _ h
  | Max type a b => exact visitBinary_ext rtl cg hcg _ _ _ _ _ h
  | BitAnd type a b => exact visitBinary_ext rtl cg hcg _ _ _ _ _ h
  | BitOr type a b => exact visitBinary_ext rtl cg hcg _ _ _ _ _ h
  | Eq type a b => exact visit_Eq_ext rtl cg hcg _ _ _ _ _ h
  | Neq type a b => exact visit_Neq_ext rtl cg hcg _ _ _ _ _ h
  | Gt type a b => exact visitCompare_ext rtl cg hcg _ _ _ _ _ _ _ _ h
  | Lt type a b => exact visitCompare_ext rtl cg hcg _ _ _ _ _ _ _ _ h
  | Gte type a b => exact visitCompare_ext rtl cg hcg _ _ _ _ _ _ _ _ h
  | Lte type a b => exact visitCompare_ext rtl cg hcg _ _ _ _ _ _ _ _ h
  | And type a b => exact visitBinary_ext rtl cg hcg _ _ _ _ _ h
  | Or type a b => exact visitBinary_ext rtl cg hcg _ _ _ _ _ h
  | Cast type a => exact visit_Cast_ext rtl cg hcg _ _ _ _ h
  | Load type arr loc => exact visit_Load_ext cg hcg _ _ _ _ h
  | GetProperty type tensor property mode =>
    exact visit_GetProperty_ext rtl cg hcg _ _ _ _ _ _ h

theorem codegen_keeps_scopes (rtl : Bool) (fuel : Nat) : KeepsScopesE (codegen rtl fuel) := by
  induction fuel with
  | zero => intro e st v st1 h; simp [codegen] at h
  | succ n ih =>
    intro e st v st1 h
    simp only [codegen] at h
    obtain ⟨s, hs, h⟩ := bind_eq_ok h
    split at h
    · simp at h
    · simp only [pure, Except.pure, Except.ok.injEq, Prod.mk.injEq] at h
      obtain ⟨_, rfl⟩ := h
      exact visitExpr_ext rtl _ ih e { st with value := Value.null } _ hs

theorem visit_IfThenElse_ext (cgE : CodegenE) (cgS : CodegenS) (hE : KeepsScopesE cgE)
    (hS : KeepsScopesS cgS) (cond : Expr) (t e : Stmt) (st st1 : CG)
    (h : visit_IfThenElse cgE cgS cond t e st = .ok st1) :
    ScopedMap.ExtendedBy st.symbolTable st1.symbolTable := by
  simp only [visit_IfThenElse] at h
  obtain ⟨⟨c, s1⟩, h1, h⟩ := bind_eq_ok h
  obtain ⟨⟨b, s2⟩, h2, h⟩ := bind_eq_ok h
  obtain ⟨s3, h3, h⟩ := bind_eq_ok h
  obtain ⟨s4, h4, h⟩ := bind_eq_ok h
  simp only [pure, Except.pure, Except.ok.injEq] at h
  subst h
  have e1 := hE _ _ _ _ h1
  have e2 := CreateCondBr_symbolTable _ _ _ _ _ h2
  have e3 := hS _ _ _ h3
  have e4 := hS _ _ _ h4
  exact ext_trans e1 (ext_trans (ext_of_eq e2) (ext_trans e3 e4))

/-- Lowering a Scope leaves the scope stack exactly as it found it. -/
theorem visit_Scope_restores (cgS : CodegenS) (hS : KeepsScopesS cgS) (s : Stmt) (st st1 : CG)
    (h : visit_Scope cgS s st = .ok st1) : st1.symbolTable = st.symbolTable := by
  simp only [visit_Scope] at h
  obtain ⟨s1, h1, h⟩ := bind_eq_ok h
  exact popScope_of_ext st.symbolTable s1 st1 (hS _ _ _ h1) h

theorem visit_Switch_loop_ext (cgS : CodegenS) (hS : KeepsScopesS cgS)
    (cases : List (Expr × Stmt)) (after : Nat) (sw : InstrRef) (n i : Nat) (st st1 : CG)
    (h : visit_Switch.loop cgS cases after sw n i st = .ok st1) :
    ScopedMap.ExtendedBy st.symbolTable st1.symbolTable := by
  induction n generalizing i st with
  | zero =>
    simp only [visit_Switch.loop, Except.ok.injEq] at h
    subst h
    exact ext_refl _
  | succ n ih =>
    simp only [visit_Switch.loop] at h
    split at h
    · simp at h
    · obtain ⟨s1, h1, h⟩ := bind_eq_ok h
      have e1 := hS _ _ _ h1
      split at h
      · split at h
        · obtain ⟨ty, _, h⟩ := bind_eq_ok h
          obtain ⟨c, _, h⟩ := bind_eq_ok h
          have e2 := ih _ _ h
          simp only [addCase, updateInstr_symbolTable] at e2
          exact ext_trans e1 e2
        · simp at h
      · simp at h

theorem visit_Switch_ext (cgE : CodegenE) (cgS : CodegenS) (hE : KeepsScopesE cgE)
    (hS : KeepsScopesS cgS) (cases : List (Expr × Stmt)) (ctl : Expr) (st st1 : CG)
    (h : visit_Switch cgE cgS cases ctl st = .ok st1) :
    ScopedMap.ExtendedBy st.symbolTable st1.symbolTable := by
  simp only [visit_Switch] at h
  obtain ⟨⟨c, s1⟩, h1, h⟩ := bind_eq_ok h
  obtain ⟨⟨sw, s2⟩, h2, h⟩ := bind_eq_ok h
  obtain ⟨s3, h3, h⟩ := bind_eq_ok h
  simp only [pure, Except.pure, Except.ok.injEq] at h
  subst h
  have e1 := hE _ _ _ _ h1
  have e2 := CreateSwitch_symbolTable _ _ _ _ h2
  have e3 := visit_Switch_loop_ext cgS hS _ _ _ _ _ _ _ h3
  exact ext_trans e1 (ext_trans (ext_of_eq e2) e3)

theorem visit_Function_never_returns (accept : CodegenS) (name : String) (body : Stmt)
    (inputs outputs : List Expr) (st st1 : CG) :
    visit_Function accept name body inputs outputs st ≠ .ok st1 := by
  intro h
  simp only [visit_Function] at h
  obtain ⟨s1, _, h⟩ := bind_eq_ok h
  obtain ⟨s2, _, h⟩ := bind_eq_ok h
  obtain ⟨s3, _, h⟩ := bind_eq_ok h
  simp at h

theorem visit_Allocate_ext (cgE : CodegenE) (hE : KeepsScopesE cgE) (var n : Expr) (st st1 : CG)
    (h : visit_Allocate cgE var n st = .ok st1) :
    ScopedMap.ExtendedBy st.symbolTable st1.symbolTable := by
  simp only [visit_Allocate] at h
  obtain ⟨⟨sz, s1⟩, h1, h⟩ := bind_eq_ok h
  obtain ⟨⟨c, s2⟩, h2, h⟩ := bind_eq_ok h
  obtain ⟨⟨v, s3⟩, h3, h⟩ := bind_eq_ok h
  obtain ⟨⟨r, s4⟩, h4, h⟩ := bind_eq_ok h
  simp only [pure, Except.pure, Except.ok.injEq] at h
  subst h
  exact ext_trans (hE _ _ _ _ h1) (ext_trans (ext_of_eq (CreateCall_symbolTable _ _ _ _ _ h2))
    (ext_trans (hE _ _ _ _ h3) (ext_of_eq (CreateStore_symbolTable _ _ _ _ h4))))

theorem visit_Block_ext (cgS : CodegenS) (hS : KeepsScopesS cgS) (contents : List Stmt)
    (st st1 : CG) (h : visit_Block cgS contents st = .ok st1) :
    ScopedMap.ExtendedBy st.symbolTable st1.symbolTable := by
  induction contents generalizing st with
  | nil =>
    simp only [visit_Block, Except.ok.injEq] at h
    subst h
    exact ext_refl _
  | cons s rest ih =>
    simp only [visit_Block] at h
    obtain ⟨s1, h1, h⟩ := bind_eq_ok h
    exact ext_trans (hS _ _ _ h1) (ih _ h)

theorem visit_While_ext (cgE : CodegenE) (cgS : CodegenS) (hE : KeepsScopesE cgE)
    (hS : KeepsScopesS cgS) (cond : Expr) (contents : Stmt) (kind : LoopKind) (st st1 : CG)
    (h : visit_While cgE cgS cond contents kind st = .ok st1) :
    ScopedMap.ExtendedBy st.symbolTable st1.symbolTable := by
  simp only [visit_While] at h
  split at h
  · simp at h
  · obtain ⟨⟨c, s1⟩, h1, h⟩ := bind_eq_ok h
    obtain ⟨⟨b, s2⟩, h2, h⟩ := bind_eq_ok h
    have e1 := hE _ _ _ _ h1
    have e2 := CreateCondBr_symbolTable _ _ _ _ _ h2
    split at h
    · simp at h
    · split at h
      · simp at h
      · rename_i s3 h3
        have e3 := hS _ _ _ h3
        simp only [addIncoming, updateInstr_symbolTable] at e3
        split at h
        · simp at h
        · simp only [Except.ok.injEq] at h
          subst h
          simp only [SetInsertPoint, addIncoming, updateInstr_symbolTable]
          exact ext_trans e1 (ext_trans (ext_of_eq e2) e3)

/-- After a For loop the scope stack is the one left by lowering `start` and `end`: the
scope of the loop variable is gone with everything bound in it. -/
theorem visit_For_restores (cgE : CodegenE) (cgS : CodegenS) (hE : KeepsScopesE cgE)
    (hS : KeepsScopesS cgS) (var start end_ increment : Expr) (kind : LoopKind) (body : Stmt)
    (st st1 : CG) (h : visit_For cgE cgS var start end_ increment kind body st = .ok st1) :
    ∃ sv s1 ev s2, cgE start st = .ok (sv, s1) ∧ cgE end_ s1 = .ok (ev, s2) ∧
      st1.symbolTable = s2.symbolTable := by
  simp only [visit_For] at h
  split at h
  · simp at h
  · obtain ⟨⟨sv, s1⟩, h1, h⟩ := bind_eq_ok h
    obtain ⟨⟨ev, s2⟩, h2, h⟩ := bind_eq_ok h
    refine ⟨sv, s1, ev, s2, h1, h2, ?_⟩
    split at h
    · simp at h
    · obtain ⟨⟨c, s3⟩, h3, h⟩ := bind_eq_ok h
      obtain ⟨⟨b, s4⟩, h4, h⟩ := bind_eq_ok h
      have e3 := CreateICmp_symbolTable _ _ _ _ _ h3
      have e4 := CreateCondBr_symbolTable _ _ _ _ _ h4
      split at h
      · simp at h
      · split at h
        · obtain ⟨s5, h5, h⟩ := bind_eq_ok h
          obtain ⟨s6, h6, h⟩ := bind_eq_ok h
          obtain ⟨⟨inc, s7⟩, h7, h⟩ := bind_eq_ok h
          obtain ⟨⟨nx, s8⟩, h8, h⟩ := bind_eq_ok h
          have e5 := ext_pushSymbol _ _ _ _ h5
          have e6 := hS _ _ _ h6
          have e7 := hE _ _ _ _ h7
          have e8 := CreateBinOp_symbolTable _ _ _ _ _ h8
          split at h
          · simp at h
          · obtain ⟨⟨c2, s9⟩, h9, h⟩ := bind_eq_ok h
            obtain ⟨⟨b2, s10⟩, h10, h⟩ := bind_eq_ok h
            obtain ⟨s11, h11, h⟩ := bind_eq_ok h
            simp only [pure, Except.pure, Except.ok.injEq] at h
            subst h
            have e9 := CreateICmp_symbolTable _ _ _ _ _ h9
            have e10 := CreateCondBr_symbolTable _ _ _ _ _ h10
            simp only [addIncoming, updateInstr_symbolTable] at e9
            have hpush : ScopedMap.ExtendedBy (ScopedMap.scope s2.symbolTable) s10.symbolTable := by
              have e567 := ext_trans e5 (ext_trans e6 (ext_trans e7 (ext_of_eq e8)))
              have : s10.symbolTable = s8.symbolTable := e10.trans e9
              have e34 : s4.symbolTable = s2.symbolTable := e4.trans e3
              rw [this, ← e34]
              simpa [pushScope, SetInsertPoint, CreatePHI, emit, addIncoming,
                updateInstr_symbolTable] using e567
            exact popScope_of_ext _ s10 s11 hpush h11
        · simp at h

theorem visit_For_ext (cgE : CodegenE) (cgS : CodegenS) (hE : KeepsScopesE cgE)
    (hS : KeepsScopesS cgS) (var start end_ increment : Expr) (kind : LoopKind) (body : Stmt)
    (st st1 : CG) (h : visit_For cgE cgS var start end_ increment kind body st = .ok st1) :
    ScopedMap.ExtendedBy st.symbolTable st1.symbolTable := by
  obtain ⟨sv, s1, ev, s2, h1, h2, e⟩ := visit_For_restores cgE cgS hE hS _ _ _ _ _ _ _ _ h
  exact ext_trans (hE _ _ _ _ h1) (ext_trans (hE _ _ _ _ h2) (ext_of_eq e))

theorem visit_VarAssign_ext (cgE : CodegenE) (hE : KeepsScopesE cgE) (lhs rhs : Expr)
    (is_decl : Bool) (st st1 : CG) (h : visit_VarAssign cgE lhs rhs is_decl st = .ok st1) :
    ScopedMap.ExtendedBy st.symbolTable st1.symbolTable := by
  simp only [visit_VarAssign] at h
  obtain ⟨s1, h1, h⟩ := bind_eq_ok h
  obtain ⟨val, _, h⟩ := bind_eq_ok h
  obtain ⟨⟨r, s2⟩, h2, h⟩ := bind_eq_ok h
  obtain ⟨⟨s, s3⟩, h3, h⟩ := bind_eq_ok h
  simp only [pure, Except.pure, Except.ok.injEq] at h
  subst h
  have e1 : ScopedMap.ExtendedBy st.symbolTable s1.symbolTable := by
    split at h1
    · obtain ⟨ty, _, h1⟩ := bind_eq_ok h1
      obtain ⟨⟨a, sa⟩, ha, h1⟩ := bind_eq_ok h1
      exact ext_trans (ext_of_eq (CreateAlloca_symbolTable _ _ _ ha)) (ext_pushSymbol _ _ _ _ h1)
    · split at h1
      · obtain ⟨⟨a, sa⟩, ha, h1⟩ := bind_eq_ok h1
        simp only [pure, Except.pure, Except.ok.injEq] at h1
        subst h1
        exact hE _ _ _ _ ha
      · simp only [pure, Except.pure, Except.ok.injEq] at h1
        subst h1
        exact ext_refl _
  exact ext_trans e1 (ext_trans (hE _ _ _ _ h2) (ext_of_eq (CreateStore_symbolTable _ _ _ _ h3)))

theorem visit_Store_ext (cgE : CodegenE) (hE : KeepsScopesE cgE) (arr loc data : Expr)
    (st st1 : CG) (h : visit_Store cgE arr loc data st = .ok st1) :
    ScopedMap.ExtendedBy st.symbolTable st1.symbolTable := by
  simp only [visit_Store] at h
  obtain ⟨⟨l, s1⟩, h1, h⟩ := bind_eq_ok h
  obtain ⟨⟨a, s2⟩, h2, h⟩ := bind_eq_ok h
  obtain ⟨⟨g, s3⟩, h3, h⟩ := bind_eq_ok h
  obtain ⟨⟨d, s4⟩, h4, h⟩ := bind_eq_ok h
  obtain ⟨⟨s, s5⟩, h5, h⟩ := bind_eq_ok h
  simp only [pure, Except.pure, Except.ok.injEq] at h
  subst h
  exact ext_trans (hE _ _ _ _ h1) (ext_trans (hE _ _ _ _ h2)
    (ext_trans (ext_of_eq (CreateGEP_symbolTable _ _ _ _ h3))
      (ext_trans (hE _ _ _ _ h4) (ext_of_eq (CreateStore_symbolTable _ _ _ _ h5)))))

theorem visitStmt_ext (cgE : CodegenE) (cgS accept : CodegenS) (hE : KeepsScopesE cgE)
    (hS : KeepsScopesS cgS) (s : Stmt) (st st1 : CG)
    (h : visitStmt cgE cgS accept s st = .ok st1) :
    ScopedMap.ExtendedBy st.symbolTable st1.symbolTable := by
  cases s with
  | IfThenElse c t e => exact visit_IfThenElse_ext cgE cgS hE hS _ _ _ _ _ h
  | Comment _ =>
    simp only [visitStmt, Except.ok.injEq] at h
    subst h; exact ext_refl _
  | BlankLine =>
    simp only [visitStmt, Except.ok.injEq] at h
    subst h; exact ext_refl _
  | Scope s => exact ext_of_eq (visit_Scope_restores cgS hS _ _ _ h)
  | Case clauses alwaysMatch =>
    simp only [visitStmt, visit_Case] at h
    obtain ⟨r, _, h⟩ := bind_eq_ok h
    exact hS _ _ _ h
  | Switch cases ctl => exact visit_Switch_ext cgE cgS hE hS _ _ _ _ h
  | Function name body inputs outputs =>
    exact absurd h (visit_Function_never_returns _ _ _ _ _ _ _)
  | Allocate var n => exact visit_Allocate_ext cgE hE _ _ _ _ h
  | Block contents => exact visit_Block_ext cgS hS _ _ _ h
  | While c b k => exact visit_While_ext cgE cgS hE hS _ _ _ _ _ h
  | For v s e i k b => exact visit_For_ext cgE cgS hE hS _ _ _ _ _ _ _ _ h
  | VarAssign l r d => exact visit_VarAssign_ext cgE hE _ _ _ _ _ h
  | Store a l d => exact visit_Store_ext cgE hE _ _ _ _ _ h
  | Print =>
    simp only [visitStmt, Except.ok.injEq] at h
    subst h; exact ext_refl _

theorem acceptStmt_keeps_scopes (rtl : Bool) (fuel : Nat) :
    KeepsScopesS (acceptStmt rtl fuel) := by
  induction fuel with
  | zero => intro s st st1 h; simp [acceptStmt] at h
  | succ n ih =>
    intro s st st1 h
    simp only [acceptStmt] at h
    refine visitStmt_ext _ _ _ (codegen_keeps_scopes rtl n) ?_ s st st1 h
    intro s2 st2 st3 h2
    exact ih s2 { st2 with value := Value.null } st3 h2

theorem armsShare_of_eq {cgS : CodegenS} {arms : List Stmt} {m m1 m2 : ScopedMap}
    (h : ArmsShareScope cgS arms m m1) (e : m1 = m2) : ArmsShareScope cgS arms m m2 := e ▸ h

theorem armsShare_from {cgS : CodegenS} {arms : List Stmt} {m m0 m1 : ScopedMap}
    (h : ArmsShareScope cgS arms m m1) (e : m = m0) : ArmsShareScope cgS arms m0 m1 := e ▸ h

theorem switch_loop_arms (cgS : CodegenS) (hS : KeepsScopesS cgS) (cases : List (Expr × Stmt))
    (after : Nat) (sw : InstrRef) (n i : Nat) (st st1 : CG) (hn : i + n = cases.length)
    (h : visit_Switch.loop cgS cases after sw n i st = .ok st1) :
    ArmsShareScope cgS ((cases.drop i).map Prod.snd) st.symbolTable st1.symbolTable := by
  induction n generalizing i st with
  | zero =>
    simp only [visit_Switch.loop, Except.ok.injEq] at h
    subst h
    have : cases.drop i = [] := List.drop_eq_nil_of_le (by omega)
    rw [this]
    exact ArmsShareScope.nil _
  | succ n ih =>
    simp only [visit_Switch.loop] at h
    have hi : i < cases.length := by omega
    have hd : cases.drop i = cases[i] :: cases.drop (i + 1) := List.drop_eq_getElem_cons hi
    have hg : cases.get? i = some cases[i] := by
      rw [List.get?_eq_getElem?]; exact List.getElem?_eq_getElem hi
    rw [hg] at h
    simp only at h
    obtain ⟨s1, h1, h⟩ := bind_eq_ok h
    split at h
    · split at h
      · obtain ⟨ty, _, h⟩ := bind_eq_ok h
        obtain ⟨c, _, h⟩ := bind_eq_ok h
        have r := ih (i + 1) _ (by omega) h
        simp only [addCase, updateInstr_symbolTable] at r
        rw [hd]
        simp only [List.map_cons]
        exact armsShare_from (ArmsShareScope.cons _ _ _ _ _ h1 (hS _ _ _ h1) r) rfl
      · simp at h
    · simp at h

/-- When an IfThenElse, a While or a Switch lowers, its condition (or control expression) is
lowered on the symbol table of the entry state, and the arms are lowered one after the other
on one scope stack: the first arm on the table the condition left, each next arm on the table
the previous arm left, and the table after the construct is what the last arm left. -/
theorem arms_on_one_stack (rtl : Bool) (fuel : Nat) (s : Stmt) (c : Expr)
    (arms : List Stmt) (st st1 : CG) (ha : s.arms = some (c, arms))
    (h : codegenStmt rtl (fuel + 1) s st = .ok st1) :
    ∃ sa v sc, sa.symbolTable = st.symbolTable ∧ codegen rtl fuel c sa = .ok (v, sc) ∧
      ScopedMap.ExtendedBy st.symbolTable sc.symbolTable ∧
      ArmsShareScope (codegenStmt rtl fuel) arms sc.symbolTable st1.symbolTable ∧
      ScopedMap.ExtendedBy sc.symbolTable st1.symbolTable := by
  have hE := codegen_keeps_scopes rtl fuel
  have hS : KeepsScopesS (codegenStmt rtl fuel) := by
    intro s2 st2 st3 h2
    exact acceptStmt_keeps_scopes rtl fuel s2 { st2 with value := Value.null } st3 h2
  have hunf : codegenStmt rtl (fuel + 1) s st
      = visitStmt (codegen rtl fuel) (codegenStmt rtl fuel) (acceptStmt rtl fuel) s
          { st with value := Value.null } := rfl
  rw [hunf] at h
  cases s with
  | IfThenElse cond t e =>
    simp only [Stmt.arms, Option.some.injEq, Prod.mk.injEq] at ha
    obtain ⟨rfl, rfl⟩ := ha
    simp only [visitStmt, visit_IfThenElse] at h
    obtain ⟨⟨v, s1⟩, h1, h⟩ := bind_eq_ok h
    obtain ⟨⟨b, s2⟩, h2, h⟩ := bind_eq_ok h
    obtain ⟨s3, h3, h⟩ := bind_eq_ok h
    obtain ⟨s4, h4, h⟩ := bind_eq_ok h
    simp only [pure, Except.pure, Except.ok.injEq] at h
    subst h
    have e2 : s2.symbolTable = s1.symbolTable := CreateCondBr_symbolTable _ _ _ _ _ h2
    have a2 := ArmsShareScope.cons _ [] _ _ _ h4 (hS _ _ _ h4) (ArmsShareScope.nil _)
    have a1 := ArmsShareScope.cons _ _ _ _ _ h3 (hS _ _ _ h3) a2
    have eh1 : ScopedMap.ExtendedBy st.symbolTable s1.symbolTable := (hE _ _ _ _ h1 :)
    refine ⟨_, v, s1, ?_, h1, eh1, armsShare_from a1 e2, ?_⟩
    · rfl
    have x3 := hS _ _ _ h3
    have x4 := hS _ _ _ h4
    exact ext_trans (ext_of_eq e2) (ext_trans x3 x4)
  | While cond contents kind =>
    simp only [Stmt.arms, Option.some.injEq, Prod.mk.injEq] at ha
    obtain ⟨rfl, rfl⟩ := ha
    simp only [visitStmt, visit_While] at h
    split at h
    · simp at h
    · obtain ⟨⟨v, s1⟩, h1, h⟩ := bind_eq_ok h
      obtain ⟨⟨b, s2⟩, h2, h⟩ := bind_eq_ok h
      have e2 : s2.symbolTable = s1.symbolTable := CreateCondBr_symbolTable _ _ _ _ _ h2
      split at h
      · simp at h
      · split at h
        · simp at h
        · rename_i s3 h3
          split at h
          · simp at h
          · simp only [Except.ok.injEq] at h
            subst h
            have a1 := ArmsShareScope.cons _ [] _ _ _ h3 (hS _ _ _ h3) (ArmsShareScope.nil _)
            have e3 := hS _ _ _ h3
            simp only [addIncoming, updateInstr_symbolTable] at e3
            have eh1 : ScopedMap.ExtendedBy st.symbolTable s1.symbolTable := (hE _ _ _ _ h1 :)
            refine ⟨_, v, s1, ?_, h1, eh1, ?_, ?_⟩
            · rfl
            · exact armsShare_of_eq (armsShare_from a1 e2) rfl
            · exact ext_trans (ext_of_eq e2) e3
  | Switch cases ctl =>
    simp only [Stmt.arms, Option.some.injEq, Prod.mk.injEq] at ha
    obtain ⟨rfl, rfl⟩ := ha
    simp only [visitStmt, visit_Switch] at h
    obtain ⟨⟨v, s1⟩, h1, h⟩ := bind_eq_ok h
    obtain ⟨⟨sw, s2⟩, h2, h⟩ := bind_eq_ok h
    obtain ⟨s3, h3, h⟩ := bind_eq_ok h
    simp only [pure, Except.pure, Except.ok.injEq] at h
    subst h
    have e2 : s2.symbolTable = s1.symbolTable := CreateSwitch_symbolTable _ _ _ _ h2
    have a := switch_loop_arms _ hS cases _ _ _ 0 _ _ (by simp) h3
    simp only [List.drop_zero] at a
    have eh1 : ScopedMap.ExtendedBy st.symbolTable s1.symbolTable := (hE _ _ _ _ h1 :)
    refine ⟨_, v, s1, ?_, h1, eh1, armsShare_from a e2, ?_⟩
    · rfl
    have x3 := visit_Switch_loop_ext _ hS _ _ _ _ _ _ _ h3
    exact ext_trans (ext_of_eq e2) x3
  | _ => simp [Stmt.arms] at ha

/-- A binding that is found stays found when bindings are added to the innermost scope. -/
theorem ext_found {m m1 : ScopedMap} (h : ScopedMap.ExtendedBy m m1) (x : String) (v : Value)
    (hx : m.find? x = some v) : ∃ v1, m1.find? x = some v1 := by
  cases m with
  | nil => simp [ScopedMap.find?] at hx
  | cons a t =>
    cases m1 with
    | nil => exact absurd h (by simp [ScopedMap.ExtendedBy])
    | cons b t1 =>
      obtain ⟨rfl, added, rfl⟩ := h
      simp only [ScopedMap.find?] at hx ⊢
      cases hl : List.lookup x (added ++ a) with
      | some w => exact ⟨w, rfl⟩
      | none =>
        have ha : List.lookup x a = none := by
          induction added with
          | nil => simpa using hl
          | cons p ps ih =>
            simp only [List.cons_append, List.lookup] at hl
            split at hl
            · simp at hl
            · exact ih hl
        simp only [ha] at hx
        exact ⟨v, hx⟩

theorem lookup_append_some {α : Type} (x : String) (a b : List (String × α)) (v : α)
    (h : a.lookup x = some v) : (a ++ b).lookup x = some v := by
  induction a with
  | nil => simp at h
  | cons p ps ih =>
    obtain ⟨k, w⟩ := p
    simp only [List.cons_append, List.lookup] at h ⊢
    cases hk : x == k with
    | true => simp only [hk] at h ⊢; exact h
    | false => simp only [hk] at h ⊢; exact ih h

theorem lookup_append_none {α : Type} (x : String) (a b : List (String × α))
    (h : a.lookup x = none) : (a ++ b).lookup x = b.lookup x := by
  induction a with
  | nil => rfl
  | cons p ps ih =>
    obtain ⟨k, w⟩ := p
    simp only [List.cons_append, List.lookup] at h ⊢
    cases hk : x == k with
    | true => simp [hk] at h
    | false => simp only [hk] at h ⊢; exact ih h

theorem added_of_append (added h : List (String × Value)) (t t1 : ScopedMap) :
    ScopedMap.added (h :: t) ((added ++ h) :: t1) = added := by
  simp [ScopedMap.added]

/-- Adding bindings to the innermost scope keeps every name found, with the value of the
latest added binding for the name, or else the old value. -/
theorem stillFinds_of_ext {m m1 : ScopedMap} (h : ScopedMap.ExtendedBy m m1) :
    ScopedMap.StillFinds m m1 := by
  refine ⟨h, ?_⟩
  intro name v hx
  cases m with
  | nil => simp [ScopedMap.find?] at hx
  | cons a t =>
    cases m1 with
    | nil => exact absurd h (by simp [ScopedMap.ExtendedBy])
    | cons b t1 =>
      obtain ⟨rfl, added, rfl⟩ := h
      rw [added_of_append]
      simp only [ScopedMap.find?] at hx ⊢
      cases hl : List.lookup name added with
      | some w => simp [lookup_append_some name added a w hl]
      | none =>
        rw [lookup_append_none name added a hl]
        simp only [Option.getD_none]
        exact hx

theorem armsInTurn_of_share {cgS : CodegenS} {arms : List Stmt} {m m1 : ScopedMap}
    (h : ArmsShareScope cgS arms m m1) :
    ∃ tables, ArmsInTurn cgS arms m tables ∧ (m :: tables).getLast? = some m1 ∧
      List.Chain ScopedMap.ExtendedBy m tables := by
  induction h with
  | nil m => exact ⟨[], ArmsInTurn.nil m, rfl, List.Chain.nil⟩
  | cons s rest sa sb m1 harm hext hrest ih =>
    obtain ⟨tables, ht, hl, hc⟩ := ih
    refine ⟨sb.symbolTable :: tables, ArmsInTurn.cons s rest sa sb tables harm ht, ?_,
      List.Chain.cons hext hc⟩
    rw [List.getLast?_cons_cons]
    exact hl

theorem pairwise_of_chain (m : ScopedMap) (tables : List ScopedMap)
    (h : List.Chain ScopedMap.ExtendedBy m tables) :
    List.Pairwise ScopedMap.StillFinds (m :: tables) := by
  haveI : IsTrans ScopedMap ScopedMap.ExtendedBy := ⟨fun _ _ _ => ext_trans⟩
  exact (List.chain_iff_pairwise.mp h).imp stillFinds_of_ext

/-- C22: lowering an IfThenElse, a While or a Switch pushes no scope for its arms. The
condition (or control expression) is lowered on the symbol table of the entry state and the
arms are lowered in turn, each on the symbol table the previous one left; the table after the
construct is the one the last arm left. Every table in this sequence (on entry, after the
condition, after each arm) is extended by every later one through bindings added to the scope
that was innermost on entry, so a name declared or cached in one arm is found in every later
arm and after the construct: with the same value when no later arm binds the name again, and
with the value of the latest binding otherwise. -/
theorem arms_share_enclosing_scope (rtl : Bool) (fuel : Nat) (s : Stmt) (c : Expr)
    (arms : List Stmt) (st st1 : CG) (ha : s.arms = some (c, arms))
    (h : codegenStmt rtl (fuel + 1) s st = .ok st1) :
    ∃ sa v sc tables, sa.symbolTable = st.symbolTable ∧ codegen rtl fuel c sa = .ok (v, sc) ∧
      ArmsInTurn (codegenStmt rtl fuel) arms sc.symbolTable tables ∧
      (sc.symbolTable :: tables).getLast? = some st1.symbolTable ∧
      List.Pairwise ScopedMap.StillFinds (st.symbolTable :: sc.symbolTable :: tables) := by
  obtain ⟨sa, v, sc, e, hc, eh1, harms, _⟩ :=
    arms_on_one_stack rtl fuel s c arms st st1 ha h
  obtain ⟨tables, ht, hl, hchain⟩ := armsInTurn_of_share harms
  exact ⟨sa, v, sc, tables, e, hc, ht, hl,
    pairwise_of_chain _ _ (List.Chain.cons eh1 hchain)⟩

/-- C22 at concrete inputs: in `if (c1) int32 y = a else y = b` the else branch stores to
the slot the then branch declared, and `y` is still bound to it afterwards; the same holds
for a declaration in a While body and in a Switch case used after the construct; and a
property loaded in the then branch is reused, not loaded again, in the else branch. -/
theorem arms_share_enclosing_scope_witness :
    (∃ sa v sc tables, sa.symbolTable = flowState.symbolTable ∧
      codegen false 2 (Expr.Var (Datatype.UInt 1) "c1") sa = .ok (v, sc) ∧
      ArmsInTurn (codegenStmt false 2) [declY "a", assignY "b"] sc.symbolTable tables ∧
      (sc.symbolTable :: tables).getLast? = some ifDeclLowered.symbolTable ∧
      List.Pairwise ScopedMap.StillFinds (flowState.symbolTable :: sc.symbolTable :: tables)) ∧
    ifDeclLowered.symbolTable.find? "y" = some (Value.inst 1 (LType.ptr (LType.int 32))) ∧
    resultOps (codegenStmt false 3 ifDecl flowState)
      = some [[Op.condbr (Value.arg 0 (LType.int 1)) 1 2],
              [Op.alloca (LType.int 32),
               Op.store (Value.arg 4 (LType.int 32)) (Value.inst 1 (LType.ptr (LType.int 32))),
               Op.br 3],
              [Op.store (Value.arg 5 (LType.int 32)) (Value.inst 1 (LType.ptr (LType.int 32))),
               Op.br 3],
              []] ∧
    (codegenStmt false 4 (Stmt.Block [Stmt.While (Expr.Var (Datatype.UInt 1) "c1") (declY "a")
        LoopKind.Serial, assignY "b"]) flowState).toOption.map
        (fun s => s.symbolTable.find? "y")
      = some (some (Value.inst 2 (LType.ptr (LType.int 32)))) ∧
    (codegenStmt false 4 (Stmt.Block [Stmt.Switch
        [(Expr.Literal (Datatype.UInt 64) 0, declY "a"),
         (Expr.Literal (Datatype.UInt 64) 1, assignY "b")] (Expr.Var (Datatype.UInt 64) "v"),
        assignY "c"]) flowState).toOption.map (fun s => s.symbolTable.find? "y")
      = some (some (Value.inst 1 (LType.ptr (LType.int 32)))) ∧
    resultOps (codegenStmt false 4
        (Stmt.IfThenElse (Expr.Literal (Datatype.UInt 8) 1) readVals readVals) propState)
      = some [[Op.condbr (Value.constInt 8 1) 1 2],
              [Op.gep (Value.arg 0 tacoTensorType.getPointerTo)
                 [Value.constInt 32 0, Value.constInt 32 6],
               Op.load (Value.inst 1 (LType.ptr (LType.ptr (LType.int 8)))),
               Op.store (Value.inst 2 (LType.ptr (LType.int 8)))
                 (Value.arg 1 (LType.ptr (LType.int 8)).getPointerTo),
               Op.br 3],
              [Op.store (Value.inst 2 (LType.ptr (LType.int 8)))
                 (Value.arg 1 (LType.ptr (LType.int 8)).getPointerTo),
               Op.br 3],
              []] := by
  have h : codegenStmt false 3 ifDecl flowState = .ok ifDeclLowered := rfl
  exact ⟨arms_share_enclosing_scope false 2 ifDecl _ _ flowState ifDeclLowered rfl h,
    rfl, rfl, rfl, rfl, rfl⟩

/-- C22, where the value differs: in `if (c1) int32 y = a else int32 y = b` both branches
declare `y`. The then branch binds `y` to the slot of instruction 1 and stores to it; the else
branch binds `y` again, to the slot of instruction 4. After the construct, lookup of `y` finds
instruction 4, not the value bound in the then branch, and a following `y = c` stores there. -/
theorem redeclared_in_later_arm :
    codegenStmt false 3 ifRedecl flowState = .ok ifRedeclLowered ∧
    resultOps (codegenStmt false 3 ifRedecl flowState)
      = some [[Op.condbr (Value.arg 0 (LType.int 1)) 1 2],
              [Op.alloca (LType.int 32),
               Op.store (Value.arg 4 (LType.int 32)) (Value.inst 1 (LType.ptr (LType.int 32))),
               Op.br 3],
              [Op.alloca (LType.int 32),
               Op.store (Value.arg 5 (LType.int 32)) (Value.inst 4 (LType.ptr (LType.int 32))),
               Op.br 3],
              []] ∧
    ifRedeclLowered.symbolTable.find? "y" = some (Value.inst 4 (LType.ptr (LType.int 32))) ∧
    resultOps (codegenStmt false 4 (Stmt.Block [ifRedecl, assignY "c"]) flowState)
      = some [[Op.condbr (Value.arg 0 (LType.int 1)) 1 2],
              [Op.alloca (LType.int 32),
               Op.store (Value.arg 4 (LType.int 32)) (Value.inst 1 (LType.ptr (LType.int 32))),
               Op.br 3],
              [Op.alloca (LType.int 32),
               Op.store (Value.arg 5 (LType.int 32)) (Value.inst 4 (LType.ptr (LType.int 32))),
               Op.br 3],
              [Op.store (Value.arg 6 (LType.int 32)) (Value.inst 4 (LType.ptr (LType.int 32)))]] :=
  ⟨rfl, rfl, rfl, rfl⟩

theorem bindArgs_ext (args : List Expr) (tys : List LType) (i : Nat) (st st1 : CG)
    (h : beginFunc.bindArgs args tys i st = .ok st1) :
    ScopedMap.ExtendedBy st.symbolTable st1.symbolTable := by
  induction tys generalizing i st with
  | nil =>
    simp only [beginFunc.bindArgs, Except.ok.injEq] at h
    subst h
    exact ext_refl _
  | cons ty tys ih =>
    simp only [beginFunc.bindArgs] at h
    split at h
    · obtain ⟨s1, h1, h⟩ := bind_eq_ok h
      exact ext_trans (ext_pushSymbol _ _ _ _ h1) (ih _ _ h)
    · simp at h

/-- The scope `beginFunc` pushes is popped by `endFunc`: when the body is lowered in
between, the scope stack after the function is the one before it. -/
theorem producedFunction_restores (rtl : Bool) (fuel : Nat) (name : String) (body : Stmt)
    (inputs outputs : List Expr) (st s : CG)
    (h : producedFunction rtl fuel name body inputs outputs st = .ok s) :
    s.symbolTable = st.symbolTable := by
  simp only [producedFunction] at h
  obtain ⟨s1, h1, h⟩ := bind_eq_ok h
  obtain ⟨s2, h2, h⟩ := bind_eq_ok h
  have e1 : ScopedMap.ExtendedBy (ScopedMap.scope st.symbolTable) s1.symbolTable :=
    (bindArgs_ext _ _ _ _ _ h1 :)
  have e2 := acceptStmt_keeps_scopes rtl fuel body s1 s2 h2
  simp only [endFunc] at h
  obtain ⟨z, _, h⟩ := bind_eq_ok h
  obtain ⟨s3, h3, h⟩ := bind_eq_ok h
  simp only [pure, Except.pure, Except.ok.injEq] at h
  subst h
  exact popScope_of_ext st.symbolTable (CreateRet z s2).2 s3 (ext_trans e1 e2 :) h3

/-- C27: a statement that lowers leaves as many scopes as it found, with the enclosing
scopes unchanged and bindings added to the innermost scope only. After a Scope the symbol
table is exactly the one before it, and after a For it is the table left by lowering the
start and end expressions: the scope pushed for the region is gone with every name bound in
it. -/
theorem scopes_paired (rtl : Bool) (fuel : Nat) (s : Stmt) (st st1 : CG)
    (h : codegenStmt rtl (fuel + 1) s st = .ok st1) :
    st1.symbolTable.length = st.symbolTable.length ∧
    ScopedMap.ExtendedBy st.symbolTable st1.symbolTable ∧
    (∀ body, s = Stmt.Scope body → st1.symbolTable = st.symbolTable) ∧
    (∀ var start end_ increment kind body, s = Stmt.For var start end_ increment kind body →
      ∃ sv s1 ev s2, codegen rtl fuel start { st with value := Value.null } = .ok (sv, s1) ∧
        codegen rtl fuel end_ s1 = .ok (ev, s2) ∧ st1.symbolTable = s2.symbolTable) := by
  have hE := codegen_keeps_scopes rtl fuel
  have hS : KeepsScopesS (codegenStmt rtl fuel) := by
    intro s2 st2 st3 h2
    exact acceptStmt_keeps_scopes rtl fuel s2 { st2 with value := Value.null } st3 h2
  have hext : ScopedMap.ExtendedBy st.symbolTable st1.symbolTable :=
    (acceptStmt_keeps_scopes rtl (fuel + 1) s { st with value := Value.null } st1 h :)
  have hunf : codegenStmt rtl (fuel + 1) s st
      = visitStmt (codegen rtl fuel) (codegenStmt rtl fuel) (acceptStmt rtl fuel) s
          { st with value := Value.null } := rfl
  rw [hunf] at h
  refine ⟨ext_length hext, hext, ?_, ?_⟩
  · intro body hs
    subst hs
    exact (visit_Scope_restores _ hS _ _ _ h :)
  · intro var start end_ increment kind body hs
    subst hs
    exact visit_For_restores _ _ hE hS _ _ _ _ _ _ _ _ h

/-- C27 at concrete inputs: after `for (i = 0; i < n; i += 1) int32 y = i` the symbol
table is the one before the loop, and neither `i` nor `y` is found; after `{ int32 y = a }`
the table is unchanged, whereas the bare declaration leaves `y` bound. -/
theorem scopes_paired_witness :
    codegenStmt false 3 loopDecl loopState = .ok loopDeclLowered ∧
    loopDeclLowered.symbolTable.length = loopState.symbolTable.length ∧
    loopDeclLowered.symbolTable = loopState.symbolTable ∧
    loopDeclLowered.symbolTable.find? "i" = none ∧
    loopDeclLowered.symbolTable.find? "y" = none ∧
    (codegenStmt false 3 scopedDecl flowState).toOption.map (fun s => s.symbolTable)
      = some flowState.symbolTable ∧
    (codegenStmt false 3 (declY "a") flowState).toOption.map
        (fun s => s.symbolTable.find? "y")
      = some (some (Value.inst 0 (LType.ptr (LType.int 32)))) := by
  have h : codegenStmt false 3 loopDecl loopState = .ok loopDeclLowered := rfl
  have t := scopes_paired false 2 loopDecl loopState loopDeclLowered h
  obtain ⟨sv, s1, ev, s2, h1, h2, e⟩ := t.2.2.2 _ _ _ _ _ _ rfl
  have h1r : codegen false 2 (Expr.Literal (Datatype.Int 32) 0)
      { loopState with value := Value.null }
        = .ok (Value.constInt 32 0, { loopState with value := Value.constInt 32 0 }) := rfl
  rw [h1r] at h1
  simp only [Except.ok.injEq, Prod.mk.injEq] at h1
  obtain ⟨_, rfl⟩ := h1
  have h2r : codegen false 2 (Expr.Var Int32 "n") { loopState with value := Value.constInt 32 0 }
        = .ok (Value.arg 0 (LType.int 32), { loopState with value := Value.arg 0 (LType.int 32) })
      := rfl
  rw [h2r] at h2
  simp only [Except.ok.injEq, Prod.mk.injEq] at h2
  obtain ⟨_, rfl⟩ := h2
  exact ⟨h, t.1, e, by rw [e]; rfl, by rw [e]; rfl, rfl, rfl⟩

/-! ## Rutherford-Boeing files: reading back what was written, line counts -/

theorem rb.digitChar_spec (d : Nat) (h : d < 10) :
    (rb.digitChar d).isDigit = true ∧ (rb.digitChar d).toNat - 48 = d ∧
    rb.isspace (rb.digitChar d) = false ∧ rb.digitChar d ≠ '\n' ∧
    rb.digitChar d ≠ '-' ∧ rb.digitChar d ≠ '+' := by
  interval_cases d <;> decide

theorem rb.decimal_go_append (fuel n : Nat) (acc : List Char) :
    rb.decimal.go fuel n acc = rb.decimal.go fuel n [] ++ acc := by
  induction fuel generalizing n acc with
  | zero => simp [rb.decimal.go]
  | succ f ih =>
    simp only [rb.decimal.go]
    split
    · simp
    · rw [ih (n / 10) (rb.digitChar (n % 10) :: acc), ih (n / 10) [rb.digitChar (n % 10)]]
      simp

theorem rb.decimal_go_digits (fuel n : Nat) :
    ∀ c ∈ rb.decimal.go fuel n [], ∃ d, d < 10 ∧ c = rb.digitChar d := by
  induction fuel generalizing n with
  | zero => simp [rb.decimal.go]
  | succ f ih =>
    intro c hc
    simp only [rb.decimal.go] at hc
    split at hc
    · simp only [List.mem_singleton] at hc
      exact ⟨n % 10, Nat.mod_lt _ (by decide), hc⟩
    · rw [rb.decimal_go_append] at hc
      simp only [List.mem_append, List.mem_singleton] at hc
      rcases hc with hc | hc
      · exact ih _ c hc
      · exact ⟨n % 10, Nat.mod_lt _ (by decide), hc⟩

theorem rb.decimal_go_ne_nil (fuel n : Nat) : rb.decimal.go (fuel + 1) n [] ≠ [] := by
  simp only [rb.decimal.go]
  split
  · simp
  · rw [rb.decimal_go_append]
    simp

/-- The value `std::stoi` accumulates over a run of digits. -/
theorem rb.decimal_go_value (fuel n : Nat) (h : n < fuel) :
    (rb.decimal.go fuel n []).foldl (fun a c => 10 * a + (c.toNat - 48)) 0 = n := by
  induction fuel generalizing n with
  | zero => omega
  | succ f ih =>
    simp only [rb.decimal.go]
    have hd := (rb.digitChar_spec (n % 10) (Nat.mod_lt _ (by decide))).2.1
    split
    · rename_i h0
      simp only [List.foldl_cons, List.foldl_nil, hd]
      omega
    · rename_i h0
      rw [rb.decimal_go_append]
      simp only [List.foldl_append, List.foldl_cons, List.foldl_nil, hd]
      rw [ih (n / 10) (by omega)]
      omega

theorem rb.decimal_chars (n : Nat) :
    rb.decimal n ≠ [] ∧ ∀ c ∈ rb.decimal n, ∃ d, d < 10 ∧ c = rb.digitChar d :=
  ⟨rb.decimal_go_ne_nil n n, rb.decimal_go_digits (n + 1) n⟩

theorem rb.decimal_value (n : Nat) :
    (rb.decimal n).foldl (fun a c => 10 * a + (c.toNat - 48)) 0 = n :=
  rb.decimal_go_value (n + 1) n (Nat.lt_succ_self n)

theorem rb.takeWhile_all {α : Type} (p : α → Bool) (l : List α) (h : ∀ a ∈ l, p a = true) :
    l.takeWhile p = l := by
  induction l with
  | nil => rfl
  | cons a t ih =>
    have ha := h a (List.mem_cons_self _ _)
    simp only [List.takeWhile_cons, ha, if_true]
    rw [ih (fun b hb => h b (List.mem_cons_of_mem _ hb))]

/-- `std::stoi` reads back the numeral written for a non-negative `int`. -/
theorem rb.stoi_printInt (x : Int) (h0 : 0 ≤ x) (h1 : x ≤ rb.INT_MAX) :
    rb.stoi (rb.printInt x) = .ok x := by
  have hp : rb.printInt x = rb.decimal x.natAbs := by simp [rb.printInt, not_lt.mpr h0]
  obtain ⟨hne, hdig⟩ := rb.decimal_chars x.natAbs
  rw [hp]
  cases hl : rb.decimal x.natAbs with
  | nil => exact absurd hl hne
  | cons c cs =>
    obtain ⟨d, hd, rfl⟩ := hdig c (by rw [hl]; exact List.mem_cons_self _ _)
    obtain ⟨_, _, hsp, _, hminus, hplus⟩ := rb.digitChar_spec d hd
    have hall : ∀ a ∈ rb.digitChar d :: cs, a.isDigit = true := by
      intro a ha
      obtain ⟨e, he, rfl⟩ := hdig a (by rw [hl]; exact ha)
      exact (rb.digitChar_spec e he).1
    have hval := rb.decimal_value x.natAbs
    rw [hl] at hval
    have hdrop : (rb.digitChar d :: cs).dropWhile rb.isspace = rb.digitChar d :: cs := by
      simp [List.dropWhile_cons, hsp]
    have hsign : rb.stoi.sign (rb.digitChar d :: cs) = (false, rb.digitChar d :: cs) := by
      simp only [rb.stoi.sign]
      split
      · rename_i heq
        simp only [List.cons.injEq] at heq
        exact absurd heq.1 hminus
      · rename_i heq
        simp only [List.cons.injEq] at heq
        exact absurd heq.1 hplus
      · rfl
    simp only [rb.stoi, hdrop, hsign]
    simp only [rb.takeWhile_all _ _ hall, List.isEmpty_cons,
      Bool.false_eq_true, if_false, hval]
    have hx : ((x.natAbs : Nat) : Int) = x := Int.natAbs_of_nonneg h0
    rw [hx]
    have hr : ¬ (x < rb.INT_MIN ∨ rb.INT_MAX < x) := by
      simp only [rb.INT_MIN, rb.INT_MAX] at h1 ⊢
      omega
    simp [hr]

theorem rb.words_go_run (t rest cur : List Char) (h : ∀ c ∈ t, rb.isspace c = false) :
    rb.words.go (t ++ rest) cur = rb.words.go rest (t.reverse ++ cur) := by
  induction t generalizing cur with
  | nil => rfl
  | cons c cs ih =>
    have hc := h c (List.mem_cons_self _ _)
    simp only [List.cons_append, rb.words.go, hc, Bool.false_eq_true, if_false]
    have := ih (c :: cur) (fun b hb => h b (List.mem_cons_of_mem _ hb))
    simpa using this

/-- A word followed by a space at the start of a line is the first word of the line. -/
theorem rb.words_cons (t l : List Char) (hne : t ≠ []) (h : ∀ c ∈ t, rb.isspace c = false) :
    rb.words (t ++ ' ' :: l) = t :: rb.words l := by
  simp only [rb.words]
  rw [rb.words_go_run t _ [] h]
  have hsp : rb.isspace ' ' = true := by decide
  have hr : (t.reverse ++ []).isEmpty = false := by
    cases t with
    | nil => exact absurd rfl hne
    | cons a b => simp
  simp only [rb.words.go, hsp, if_true, hr, Bool.false_eq_true, if_false]
  simp

theorem rb.getline_run (t s : List Char) (h : ∀ c ∈ t, c ≠ '\n') :
    rb.getline (t ++ s) = (t ++ (rb.getline s).1, (rb.getline s).2) := by
  induction t with
  | nil => rfl
  | cons c cs ih =>
    have hc : (c != '\n') = true := by simpa using h c (List.mem_cons_self _ _)
    have := ih (fun b hb => h b (List.mem_cons_of_mem _ hb))
    simp only [rb.getline, Prod.mk.injEq] at this
    simp only [rb.getline, List.cons_append, List.takeWhile_cons, List.dropWhile_cons, hc,
      if_true, this.1, this.2]

theorem rb.getline_newline (s : List Char) : rb.getline ('\n' :: s) = ([], s) := by
  simp [rb.getline, List.takeWhile_cons, List.dropWhile_cons]

/-- What `hbfile << x << " "` writes for a non-negative `int`: a non-empty run of characters
that are neither whitespace nor line feeds. -/
theorem rb.printInt_chars (x : Int) (h0 : 0 ≤ x) :
    rb.printInt x ≠ [] ∧ (∀ c ∈ rb.printInt x, rb.isspace c = false) ∧
    (∀ c ∈ rb.printInt x, c ≠ '\n') := by
  have hp : rb.printInt x = rb.decimal x.natAbs := by simp [rb.printInt, not_lt.mpr h0]
  obtain ⟨hne, hdig⟩ := rb.decimal_chars x.natAbs
  rw [hp]
  refine ⟨hne, fun c hc => ?_, fun c hc => ?_⟩
  · obtain ⟨d, hd, rfl⟩ := hdig c hc
    exact (rb.digitChar_spec d hd).2.2.1
  · obtain ⟨d, hd, rfl⟩ := hdig c hc
    exact (rb.digitChar_spec d hd).2.2.2.1

theorem rb.bind_ok {ε α β : Type} {x : Except ε α} {f : α → Except ε β} {b : β}
    (h : (x >>= f) = .ok b) : ∃ a, x = .ok a ∧ f a = .ok b := by
  cases x with
  | error e => simp [bind, Except.bind] at h
  | ok a => exact ⟨a, rfl, h⟩

/-- Reading an entry written at the start of what is left of the current line: its value
comes first, the rest is read as before. -/
theorem rb.read_entry (L : Nat) (x : Int) (s : List Char) (ys : List Int) (rest : List Char)
    (h0 : 0 ≤ x) (h1 : x < rb.INT_MAX)
    (h : rb.readIndices.loop (L + 1) s = .ok (ys, rest)) :
    rb.readIndices.loop (L + 1) (rb.printInt (x + 1) ++ ' ' :: s) = .ok (x :: ys, rest) := by
  obtain ⟨hne, hsp, hnl⟩ := rb.printInt_chars (x + 1) (by omega)
  simp only [rb.readIndices.loop] at h ⊢
  obtain ⟨xs0, hx0, h⟩ := rb.bind_ok h
  obtain ⟨r, hr, h⟩ := rb.bind_ok h
  simp only [pure, Except.pure, Except.ok.injEq, Prod.mk.injEq] at h
  have hg : rb.getline (rb.printInt (x + 1) ++ ' ' :: s)
      = (rb.printInt (x + 1) ++ ' ' :: (rb.getline s).1, (rb.getline s).2) := by
    have := rb.getline_run (rb.printInt (x + 1) ++ [' ']) s (by
      intro c hc
      simp only [List.mem_append, List.mem_singleton] at hc
      rcases hc with hc | rfl
      · exact hnl c hc
      · decide)
    simpa using this
  have hst : rb.stoi (rb.printInt (x + 1)) = .ok (x + 1) :=
    rb.stoi_printInt (x + 1) (by omega) (by omega)
  have hmin : x + 1 ≠ rb.INT_MIN := by
    simp only [rb.INT_MIN]
    omega
  rw [hg]
  simp only [rb.words_cons _ _ hne hsp, rb.readIndices.line, hst, hmin, hx0, hr, bind,
    Except.bind, if_false, pure, Except.pure]
  simp [← h.1, ← h.2]

/-- Reading over a line feed that ends a line with nothing more on it. -/
theorem rb.read_newline (L : Nat) (s : List Char) :
    rb.readIndices.loop (L + 1) ('\n' :: s) = rb.readIndices.loop L s := by
  simp only [rb.readIndices.loop, rb.getline_newline, rb.words, rb.words.go, List.isEmpty_nil,
    if_true, rb.readIndices.line, bind, Except.bind, pure, Except.pure]
  cases rb.readIndices.loop L s with
  | error e => rfl
  | ok r => simp

theorem rb.printInt_count (x : Int) : (rb.printInt x).count '\n' = 0 := by
  rw [List.count_eq_zero]
  intro h
  have hd : ∀ c ∈ rb.decimal x.natAbs, c ≠ '\n' := by
    intro c hc
    obtain ⟨d, hd, rfl⟩ := (rb.decimal_chars x.natAbs).2 c hc
    exact (rb.digitChar_spec d hd).2.2.2.1
  simp only [rb.printInt] at h
  split at h
  · simp only [List.mem_cons] at h
    rcases h with h | h
    · exact absurd h (by decide)
    · exact hd _ h rfl
  · exact hd _ h rfl

/-- The line feeds in the text of a run of entries: one for every counter value in the run
that is a multiple of 16. -/
theorem rb.indexText_count (xs : List Int) (i : Int) (hi : 1 ≤ i) :
    ((rb.indexText i xs).count '\n' : Int) = (i + xs.length - 1) / 16 - (i - 1) / 16 := by
  induction xs generalizing i with
  | nil => simp [rb.indexText]
  | cons x xs ih =>
    have ih1 := ih (i + 1) (by omega)
    have hp := rb.printInt_count (x + 1)
    have hsp : (' ' == '\n') = false := by decide
    simp only [rb.indexText, List.count_append, List.count_cons, hp, hsp, Bool.false_eq_true,
      if_false, List.length_cons, Nat.cast_add, Nat.cast_one, Nat.cast_zero, zero_add]
    split
    · rename_i hm
      simp only [List.count_cons, beq_self_eq_true, if_true, Nat.cast_add, Nat.cast_one]
      rw [ih1]
      omega
    · rename_i hm
      rw [ih1]
      omega

/-- Reading back the text of a run of entries: with as many lines as the text has line
feeds, plus the lines for what follows, the entries come back in order. The line the last
entry is on must end: either what follows is read with at least one line, or the last
counter value is a multiple of 16. -/
theorem rb.read_indexText (xs : List Int) (i : Int) (L : Nat) (s : List Char) (ys : List Int)
    (rest : List Char) (hi : 1 ≤ i) (hx : ∀ x ∈ xs, 0 ≤ x ∧ x < rb.INT_MAX)
    (hL : 1 ≤ L ∨ (i + xs.length - 1) % 16 = 0)
    (h : rb.readIndices.loop L s = .ok (ys, rest)) :
    rb.readIndices.loop ((rb.indexText i xs).count '\n' + L) (rb.indexText i xs ++ s)
      = .ok (xs ++ ys, rest) := by
  induction xs generalizing i with
  | nil => simpa [rb.indexText] using h
  | cons x xs ih =>
    obtain ⟨hx0, hx1⟩ := hx x (List.mem_cons_self _ _)
    have hxs : ∀ y ∈ xs, 0 ≤ y ∧ y < rb.INT_MAX := fun y hy => hx y (List.mem_cons_of_mem _ hy)
    have hL1 : 1 ≤ L ∨ (i + 1 + xs.length - 1) % 16 = 0 := by
      rcases hL with hL | hL
      · exact Or.inl hL
      · right
        simp only [List.length_cons, Nat.cast_add, Nat.cast_one] at hL
        have e : i + 1 + (xs.length : Int) - 1 = i + ((xs.length : Int) + 1) - 1 := by ring
        rw [e]; exact hL
    have ih1 := ih (i + 1) (by omega) hxs hL1
    have hc := rb.indexText_count xs (i + 1) (by omega)
    have hp := rb.printInt_count (x + 1)
    have hsp : (' ' == '\n') = false := by decide
    by_cases hm : i % 16 = 0
    · have hcount : (rb.indexText i (x :: xs)).count '\n'
          = (rb.indexText (i + 1) xs).count '\n' + 1 := by
        simp [rb.indexText, hm, List.count_append, List.count_cons, hp]
      have htext : rb.indexText i (x :: xs) ++ s
          = rb.printInt (x + 1) ++ ' ' :: ('\n' :: (rb.indexText (i + 1) xs ++ s)) := by
        simp [rb.indexText, hm]
      rw [hcount, htext]
      have e : (rb.indexText (i + 1) xs).count '\n' + 1 + L
          = ((rb.indexText (i + 1) xs).count '\n' + L) + 1 := by omega
      rw [e]
      apply rb.read_entry _ x _ _ _ hx0 hx1
      rw [rb.read_newline]
      exact ih1
    · have hcount : (rb.indexText i (x :: xs)).count '\n'
          = (rb.indexText (i + 1) xs).count '\n' := by
        simp [rb.indexText, hm, List.count_append, List.count_cons, hp]
      have htext : rb.indexText i (x :: xs) ++ s
          = rb.printInt (x + 1) ++ ' ' :: (rb.indexText (i + 1) xs ++ s) := by
        simp [rb.indexText, hm]
      rw [hcount, htext]
      have hpos : 1 ≤ (rb.indexText (i + 1) xs).count '\n' + L := by
        rcases hL with hL | hL
        · omega
        · simp only [List.length_cons, Nat.cast_add, Nat.cast_one] at hL
          have : (1 : Int) ≤ ((rb.indexText (i + 1) xs).count '\n' : Int) := by
            rw [hc]; omega
          omega
      obtain ⟨K, hK⟩ : ∃ K, (rb.indexText (i + 1) xs).count '\n' + L = K + 1 :=
        ⟨(rb.indexText (i + 1) xs).count '\n' + L - 1, by omega⟩
      rw [hK] at ih1 ⊢
      exact rb.read_entry _ x _ _ _ hx0 hx1 ih1

/-- The write loop over the entries `xs` that follow `pre` in the array succeeds when no
entry is the largest `int` and the counter stays below it, and writes `indexText`. -/
theorem rb.writeIndices_loop_ok (pre xs post : List Int)
    (hlen : ((pre.length + xs.length : Nat) : Int) < rb.INT_MAX)
    (hx : ∀ x ∈ xs, x ≠ rb.INT_MAX) :
    rb.writeIndices.loop 16 (pre ++ xs ++ post) xs.length (pre.length + 1)
      = .ok (rb.indexText (pre.length + 1) xs) := by
  induction xs generalizing pre with
  | nil => rfl
  | cons x xs ih =>
    have hg : (pre ++ x :: xs ++ post).get? (((pre.length : Int) + 1 - 1).toNat) = some x := by
      have : ((pre.length : Int) + 1 - 1).toNat = pre.length := by omega
      rw [this, List.append_assoc]
      exact get?_append_length pre x (xs ++ post)
    have hx0 := hx x (List.mem_cons_self _ _)
    have hi : ((pre.length : Int) + 1) ≠ rb.INT_MAX := by
      simp only [List.length_cons, rb.INT_MAX] at hlen ⊢
      omega
    have ih1 := ih (pre ++ [x]) (by
      simp only [List.length_append, List.length_singleton, List.length_cons, List.length_nil,
        zero_add] at hlen ⊢
      have : pre.length + 1 + xs.length = pre.length + (xs.length + 1) := by omega
      rw [this]; exact hlen) (fun y hy => hx y (List.mem_cons_of_mem _ hy))
    have e1 : pre ++ [x] ++ xs ++ post = pre ++ x :: xs ++ post := by simp
    have e2 : (((pre ++ [x]).length : Nat) : Int) + 1 = (pre.length : Int) + 1 + 1 := by simp
    rw [e1, e2] at ih1
    have hmod : Int.tmod ((pre.length : Int) + 1) 16 = ((pre.length : Int) + 1) % 16 :=
      Int.tmod_eq_emod (by omega) (by decide)
    simp only [List.length_cons, rb.writeIndices.loop, hg, hx0, if_false, hi, ih1, bind,
      Except.bind, pure, Except.pure, hmod, rb.indexText]
    simp

theorem rb.wrapSigned_small (v : Int) (h0 : -((2 ^ 31 : Nat) : Int) ≤ v)
    (h1 : v < ((2 ^ 31 : Nat) : Int)) : wrapSigned 32 v = v := by
  simp only [wrapSigned]
  norm_num at h0 h1 ⊢
  split <;> omega

/-- The count of lines `writeFile` computes for `n` items at `k` per line, `k` being 16 or
10: the quotient, plus one when there is a remainder. -/
theorem rb.card_value (n : Int) (k : Int) (hk : k = 16 ∨ k = 10) (h0 : 0 ≤ n)
    (h1 : n ≤ rb.INT_MAX) :
    wrapSigned 32 (Int.tdiv n k + (if Int.tmod n k ≠ 0 then 1 else 0))
      = n / k + (if n % k ≠ 0 then 1 else 0) := by
  have hk0 : 0 ≤ k := by rcases hk with rfl | rfl <;> decide
  rw [Int.tdiv_eq_ediv h0 hk0, Int.tmod_eq_emod h0 hk0]
  apply rb.wrapSigned_small
  · simp only [rb.INT_MAX] at h1
    norm_num at h1 ⊢
    rcases hk with rfl | rfl <;> split <;> omega
  · simp only [rb.INT_MAX] at h1
    norm_num at h1 ⊢
    rcases hk with rfl | rfl <;> split <;> omega

/-- What `writeIndices` writes for the whole array `idx`, 16 per line. -/
theorem rb.writeIndices_ok (n : Int) (xs post : List Int) (hn : n = xs.length)
    (hlen : n < rb.INT_MAX) (hx : ∀ x ∈ xs, x ≠ rb.INT_MAX) :
    rb.writeIndices n 16 (xs ++ post)
      = .ok (rb.indexText 1 xs ++ (if n % 16 ≠ 0 then ['\n'] else [])) := by
  subst hn
  have hl := rb.writeIndices_loop_ok [] xs post (by simpa using hlen) hx
  simp only [List.nil_append, List.length_nil, Nat.cast_zero, zero_add] at hl
  have hmod : Int.tmod (xs.length : Int) 16 = (xs.length : Int) % 16 :=
    Int.tmod_eq_emod (by omega) (by decide)
  have h16 : ¬ ((16 : Int) = 0) := by decide
  simp only [rb.writeIndices, Int.toNat_ofNat, hl, bind, Except.bind, hmod, h16, if_false]
  by_cases hm : (xs.length : Int) % 16 = 0 <;> simp [hm, pure, Except.pure]

/-- The writer's loop counter overflows when it has to reach the largest `int`. -/
theorem rb.writeIndices_loop_overflow (l : List Int) (N : Nat) (hN : (N : Int) = rb.INT_MAX)
    (hl : ∀ k, k < N → l.get? k = some 0) (r : Nat) (i : Int) (hi : 1 ≤ i)
    (hr : i + r = rb.INT_MAX) :
    rb.writeIndices.loop 16 l (r + 1) i = .error rb.Failure.undefined := by
  induction r generalizing i with
  | zero =>
    have hi2 : i = rb.INT_MAX := by simpa using hr
    have hg : l.get? (i - 1).toNat = some 0 := hl _ (by omega)
    have h0 : (0 : Int) ≠ rb.INT_MAX := by simp [rb.INT_MAX]
    simp only [rb.writeIndices.loop, hg]
    simp [h0, hi2]
  | succ r ih =>
    have hg : l.get? (i - 1).toNat = some 0 := hl _ (by push_cast at hr; omega)
    have h0 : (0 : Int) ≠ rb.INT_MAX := by simp [rb.INT_MAX]
    have hi2 : i ≠ rb.INT_MAX := by push_cast at hr; omega
    have := ih (i + 1) (by omega) (by push_cast at hr ⊢; omega)
    rw [rb.writeIndices.loop]
    simp only [hg]
    simp [h0, hi2, this, bind, Except.bind]

/-- C28: index arrays round-trip through the text encoding when the number of indices is
below the largest `int`. For every list `idx` of indices, each at least 0 and below the largest
`int`, whose length is below the largest `int`, `writeIndices` with 16 entries per line
produces a text, and `readIndices` on that text, with the line count `ptrcrd` that `writeFile`
computes for that many entries, returns exactly `idx`, in order, and leaves nothing unread. -/
theorem rb.indices_round_trip (idx : List Int) (hx : ∀ x ∈ idx, 0 ≤ x ∧ x < rb.INT_MAX)
    (hn : (idx.length : Int) < rb.INT_MAX) :
    ∃ text, rb.writeIndices idx.length 16 idx = .ok text ∧
      rb.readIndices text (rb.writeFile.cards idx.length 0 0).ptrcrd = .ok (idx, []) := by
  have hw := rb.writeIndices_ok idx.length idx [] rfl hn (fun x h => by
    have := (hx x h).2
    omega)
  rw [List.append_nil] at hw
  refine ⟨_, hw, ?_⟩
  have hcard : (rb.writeFile.cards idx.length 0 0).ptrcrd
      = (idx.length : Int) / 16 + (if (idx.length : Int) % 16 ≠ 0 then 1 else 0) :=
    rb.card_value _ 16 (Or.inl rfl) (by omega) (by omega)
  have hc := rb.indexText_count idx 1 (le_refl _)
  have hc2 : ((rb.indexText 1 idx).count '\n' : Int) = (idx.length : Int) / 16 := by
    rw [hc]; omega
  rw [hcard]
  simp only [rb.readIndices]
  by_cases hm : (idx.length : Int) % 16 = 0
  · have e : ((idx.length : Int) / 16 + (if (idx.length : Int) % 16 ≠ 0 then 1 else 0)).toNat
        = (rb.indexText 1 idx).count '\n' + 0 := by
      simp only [hm, ne_eq, not_true_eq_false, if_false]
      omega
    rw [e]
    simp only [hm, ne_eq, not_true_eq_false, if_false]
    have := rb.read_indexText idx 1 0 [] [] [] (le_refl _) hx
      (Or.inr (by rw [show (1 : Int) + idx.length - 1 = idx.length by ring]; exact hm)) rfl
    simpa using this
  · have e : ((idx.length : Int) / 16 + (if (idx.length : Int) % 16 ≠ 0 then 1 else 0)).toNat
        = (rb.indexText 1 idx).count '\n' + 1 := by
      simp only [hm, ne_eq, not_false_eq_true, if_true]
      omega
    rw [e]
    simp only [hm, ne_eq, not_false_eq_true, if_true]
    have := rb.read_indexText idx 1 1 ['\n'] [] [] (le_refl _) hx (Or.inl (le_refl _)) rfl
    simpa using this

/-- The round trip of C28 on the seventeen indices 0, ..., 16, which take two lines. -/
theorem rb.indices_round_trip_witness :
    ∃ text, rb.writeIndices 17 16 rb.seventeen = .ok text ∧
      rb.readIndices text (rb.writeFile.cards 17 0 0).ptrcrd = .ok (rb.seventeen, []) :=
  rb.indices_round_trip rb.seventeen (by decide) (by decide)

/-- Writing as many entries as the largest `int` is undefined: the loop counter is
incremented once more after the last entry. -/
theorem rb.writeIndices_overflow (l : List Int) (N : Nat) (hN : (N : Int) = rb.INT_MAX)
    (hl : ∀ k, k < N → l.get? k = some 0) :
    rb.writeIndices rb.INT_MAX 16 l = .error rb.Failure.undefined := by
  have hpos : 1 ≤ N := by
    have : (1 : Int) ≤ rb.INT_MAX := by simp [rb.INT_MAX]
    omega
  obtain ⟨M, rfl⟩ : ∃ M, N = M + 1 := ⟨N - 1, by omega⟩
  have ht : rb.INT_MAX.toNat = M + 1 := by rw [← hN]; rfl
  have h := rb.writeIndices_loop_overflow l (M + 1) hN hl M 1 (le_refl _) (by
    rw [← hN]; push_cast; ring)
  simp only [rb.writeIndices, ht, h, bind, Except.bind]

/-- C28, at the excluded size: for an array of `INT_MAX` indices, all 0, `writeIndices`
produces no text. The loop `for (auto i = 1; i <= indsize; i++)` runs its body with
`i = INT_MAX` and then increments `i`, a signed overflow. -/
theorem rb.writeIndices_at_int_max :
    rb.writeIndices rb.INT_MAX 16 (List.replicate (2 ^ 31 - 1) 0)
      = .error rb.Failure.undefined :=
  rb.writeIndices_overflow _ (2 ^ 31 - 1) (by simp only [rb.INT_MAX]; norm_num)
    (fun k hk => by rw [List.get?_eq_getElem?, List.getElem?_replicate, if_pos hk])

theorem rb.writeValues_loop_ok (pre xs post : List rb.Double)
    (hlen : ((pre.length + xs.length : Nat) : Int) < rb.INT_MAX) :
    rb.writeValues.loop 10 (pre ++ xs ++ post) xs.length (pre.length + 1)
      = .ok (rb.valueText (pre.length + 1) xs) := by
  induction xs generalizing pre with
  | nil => rfl
  | cons x xs ih =>
    have hg : (pre ++ x :: xs ++ post).get? (((pre.length : Int) + 1 - 1).toNat) = some x := by
      have : ((pre.length : Int) + 1 - 1).toNat = pre.length := by omega
      rw [this, List.append_assoc]
      exact get?_append_length pre x (xs ++ post)
    have hi : ((pre.length : Int) + 1) ≠ rb.INT_MAX := by
      simp only [List.length_cons, rb.INT_MAX] at hlen ⊢
      omega
    have ih1 := ih (pre ++ [x]) (by
      simp only [List.length_append, List.length_singleton, List.length_cons, List.length_nil,
        zero_add] at hlen ⊢
      have : pre.length + 1 + xs.length = pre.length + (xs.length + 1) := by omega
      rw [this]; exact hlen)
    have e1 : pre ++ [x] ++ xs ++ post = pre ++ x :: xs ++ post := by simp
    have e2 : (((pre ++ [x]).length : Nat) : Int) + 1 = (pre.length : Int) + 1 + 1 := by simp
    rw [e1, e2] at ih1
    have hmod : Int.tmod ((pre.length : Int) + 1) 10 = ((pre.length : Int) + 1) % 10 :=
      Int.tmod_eq_emod (by omega) (by decide)
    have h10 : ¬ ((10 : Int) = 0) := by decide
    simp only [List.length_cons, rb.writeValues.loop, hg, h10, if_false, hi, ih1, bind,
      Except.bind, pure, Except.pure, hmod, rb.valueText]

theorem rb.valueText_count (vs : List rb.Double) (i : Int) (hi : 1 ≤ i)
    (hv : ∀ v ∈ vs, '\n' ∉ v.text) :
    ((rb.valueText i vs).count '\n' : Int) = (i + vs.length - 1) / 10 - (i - 1) / 10 := by
  induction vs generalizing i with
  | nil => simp [rb.valueText]
  | cons v vs ih =>
    have ih1 := ih (i + 1) (by omega) (fun y hy => hv y (List.mem_cons_of_mem _ hy))
    have hp : v.text.count '\n' = 0 := List.count_eq_zero.mpr (hv v (List.mem_cons_self _ _))
    have hpiece : (if v.whole then v.text ++ ['.', '0', ' '] else v.text ++ [' ']).count '\n'
        = 0 := by
      split <;> simp [List.count_append, hp, List.count_cons]
    simp only [rb.valueText, List.count_append, hpiece, zero_add, List.length_cons,
      Nat.cast_add, Nat.cast_one]
    split
    · rename_i hm
      simp only [List.count_cons, beq_self_eq_true, if_true, Nat.cast_add, Nat.cast_one]
      rw [ih1]
      omega
    · rename_i hm
      rw [ih1]
      omega

theorem rb.writeValues_ok (n : Int) (xs post : List rb.Double) (hn : n = xs.length)
    (hlen : n < rb.INT_MAX) :
    rb.writeValues n 10 (xs ++ post)
      = .ok (rb.valueText 1 xs ++ (if n % 10 ≠ 0 then ['\n'] else [])) := by
  subst hn
  have hl := rb.writeValues_loop_ok [] xs post (by simpa using hlen)
  simp only [List.nil_append, List.length_nil, Nat.cast_zero, zero_add] at hl
  have hmod : Int.tmod (xs.length : Int) 10 = (xs.length : Int) % 10 :=
    Int.tmod_eq_emod (by omega) (by decide)
  have h10 : ¬ ((10 : Int) = 0) := by decide
  simp only [rb.writeValues, Int.toNat_ofNat, hl, bind, Except.bind, hmod, h10, if_false]
  by_cases hm : (xs.length : Int) % 10 = 0 <;> simp [hm, pure, Except.pure]

theorem rb.writeValues_loop_overflow (l : List rb.Double) (v : rb.Double) (N : Nat)
    (hN : (N : Int) = rb.INT_MAX) (hl : ∀ k, k < N → l.get? k = some v) (r : Nat) (i : Int)
    (hi : 1 ≤ i) (hr : i + r = rb.INT_MAX) :
    rb.writeValues.loop 10 l (r + 1) i = .error rb.Failure.undefined := by
  induction r generalizing i with
  | zero =>
    have hi2 : i = rb.INT_MAX := by simpa using hr
    have hg : l.get? (i - 1).toNat = some v := hl _ (by omega)
    simp only [rb.writeValues.loop, hg]
    simp [hi2]
  | succ r ih =>
    have hg : l.get? (i - 1).toNat = some v := hl _ (by push_cast at hr; omega)
    have hi2 : i ≠ rb.INT_MAX := by push_cast at hr; omega
    have := ih (i + 1) (by omega) (by push_cast at hr ⊢; omega)
    rw [rb.writeValues.loop]
    simp only [hg]
    simp [hi2, this, bind, Except.bind]

theorem rb.writeValues_overflow (l : List rb.Double) (v : rb.Double) (N : Nat)
    (hN : (N : Int) = rb.INT_MAX) (hl : ∀ k, k < N → l.get? k = some v) :
    rb.writeValues rb.INT_MAX 10 l = .error rb.Failure.undefined := by
  have hpos : 1 ≤ N := by
    have : (1 : Int) ≤ rb.INT_MAX := by simp [rb.INT_MAX]
    omega
  obtain ⟨M, rfl⟩ : ∃ M, N = M + 1 := ⟨N - 1, by omega⟩
  have ht : rb.INT_MAX.toNat = M + 1 := by rw [← hN]; rfl
  have h := rb.writeValues_loop_overflow l v (M + 1) hN hl M 1 (le_refl _) (by
    rw [← hN]; push_cast; ring)
  simp only [rb.writeValues, ht, h, bind, Except.bind]

/-- The line feeds `writeIndices` writes for the first `n` entries of an array. -/
theorem rb.writeIndices_lines (n : Int) (l : List Int) (h0 : 0 ≤ n) (h1 : n < rb.INT_MAX)
    (hl : n ≤ l.length) (hx : ∀ x ∈ l, x ≠ rb.INT_MAX) :
    ∃ t, rb.writeIndices n 16 l = .ok t ∧
      (t.count '\n' : Int) = n / 16 + (if n % 16 ≠ 0 then 1 else 0) := by
  have hlen : (l.take n.toNat).length = n.toNat := by
    rw [List.length_take]; omega
  have hw := rb.writeIndices_ok n (l.take n.toNat) (l.drop n.toNat) (by rw [hlen]; omega) h1
    (fun x hx1 => hx x (List.mem_of_mem_take hx1))
  rw [List.take_append_drop] at hw
  refine ⟨_, hw, ?_⟩
  have hc := rb.indexText_count (l.take n.toNat) 1 (le_refl _)
  rw [hlen] at hc
  simp only [List.count_append, Nat.cast_add, hc]
  split <;> simp <;> omega

/-- The line feeds `writeValues` writes for the first `n` values of an array. -/
theorem rb.writeValues_lines (n : Int) (l : List rb.Double) (h0 : 0 ≤ n) (h1 : n < rb.INT_MAX)
    (hl : n ≤ l.length) (hv : ∀ v ∈ l, '\n' ∉ v.text) :
    ∃ t, rb.writeValues n 10 l = .ok t ∧
      (t.count '\n' : Int) = n / 10 + (if n % 10 ≠ 0 then 1 else 0) := by
  have hlen : (l.take n.toNat).length = n.toNat := by
    rw [List.length_take]; omega
  have hw := rb.writeValues_ok n (l.take n.toNat) (l.drop n.toNat) (by rw [hlen]; omega) h1
  rw [List.take_append_drop] at hw
  refine ⟨_, hw, ?_⟩
  have hc := rb.valueText_count (l.take n.toNat) 1 (le_refl _)
    (fun v hv1 => hv v (List.mem_of_mem_take hv1))
  rw [hlen] at hc
  simp only [List.count_append, Nat.cast_add, hc]
  split <;> simp <;> omega

/-- C29: the line counts of the header agree with the lines written, for sizes below the
largest `int`. For `ptrsize`, `indsize` and `valsize` at least 0 and below the largest `int`,
arrays at least that long, no index entry equal to the largest `int` and no line feed in the
text of a value: the three writes of `writeFile` produce texts, `ptrcrd`, `indcrd` and
`valcrd` are the numbers of line feeds in them and equal `ceil(ptrsize/16)`,
`ceil(indsize/16)` and `ceil(valsize/10)`, `rhscrd` is 0 and
`totcrd = ptrcrd + indcrd + valcrd`. -/
theorem rb.header_line_counts (ptrsize indsize valsize : Int) (colptr rowind : List Int)
    (values : List rb.Double)
    (hp : 0 ≤ ptrsize ∧ ptrsize < rb.INT_MAX ∧ ptrsize ≤ colptr.length)
    (hi : 0 ≤ indsize ∧ indsize < rb.INT_MAX ∧ indsize ≤ rowind.length)
    (hv : 0 ≤ valsize ∧ valsize < rb.INT_MAX ∧ valsize ≤ values.length)
    (hpx : ∀ x ∈ colptr, x ≠ rb.INT_MAX) (hix : ∀ x ∈ rowind, x ≠ rb.INT_MAX)
    (hvt : ∀ v ∈ values, '\n' ∉ v.text) :
    ∃ t1 t2 t3, rb.writeIndices ptrsize 16 colptr = .ok t1 ∧
      rb.writeIndices indsize 16 rowind = .ok t2 ∧
      rb.writeValues valsize 10 values = .ok t3 ∧
      (rb.writeFile.cards ptrsize indsize valsize).ptrcrd = t1.count '\n' ∧
      (rb.writeFile.cards ptrsize indsize valsize).indcrd = t2.count '\n' ∧
      (rb.writeFile.cards ptrsize indsize valsize).valcrd = t3.count '\n' ∧
      (rb.writeFile.cards ptrsize indsize valsize).ptrcrd = (ptrsize + 15) / 16 ∧
      (rb.writeFile.cards ptrsize indsize valsize).indcrd = (indsize + 15) / 16 ∧
      (rb.writeFile.cards ptrsize indsize valsize).valcrd = (valsize + 9) / 10 ∧
      (rb.writeFile.cards ptrsize indsize valsize).rhscrd = 0 ∧
      (rb.writeFile.cards ptrsize indsize valsize).totcrd
        = (rb.writeFile.cards ptrsize indsize valsize).ptrcrd
          + (rb.writeFile.cards ptrsize indsize valsize).indcrd
          + (rb.writeFile.cards ptrsize indsize valsize).valcrd := by
  obtain ⟨t1, hw1, hc1⟩ := rb.writeIndices_lines ptrsize colptr hp.1 hp.2.1 hp.2.2 hpx
  obtain ⟨t2, hw2, hc2⟩ := rb.writeIndices_lines indsize rowind hi.1 hi.2.1 hi.2.2 hix
  obtain ⟨t3, hw3, hc3⟩ := rb.writeValues_lines valsize values hv.1 hv.2.1 hv.2.2 hvt
  have kp : (rb.writeFile.cards ptrsize indsize valsize).ptrcrd
      = ptrsize / 16 + (if ptrsize % 16 ≠ 0 then 1 else 0) :=
    rb.card_value ptrsize 16 (Or.inl rfl) hp.1 (le_of_lt hp.2.1)
  have ki : (rb.writeFile.cards ptrsize indsize valsize).indcrd
      = indsize / 16 + (if indsize % 16 ≠ 0 then 1 else 0) :=
    rb.card_value indsize 16 (Or.inl rfl) hi.1 (le_of_lt hi.2.1)
  have kv : (rb.writeFile.cards ptrsize indsize valsize).valcrd
      = valsize / 10 + (if valsize % 10 ≠ 0 then 1 else 0) :=
    rb.card_value valsize 10 (Or.inr rfl) hv.1 (le_of_lt hv.2.1)
  have hmax : rb.INT_MAX = 2147483647 := by simp only [rb.INT_MAX]; norm_num
  have bp : 0 ≤ ptrsize / 16 + (if ptrsize % 16 ≠ 0 then 1 else 0) ∧
      ptrsize / 16 + (if ptrsize % 16 ≠ 0 then 1 else 0) ≤ 134217728 ∧
      ptrsize / 16 + (if ptrsize % 16 ≠ 0 then 1 else 0) = (ptrsize + 15) / 16 := by
    have := hp.1; have := hp.2.1
    split <;> omega
  have bi : 0 ≤ indsize / 16 + (if indsize % 16 ≠ 0 then 1 else 0) ∧
      indsize / 16 + (if indsize % 16 ≠ 0 then 1 else 0) ≤ 134217728 ∧
      indsize / 16 + (if indsize % 16 ≠ 0 then 1 else 0) = (indsize + 15) / 16 := by
    have := hi.1; have := hi.2.1
    split <;> omega
  have bv : 0 ≤ valsize / 10 + (if valsize % 10 ≠ 0 then 1 else 0) ∧
      valsize / 10 + (if valsize % 10 ≠ 0 then 1 else 0) ≤ 214748365 ∧
      valsize / 10 + (if valsize % 10 ≠ 0 then 1 else 0) = (valsize + 9) / 10 := by
    have := hv.1; have := hv.2.1
    split <;> omega
  have ktot : (rb.writeFile.cards ptrsize indsize valsize).totcrd
      = (rb.writeFile.cards ptrsize indsize valsize).ptrcrd
        + (rb.writeFile.cards ptrsize indsize valsize).indcrd
        + (rb.writeFile.cards ptrsize indsize valsize).valcrd := by
    have e : (rb.writeFile.cards ptrsize indsize valsize).totcrd
        = wrapSigned 32 (wrapSigned 32 (wrapSigned 32
            ((rb.writeFile.cards ptrsize indsize valsize).ptrcrd
              + (rb.writeFile.cards ptrsize indsize valsize).indcrd)
            + (rb.writeFile.cards ptrsize indsize valsize).valcrd) + 0) := rfl
    rw [e, kp, ki, kv]
    generalize ptrsize / 16 + (if ptrsize % 16 ≠ 0 then 1 else 0) = a at bp ⊢
    generalize indsize / 16 + (if indsize % 16 ≠ 0 then 1 else 0) = b at bi ⊢
    generalize valsize / 10 + (if valsize % 10 ≠ 0 then 1 else 0) = c at bv ⊢
    have h1 : wrapSigned 32 (a + b) = a + b :=
      rb.wrapSigned_small (a + b) (by norm_num; omega) (by norm_num; omega)
    have h2 : wrapSigned 32 (a + b + c) = a + b + c :=
      rb.wrapSigned_small (a + b + c) (by norm_num; omega) (by norm_num; omega)
    have h3 : wrapSigned 32 (a + b + c + 0) = a + b + c :=
      (congrArg (wrapSigned 32) (add_zero (a + b + c))).trans h2
    rw [h1, h2, h3]
  refine ⟨t1, t2, t3, hw1, hw2, hw3, ?_, ?_, ?_, ?_, ?_, ?_, rfl, ktot⟩
  · rw [kp, hc1]
  · rw [ki, hc2]
  · rw [kv, hc3]
  · rw [kp]; exact bp.2.2
  · rw [ki]; exact bi.2.2
  · rw [kv]; exact bv.2.2

/-- The line counts of C29 for 17 pointers, 2 indices and 11 values: 2, 1 and 2 lines. -/
theorem rb.header_line_counts_witness :
    ∃ t1 t2 t3, rb.writeIndices 17 16 rb.seventeen = .ok t1 ∧
      rb.writeIndices 2 16 [0, 1] = .ok t2 ∧
      rb.writeValues 11 10 rb.elevenValues = .ok t3 ∧
      (rb.writeFile.cards 17 2 11).ptrcrd = t1.count '\n' ∧
      (rb.writeFile.cards 17 2 11).indcrd = t2.count '\n' ∧
      (rb.writeFile.cards 17 2 11).valcrd = t3.count '\n' ∧
      (rb.writeFile.cards 17 2 11).ptrcrd = (17 + 15) / 16 ∧
      (rb.writeFile.cards 17 2 11).indcrd = (2 + 15) / 16 ∧
      (rb.writeFile.cards 17 2 11).valcrd = (11 + 9) / 10 ∧
      (rb.writeFile.cards 17 2 11).rhscrd = 0 ∧
      (rb.writeFile.cards 17 2 11).totcrd
        = (rb.writeFile.cards 17 2 11).ptrcrd + (rb.writeFile.cards 17 2 11).indcrd
          + (rb.writeFile.cards 17 2 11).valcrd :=
  rb.header_line_counts 17 2 11 rb.seventeen [0, 1] rb.elevenValues (by decide) (by decide)
    (by decide) (by decide) (by decide) (by decide)

/-- C29, at the excluded size: for `valsize = INT_MAX` the header count `valcrd` is
214748365, but `writeValues` on `INT_MAX` values produces no text, since its loop counter
overflows after the last iteration. -/
theorem rb.writeValues_at_int_max :
    (rb.writeFile.cards 0 0 rb.INT_MAX).valcrd = 214748365 ∧
    rb.writeValues rb.INT_MAX 10 (List.replicate (2 ^ 31 - 1) ⟨['1'], true⟩)
      = .error rb.Failure.undefined :=
  ⟨by decide,
   rb.writeValues_overflow _ ⟨['1'], true⟩ (2 ^ 31 - 1) (by simp only [rb.INT_MAX]; norm_num)
    (fun k hk => by rw [List.get?_eq_getElem?, List.getElem?_replicate, if_pos hk])⟩

end ir
end taco
